import Mathlib

/-!
# The external flash driver of the sky platform (`arch/platform/sky/dev/xmem.c`)

A shallow embedding of the M25P80 driver.  The driver talks to the chip over
the SPI bus; every primitive it uses (`splhigh`, `SPI_WRITE`, ...) is a step on
an explicit machine state that holds the interrupt-mask level, the chip-select
line, the chip itself and the trace of everything that happened so far.

The MCU of the sky platform is the 16-bit MSP430: `int` has 16 bits,
`long` and `unsigned long` have 32 bits.
-/

namespace Xmem

/-! ## Machine integers -/

/-- Width of `int` on the MSP430. -/
def INT_BITS : Nat := 16

/-- Width of `long` and `unsigned long` on the MSP430. -/
def LONG_BITS : Nat := 32

/-- Conversion of an integer value to `unsigned long` (reduction modulo `2^32`). -/
def toULong (x : Int) : Nat := (x % 2 ^ LONG_BITS).toNat

/-- Conversion of an integer value to `int` (two's complement wrap to 16 bits). -/
def toCInt (x : Int) : Int := (x + 2 ^ (INT_BITS - 1)) % 2 ^ INT_BITS - 2 ^ (INT_BITS - 1)

/-- Conversion of an integer value to `unsigned char`, also what reaches an
8-bit SPI data register. -/
def toU8 (x : Int) : Nat := (x % 256).toNat

/-- The C operator `~` on a (promoted) `int` value. -/
def bnot (x : Int) : Int := -x - 1

/-! ## Constants of the driver -/

def SPI_FLASH_INS_WREN : Nat := 0x06
def SPI_FLASH_INS_WRDI : Nat := 0x04
def SPI_FLASH_INS_RDSR : Nat := 0x05
def SPI_FLASH_INS_WRSR : Nat := 0x01
def SPI_FLASH_INS_READ : Nat := 0x03
def SPI_FLASH_INS_FAST_READ : Nat := 0x0b
def SPI_FLASH_INS_PP : Nat := 0x02
def SPI_FLASH_INS_SE : Nat := 0xd8
def SPI_FLASH_INS_BE : Nat := 0xc7
def SPI_FLASH_INS_DP : Nat := 0xb9
def SPI_FLASH_INS_RES : Nat := 0xab

def SECTOR_SIZE : Nat := 0x10000
def PAGE_SIZE : Nat := 0x100

/-- Modelled from the spec: `XMEM_ERASE_UNIT_SIZE` is declared in `dev/xmem.h`,
which is not part of the sources at hand; the erase unit is 65536 bytes. -/
def XMEM_ERASE_UNIT_SIZE : Nat := 65536

def CANARY1 : List Nat := [0xe7, 0x1d, 0xe5, 0xce]
def CANARY2 : List Nat := [0xca, 0xfe, 0xba, 0xbe]
def CANARY3 : List Nat := [0xde, 0xad, 0xbe, 0xef]

/-! ## The chip

The flash chip is the environment of the driver.  It is a small machine that
collects the bytes shifted in while it is selected and acts on the collected
command when it is deselected.  Its rules are those the driver is written
against: a write-enable latch that must be set before a program or erase
command and is cleared by it, a busy flag in bit 0 of the status register during
which commands are ignored, programming that can only clear bits, and erasing
that sets a whole sector to `0xFF`. -/

/-- The 24-bit address carried by three command bytes, most significant first. -/
def addr24 (a2 a1 a0 : Nat) : Nat := a2 * 65536 + a1 * 256 + a0

/-- Page program: the streamed bytes land on consecutive addresses from `a` on;
programming can only clear bits, so each cell becomes the AND of its old
content and the streamed byte. -/
def programMem (mem : Nat → Nat) (a : Nat) (data : List Nat) : Nat → Nat :=
  fun x => if a ≤ x ∧ x < a + data.length then mem x &&& data.getD (x - a) 0xFF else mem x

/-- Sector erase: every byte of the 65536-byte sector holding `a` becomes `0xFF`. -/
def eraseMem (mem : Nat → Nat) (a : Nat) : Nat → Nat :=
  fun x => if x / 65536 = a / 65536 then 0xFF else mem x

structure Chip where
  /-- physical content of each cell -/
  mem : Nat → Nat
  /-- number of further status reads that still report write-in-progress -/
  busy : Nat
  /-- write-enable latch -/
  wel : Bool
  /-- status-register bits 2..7, which the driver never interprets -/
  sr : Nat
  /-- how long (in status reads) a page program keeps the chip busy -/
  tpp : Nat
  /-- how long (in status reads) a sector erase keeps the chip busy -/
  tse : Nat
  /-- bytes shifted in since chip-select was asserted -/
  cmd : List Nat
  /-- bytes shifted out since chip-select was asserted -/
  nout : Nat

namespace Chip

/-- The status register: bit 0 is write-in-progress, bit 1 the write-enable latch. -/
def status (c : Chip) : Nat :=
  ((if c.busy = 0 then 0 else 1) + (if c.wel then 2 else 0) + 4 * c.sr) % 256

/-- Chip-select asserted: a new command starts. -/
def select (c : Chip) : Chip := { c with cmd := [], nout := 0 }

/-- One byte shifted into the chip. -/
def tx (b : Nat) (c : Chip) : Chip := { c with cmd := c.cmd ++ [b] }

/-- One byte shifted out of the chip.  After a read-status opcode the chip
answers with its status register; after a read opcode and three address bytes
it streams its memory, unless an internal cycle is in progress. -/
def rx (c : Chip) : Nat × Chip :=
  match c.cmd with
  | [op] =>
    if op = SPI_FLASH_INS_RDSR then
      (c.status, { c with busy := c.busy - 1, nout := c.nout + 1 })
    else (0, c)
  | [op, a2, a1, a0] =>
    if op = SPI_FLASH_INS_READ ∧ c.busy = 0 then
      (c.mem ((addr24 a2 a1 a0 + c.nout) % 2 ^ 24), { c with nout := c.nout + 1 })
    else (0, c)
  | _ => (0, c)

/-- Chip-select deasserted: the collected command is executed.  While an
internal cycle is in progress every command is ignored; program and erase need
the write-enable latch and clear it. -/
def deselect (c : Chip) : Chip :=
  let c0 : Chip := { c with cmd := [], nout := 0 }
  if c.busy ≠ 0 then c0 else
  match c.cmd with
  | [op] => if op = SPI_FLASH_INS_WREN then { c0 with wel := true } else c0
  | op :: a2 :: a1 :: a0 :: data =>
    if op = SPI_FLASH_INS_PP ∧ c.wel = true then
      { c0 with mem := programMem c.mem (addr24 a2 a1 a0) data, busy := c.tpp, wel := false }
    else if op = SPI_FLASH_INS_SE ∧ c.wel = true ∧ data = [] then
      { c0 with mem := eraseMem c.mem (addr24 a2 a1 a0), busy := c.tse, wel := false }
    else c0
  | _ => c0

end Chip

/-! ## Machine state and trace -/

/-- A line written by `printf`. -/
inductive Report where
  /-- `CANARYn W P 0x%08lx O 0x%08lx` -/
  | canaryW (n : Nat) (page : Nat) (off : Nat)
  /-- `CANARYn E P 0x%08lx S 0x%08lx` -/
  | canaryE (n : Nat) (page : Nat) (sector : Nat)
  /-- `ERROR READING PAGE: %08lx` -/
  | errorReadingPage (p : Nat)
  deriving DecidableEq

/-- What the driver can do to the outside world. -/
inductive Event where
  | splhigh
  | splx (l : Nat)
  | enable
  /-- chip-select released; `cmd` are the bytes sent and `nread` the number of
  bytes received while it was asserted -/
  | disable (cmd : List Nat) (nread : Nat)
  | tx (b : Nat)
  | rx (b : Nat)
  | flush
  | txEnded
  | watchdog
  | printf (r : Report)
  | spiInit
  | pinsOut
  | powerOn
  | unhold
  deriving DecidableEq

/-- A trace entry: the event, and the interrupt-mask level and chip-select line
right after it. -/
structure Step where
  ev : Event
  ipl : Nat
  cs : Bool
  deriving DecidableEq

structure State where
  /-- the highest interrupt-mask level of the processor -/
  splmax : Nat
  /-- whether the driver was built with `CANARY` defined -/
  canary : Bool
  /-- current interrupt-mask level -/
  ipl : Nat
  /-- chip-select line asserted -/
  cs : Bool
  chip : Chip
  trace : List Step

namespace State

/-- The event `e` happens: it is appended to the trace together with the
current mask level and chip-select line. -/
def emit (s : State) (e : Event) : State :=
  { s with trace := s.trace ++ [⟨e, s.ipl, s.cs⟩] }

end State

/-! ## Primitives consumed by the driver -/

/-- Modelled from the spec: `splhigh` is not part of the sources at hand; it
raises the interrupt mask to the highest level and returns the previous one. -/
def splhigh (s : State) : Nat × State :=
  (s.ipl, ({ s with ipl := s.splmax }).emit .splhigh)

/-- Modelled from the spec: `splx` is not part of the sources at hand; it
restores the interrupt mask to a saved level. -/
def splx (l : Nat) (s : State) : State :=
  ({ s with ipl := l }).emit (.splx l)

/-- Modelled from the spec: the macro is not part of the sources at hand; it
asserts the chip-select line. -/
def SPI_FLASH_ENABLE (s : State) : State :=
  ({ s with cs := true, chip := s.chip.select }).emit .enable

/-- Modelled from the spec: the macro is not part of the sources at hand; it
deasserts the chip-select line. -/
def SPI_FLASH_DISABLE (s : State) : State :=
  ({ s with cs := false, chip := s.chip.deselect }).emit (.disable s.chip.cmd s.chip.nout)

/-- Modelled from the spec: the macro is not part of the sources at hand; it
sends one byte, the low eight bits of its argument. -/
def SPI_WRITE (x : Int) (s : State) : State :=
  ({ s with chip := if s.cs then s.chip.tx (toU8 x) else s.chip }).emit (.tx (toU8 x))

/-- Modelled from the spec: as `SPI_WRITE`, without waiting for the end of the
transmission. -/
def SPI_WRITE_FAST (x : Int) (s : State) : State := SPI_WRITE x s

/-- Modelled from the spec: the macro is not part of the sources at hand; it
receives one byte into an `unsigned char`. -/
def SPI_READ (s : State) : Nat × State :=
  let r := if s.cs then s.chip.rx else (0, s.chip)
  (r.1 % 256, ({ s with chip := r.2 }).emit (.rx (r.1 % 256)))

/-- Modelled from the spec: the macro is not part of the sources at hand; it
discards what the receiver holds, which shows in the trace only. -/
def SPI_FLUSH (s : State) : State := s.emit .flush

/-- Modelled from the spec: the macro is not part of the sources at hand; it
waits until the bytes written so far have left the transmitter. -/
def SPI_WAITFORTx_ENDED (s : State) : State := s.emit .txEnded

/-- Modelled from the spec: the watchdog service is an external collaborator;
servicing it shows in the trace only. -/
def watchdog_periodic (s : State) : State := s.emit .watchdog

/-- The library function `printf`: the printed line shows in the trace only. -/
def printf (r : Report) (s : State) : State := s.emit (.printf r)

/-! ## The driver -/

/-- The test `!memcmp(b+i, c, 4)`: the four bytes of `b` from index `i` on are
those of `c`. -/
def memcmp4 (b : List Nat) (i : Nat) (c : List Nat) : Bool :=
  decide ((List.range 4).map (fun k => b.getD (i + k) 0) = c)

/-- The loop of `check_write_canary`: `n` iterations from index `i` on, each
printing at most one line. -/
def check_write_canary_loop (b : List Nat) (offset : Nat) : Nat → Nat → State → State
  | 0, _, s => s
  | n + 1, i, s =>
    let s :=
      if memcmp4 b i CANARY1 then
        printf (.canaryW 1 (offset &&& toULong (bnot ((PAGE_SIZE : Int) - 1))) i) s
      else if memcmp4 b i CANARY2 then
        printf (.canaryW 2 (offset &&& toULong (bnot ((PAGE_SIZE : Int) - 1))) i) s
      else if memcmp4 b i CANARY3 then
        printf (.canaryW 3 (offset &&& toULong (bnot ((PAGE_SIZE : Int) - 1))) i) s
      else s
    check_write_canary_loop b offset n (i + 1) s

/-- The function `check_write_canary(b, size, offset)`.  The loop
`for (i=0; size>=4 && i<size-4; i++)` runs `size-4` times when `size >= 4` and
not at all otherwise. -/
def check_write_canary (b : List Nat) (size : Int) (offset : Nat) (s : State) : State :=
  check_write_canary_loop b offset (if size ≥ 4 then (size - 4).toNat else 0) 0 s

/-- The function `write_enable`. -/
def write_enable (s : State) : State :=
  let (sv, s) := splhigh s
  let s := SPI_FLASH_ENABLE s
  let s := SPI_WRITE SPI_FLASH_INS_WREN s
  let s := SPI_FLASH_DISABLE s
  splx sv s

/-- The function `read_status_register`. -/
def read_status_register (s : State) : Nat × State :=
  let (sv, s) := splhigh s
  let s := SPI_FLASH_ENABLE s
  let s := SPI_WRITE SPI_FLASH_INS_RDSR s
  let s := SPI_FLUSH s
  let (u, s) := SPI_READ s
  let s := SPI_FLASH_DISABLE s
  let s := splx sv s
  (u, s)

/-- The function `wait_ready`.  The `do ... while(u & 0x01)` loop has no bound
in the source; the first argument bounds the number of iterations and `none`
means that the bound was hit with the chip still busy. -/
def wait_ready : Nat → State → Option (Nat × State)
  | 0, _ => none
  | fuel + 1, s =>
    let (u, s) := read_status_register s
    let s := watchdog_periodic s
    if u &&& 0x01 ≠ 0 then wait_ready fuel s else some (u, s)

/-- The receive loop of `xmem_pread`, `for(; p < end; p++)`: `n` iterations
from index `p` on, each storing the complement of the received byte. -/
def xmem_pread_loop : Nat → Nat → List Nat → State → List Nat × State
  | 0, _, b, s => (b, s)
  | n + 1, p, b, s =>
    let (u, s) := SPI_READ s
    xmem_pread_loop n (p + 1) (b.set p (toU8 (bnot u))) s

/-- The function `xmem_pread(_p, size, offset)`; the buffer is passed in and
handed back with the return value.  `end - p` is `size`, so the loop runs
`size` times, and not at all for a negative `size`. -/
def xmem_pread (fuel : Nat) (buf : List Nat) (size : Int) (offset : Nat) (s : State) :
    Option ((List Nat × Int) × State) := do
  let (_, s) ← wait_ready fuel s
  let (sv, s) := splhigh s
  let s := SPI_FLASH_ENABLE s
  let s := SPI_WRITE_FAST SPI_FLASH_INS_READ s
  let s := SPI_WRITE_FAST (offset >>> 16 : Nat) s
  let s := SPI_WRITE_FAST (offset >>> 8 : Nat) s
  let s := SPI_WRITE_FAST (offset >>> 0 : Nat) s
  let s := SPI_WAITFORTx_ENDED s
  let s := SPI_FLUSH s
  let (buf, s) := xmem_pread_loop size.toNat 0 buf s
  let s := SPI_FLASH_DISABLE s
  let s := splx sv s
  pure ((buf, size), s)

/-- The inner loop of `check_erase_canary`, `for (i=0; i<PAGE_SIZE-4; i++)`:
`n` iterations from index `i` on. -/
def check_erase_canary_scan (b : List Nat) (p offset : Nat) : Nat → Nat → State → State
  | 0, _, s => s
  | n + 1, i, s =>
    let s :=
      if memcmp4 b i CANARY1 then printf (.canaryE 1 p offset) s
      else if memcmp4 b i CANARY2 then printf (.canaryE 2 p offset) s
      else if memcmp4 b i CANARY3 then printf (.canaryE 3 p offset) s
      else s
    check_erase_canary_scan b p offset n (i + 1) s

/-- The outer loop of `check_erase_canary`,
`for (p=offset; p<offset+SECTOR_SIZE; p+=PAGE_SIZE)`, with `e` the loop bound
and `b` the page buffer.  The first argument is handed to `xmem_pread`, the
second bounds the number of iterations. -/
def check_erase_canary_loop (fuel : Nat) (offset e : Nat) :
    Nat → Nat → List Nat → State → Option State
  | 0, p, _, s => if p < e then none else some s
  | n + 1, p, b, s =>
    if p < e then do
      let ((b, r), s) ← xmem_pread fuel b PAGE_SIZE p s
      let s := if r ≠ PAGE_SIZE then printf (.errorReadingPage p) s else s
      let s := check_erase_canary_scan b p offset (PAGE_SIZE - 4) 0 s
      check_erase_canary_loop fuel offset e n ((p + PAGE_SIZE) % 2 ^ LONG_BITS) b s
    else some s

/-- The function `check_erase_canary(offset)`.  The page buffer `b` starts
with indeterminate content, taken as zeros. -/
def check_erase_canary (fuel : Nat) (offset : Nat) (s : State) : Option State :=
  check_erase_canary_loop fuel offset ((offset + SECTOR_SIZE) % 2 ^ LONG_BITS) fuel offset
    (List.replicate PAGE_SIZE 0) s

/-- The function `erase_sector(offset)`. -/
def erase_sector (fuel : Nat) (offset : Nat) (s : State) : Option State := do
  let (_, s) ← wait_ready fuel s
  let s ← if s.canary then check_erase_canary fuel offset s else pure s
  let s := write_enable s
  let (sv, s) := splhigh s
  let s := SPI_FLASH_ENABLE s
  let s := SPI_WRITE_FAST SPI_FLASH_INS_SE s
  let s := SPI_WRITE_FAST (offset >>> 16 : Nat) s
  let s := SPI_WRITE_FAST (offset >>> 8 : Nat) s
  let s := SPI_WRITE_FAST (offset >>> 0 : Nat) s
  let s := SPI_WAITFORTx_ENDED s
  let s := SPI_FLASH_DISABLE s
  let s := splx sv s
  pure s

/-- The function `xmem_init`. -/
def xmem_init (s : State) : State :=
  let s := s.emit .spiInit
  let s := s.emit .pinsOut
  let s := s.emit .powerOn
  let (sv, s) := splhigh s
  let s := SPI_FLASH_ENABLE s
  let s := SPI_WRITE_FAST SPI_FLASH_INS_RES s
  let s := SPI_WAITFORTx_ENDED s
  let s := SPI_FLASH_DISABLE s
  let s := splx sv s
  s.emit .unhold

/-- The send loop of `program_page`, `for(; p < end; p++)`: `n` iterations from
index `p` of the caller's buffer on, each sending the complement of a byte. -/
def program_page_loop (buf : List Nat) : Nat → Nat → State → Nat × State
  | 0, p, s => (p, s)
  | n + 1, p, s =>
    let s := SPI_WRITE_FAST (bnot (buf.getD p 0)) s
    program_page_loop buf n (p + 1) s

/-- The function `program_page(offset, p, nbytes)`; the pointer `p` is an index
into the caller's buffer `buf`, and the returned pointer is the index reached. -/
def program_page (fuel : Nat) (offset : Nat) (buf : List Nat) (p : Nat) (nbytes : Int)
    (s : State) : Option (Nat × State) := do
  let (_, s) ← wait_ready fuel s
  let s := if s.canary then check_write_canary (buf.drop p) nbytes offset s else s
  let s := write_enable s
  let (sv, s) := splhigh s
  let s := SPI_FLASH_ENABLE s
  let s := SPI_WRITE_FAST SPI_FLASH_INS_PP s
  let s := SPI_WRITE_FAST (offset >>> 16 : Nat) s
  let s := SPI_WRITE_FAST (offset >>> 8 : Nat) s
  let s := SPI_WRITE_FAST (offset >>> 0 : Nat) s
  let (p, s) := program_page_loop buf nbytes.toNat p s
  let s := SPI_WAITFORTx_ENDED s
  let s := SPI_FLASH_DISABLE s
  let s := splx sv s
  pure (p, s)

/-- The start of the chunk after the one starting at `i`, as `xmem_pwrite`
computes it: the next page boundary, or `e` when that is nearer. -/
def next_page (i e : Nat) : Nat :=
  let next_page := ((i ||| 0xff) + 1) % 2 ^ LONG_BITS
  if next_page > e then e else next_page

/-- The loop of `xmem_pwrite`, `for(i = addr; i < end;)`, with `e` the value of
`end`.  The first argument is handed to `program_page`, the second bounds the
number of iterations; `none` means that the bound was hit with `i < end`. -/
def xmem_pwrite_loop (fuel : Nat) (buf : List Nat) (e : Nat) :
    Nat → Nat → Nat → State → Option (Nat × State)
  | 0, i, p, s => if i < e then none else some (p, s)
  | n + 1, i, p, s =>
    if i < e then do
      let np := next_page i e
      let (p, s) ← program_page fuel i buf p (toCInt (toULong ((np : Int) - i))) s
      xmem_pwrite_loop fuel buf e n np p s
    else some (p, s)

/-- The function `xmem_pwrite(_buf, size, addr)`. -/
def xmem_pwrite (fuel : Nat) (buf : List Nat) (size : Int) (addr : Nat) (s : State) :
    Option (Int × State) := do
  let e := toULong ((addr : Int) + size)
  let (_, s) ← xmem_pwrite_loop fuel buf e fuel addr 0 s
  pure (size, s)

/-- The loop of `xmem_erase`,
`for (; addr < end; addr += XMEM_ERASE_UNIT_SIZE)`, with `e` the value of
`end`.  The first argument is handed to `erase_sector`, the second bounds the
number of iterations. -/
def xmem_erase_loop (fuel : Nat) (e : Nat) : Nat → Nat → State → Option State
  | 0, addr, s => if addr < e then none else some s
  | n + 1, addr, s =>
    if addr < e then do
      let s ← erase_sector fuel addr s
      xmem_erase_loop fuel e n ((addr + XMEM_ERASE_UNIT_SIZE) % 2 ^ LONG_BITS) s
    else some s

/-- The function `xmem_erase(size, addr)`.  The `long` value `size` is returned
through the `int` return type. -/
def xmem_erase (fuel : Nat) (size : Int) (addr : Nat) (s : State) : Option (Int × State) :=
  let e := toULong ((addr : Int) + size)
  if size.tmod XMEM_ERASE_UNIT_SIZE ≠ 0 then
    some (-1, s)
  else if addr % XMEM_ERASE_UNIT_SIZE ≠ 0 then
    some (-1, s)
  else do
    let s ← xmem_erase_loop fuel e fuel addr s
    pure (toCInt size, s)

end Xmem
namespace Xmem
/-! ## Vocabulary for traces -/

/-- The state reached from `s` once chip-select is released again, with the
chip in state `c` and the steps `t` added to the trace. -/
def State.after (s : State) (c : Chip) (t : List Step) : State :=
  { s with cs := false, chip := c, trace := s.trace ++ t }

/-- The chip between two commands. -/
def Chip.idle (c : Chip) : Chip := { c with cmd := [], nout := 0 }

/-- The steps of one bus transaction run at mask level `l` on a processor whose
highest level is `m`: the events `body` happen while chip-select is asserted. -/
def txn (l m : Nat) (body : List Event) (cmd : List Nat) (nread : Nat) : List Step :=
  [⟨.splhigh, m, false⟩, ⟨.enable, m, true⟩] ++ body.map (fun e => ⟨e, m, true⟩) ++
    [⟨.disable cmd nread, m, false⟩, ⟨.splx l, l, false⟩]

/-- The status byte of a chip with the given busy count, write-enable latch
and remaining status bits. -/
def statusByte (busy : Nat) (wel : Bool) (sr : Nat) : Nat :=
  ((if busy = 0 then 0 else 1) + (if wel then 2 else 0) + 4 * sr) % 256

/-- The steps of `wait_ready` on a chip that reports write-in-progress for the
next `k` status reads. -/
def pollTrace (l m : Nat) (wel : Bool) (sr : Nat) : Nat → List Step
  | 0 => txn l m [.tx 5, .flush, .rx (statusByte 0 wel sr)] [5] 1 ++ [⟨.watchdog, l, false⟩]
  | k + 1 => txn l m [.tx 5, .flush, .rx (statusByte (k + 1) wel sr)] [5] 1 ++
      [⟨.watchdog, l, false⟩] ++ pollTrace l m wel sr k

/-- The bytes a read command of `n` bytes at address `a` receives. -/
def readData (mem : Nat → Nat) (a n : Nat) : List Nat :=
  (List.range n).map (fun k => mem ((a + k) % 2 ^ 24) % 256)

/-- The steps of `xmem_pread` of `n` bytes at `offset` started in state `s`:
the status polls and the read transaction. -/
def preadTrace (s : State) (offset n : Nat) : List Step :=
  pollTrace s.ipl s.splmax s.chip.wel s.chip.sr s.chip.busy ++
    txn s.ipl s.splmax
      ([.tx 3, .tx ((offset >>> 16) % 256), .tx ((offset >>> 8) % 256),
          .tx ((offset >>> 0) % 256), .txEnded, .flush] ++
        (readData s.chip.mem (offset % 2 ^ 24) n).map Event.rx)
      [3, (offset >>> 16) % 256, (offset >>> 8) % 256, (offset >>> 0) % 256] n

/-- Storing the values `vs` into the buffer `b` from index `p` on. -/
def storeFrom (b : List Nat) (p : Nat) : List Nat → List Nat
  | [] => b
  | v :: vs => storeFrom (b.set p v) (p + 1) vs

/-- The trace steps of a list of `printf` lines printed at mask level `l` with
chip-select in state `cs`. -/
def reportSteps (l : Nat) (cs : Bool) (R : List Report) : List Step :=
  R.map (fun r => ⟨.printf r, l, cs⟩)

/-- The steps `check_write_canary` adds to the trace. -/
def writeCanarySteps (s : State) (b : List Nat) (size : Int) (offset : Nat) : List Step :=
  (check_write_canary b size offset { s with trace := [] }).trace

/-- The bytes `program_page` streams for `n` bytes from index `p` of `buf`. -/
def pageData (buf : List Nat) (p n : Nat) : List Nat :=
  (List.range n).map (fun k => toU8 (bnot (buf.getD (p + k) 0)))

/-- The steps of `program_page(offset, p, nbytes)` started in state `s`: the
status polls, the canary reports, the write-enable command and the
page-program command. -/
def programPageTrace (s : State) (offset : Nat) (buf : List Nat) (p : Nat) (nbytes : Int) :
    List Step :=
  pollTrace s.ipl s.splmax s.chip.wel s.chip.sr s.chip.busy ++
    (if s.canary = true then writeCanarySteps s (buf.drop p) nbytes offset else []) ++
    txn s.ipl s.splmax [.tx 6] [6] 0 ++
    txn s.ipl s.splmax
      ([.tx 2, .tx ((offset >>> 16) % 256), .tx ((offset >>> 8) % 256), .tx (offset % 256)] ++
        (pageData buf p nbytes.toNat).map Event.tx ++ [.txEnded])
      (2 :: (offset >>> 16) % 256 :: (offset >>> 8) % 256 :: offset % 256 ::
        pageData buf p nbytes.toNat) 0

/-- The chip after a page program of `data` at the 24-bit address `a`. -/
def programPageChip (c : Chip) (a : Nat) (data : List Nat) : Chip :=
  { c.idle with mem := programMem c.mem a data, busy := c.tpp, wel := false }

/-- The chip after a sector erase at the 24-bit address `a`. -/
def eraseSectorChip (c : Chip) (a : Nat) : Chip :=
  { c.idle with mem := eraseMem c.mem a, busy := c.tse, wel := false }

/-- The sector-erase transaction of `erase_sector(offset)`. -/
def eraseTxn (l m : Nat) (offset : Nat) : List Step :=
  txn l m
    [.tx 0xd8, .tx ((offset >>> 16) % 256), .tx ((offset >>> 8) % 256), .tx (offset % 256),
      .txEnded]
    [0xd8, (offset >>> 16) % 256, (offset >>> 8) % 256, offset % 256] 0

/-- The commands of a trace in issue order: for each release of chip-select
the bytes sent and the number of bytes received while it was asserted. -/
def commands (T : List Step) : List (List Nat × Nat) :=
  T.filterMap (fun st => match st.ev with
    | .disable c n => some (c, n)
    | _ => none)

/-- The commands of a trace whose first byte is the opcode `op`. -/
def withOpcode (op : Nat) (T : List Step) : List (List Nat × Nat) :=
  (commands T).filter (fun c => c.1.head? = some op)

/-- The 24-bit address a command carries in the three bytes after its opcode. -/
def cmdAddr (c : List Nat) : Nat :=
  match c with
  | _ :: a2 :: a1 :: a0 :: _ => addr24 a2 a1 a0
  | _ => 0

/-- The page-program commands of a trace in issue order, each as its 24-bit
address and its data bytes. -/
def ppCmds (T : List Step) : List (Nat × List Nat) :=
  (withOpcode SPI_FLASH_INS_PP T).map (fun c => (cmdAddr c.1, c.1.drop 4))

/-- The addresses of the sector-erase commands of a trace in issue order. -/
def seCmds (T : List Step) : List Nat :=
  (withOpcode SPI_FLASH_INS_SE T).map (fun c => cmdAddr c.1)

/-- Every command of the trace is a read-status or a read command. -/
def ReadOnly (T : List Step) : Prop :=
  ∀ c ∈ commands T, c.1.head? = some SPI_FLASH_INS_RDSR ∨ c.1.head? = some SPI_FLASH_INS_READ

/-- The list `L` of page-program commands is what the loop of `xmem_pwrite`
issues from chunk start `i` and buffer index `p` on, up to the end `e`. -/
def Chunks (buf : List Nat) (e : Nat) : Nat → Nat → List (Nat × List Nat) → Prop
  | i, _, [] => e ≤ i
  | i, p, (a, d) :: rest =>
    i < e ∧ a = i % 2 ^ 24 ∧ d = pageData buf p (next_page i e - i) ∧
      Chunks buf e (next_page i e) (p + (next_page i e - i)) rest

/-- The list of (address, length) pairs consists of consecutive chunks that
partition `[a, e)`: each chunk starts where the previous one ended, has between
1 and 256 bytes, lies inside one 256-byte page, and ends on a page boundary
unless it is the last one. -/
def PagePartition : Nat → Nat → List (Nat × Nat) → Prop
  | a, e, [] => a = e
  | a, e, (x, n) :: rest =>
    x = a ∧ 1 ≤ n ∧ n ≤ 256 ∧ a / 256 = (a + n - 1) / 256 ∧
      (rest ≠ [] → (a + n) % 256 = 0) ∧ PagePartition (a + n) e rest

/-- The steps a call added to the trace: those of `after` beyond those of
`before`. -/
def newSteps (before after : State) : List Step :=
  after.trace.drop before.trace.length

/-- A state of the machine with an erased, idle chip, for instances. -/
def exampleState : State :=
  { splmax := 7, canary := true, ipl := 0, cs := false,
    chip := { mem := fun _ => 0xFF, busy := 2, wel := false, sr := 0, tpp := 1, tse := 3,
              cmd := [], nout := 0 },
    trace := [] }

/-- Chip-select is asserted only while the interrupt mask is at the highest
level `m`: every step of `T` that leaves chip-select asserted leaves the mask at
`m`. -/
def Guarded (m : Nat) (T : List Step) : Prop :=
  ∀ st ∈ T, st.cs = true → st.ipl = m

/-- The state `s2` is reached from `s` with the interrupt mask and chip-select
untouched all the way. -/
def Quiet (s s2 : State) : Prop :=
  s2.ipl = s.ipl ∧ s2.cs = s.cs ∧ s2.splmax = s.splmax ∧ s2.canary = s.canary ∧
    ∃ T, s2.trace = s.trace ++ T ∧ ∀ st ∈ T, st.ipl = s.ipl ∧ st.cs = s.cs

/-- The state `s2` is reached from `s` with the interrupt mask back at its
level in `s`, chip-select deasserted, and chip-select asserted on the way only
while the mask was at the highest level. -/
def Restores (s s2 : State) : Prop :=
  s2.ipl = s.ipl ∧ s2.cs = false ∧ s2.splmax = s.splmax ∧ s2.canary = s.canary ∧
    ∃ T, s2.trace = s.trace ++ T ∧ Guarded s.splmax T

/-- The steps of the read-back of `check_erase_canary`: page reads, each with
its status polls, and report lines. -/
inductive CanaryReads : List Step → Prop
  | nil : CanaryReads []
  | page (s : State) (p n l : Nat) (R : List Report) (rest : List Step) :
      CanaryReads rest → CanaryReads (preadTrace s p n ++ reportSteps l false R ++ rest)

/-- The command list is made of write-enable commands each immediately
followed by a page-program or sector-erase command, and of commands that are
none of the three. -/
inductive WrenPaired : List (List Nat × Nat) → Prop
  | nil : WrenPaired []
  | other (c : List Nat × Nat) (rest : List (List Nat × Nat)) :
      c.1.head? ≠ some SPI_FLASH_INS_WREN → c.1.head? ≠ some SPI_FLASH_INS_PP →
      c.1.head? ≠ some SPI_FLASH_INS_SE → WrenPaired rest → WrenPaired (c :: rest)
  | pair (w m : List Nat × Nat) (rest : List (List Nat × Nat)) :
      w.1 = [SPI_FLASH_INS_WREN] →
      (m.1.head? = some SPI_FLASH_INS_PP ∨ m.1.head? = some SPI_FLASH_INS_SE) →
      WrenPaired rest → WrenPaired (w :: m :: rest)

/-- In the trace `T`, every page-program and every sector-erase command comes
right after a write-enable command, and there are as many write-enable commands
as page-program and sector-erase commands together. -/
def WrenBefore (T : List Step) : Prop :=
  (∀ (i : Nat) (c : List Nat × Nat), (commands T)[i]? = some c →
    (c.1.head? = some SPI_FLASH_INS_PP ∨ c.1.head? = some SPI_FLASH_INS_SE) →
    ∃ (j : Nat) (w : List Nat × Nat),
      i = j + 1 ∧ (commands T)[j]? = some w ∧ w.1 = [SPI_FLASH_INS_WREN]) ∧
  (withOpcode SPI_FLASH_INS_WREN T).length =
    (withOpcode SPI_FLASH_INS_PP T).length + (withOpcode SPI_FLASH_INS_SE T).length

/-- The lines printed in a trace, in order. -/
def reports (T : List Step) : List Report :=
  T.filterMap (fun st => match st.ev with
    | .printf r => some r
    | _ => none)

/-- The bytes received in a trace, in order. -/
def rxBytes (T : List Step) : List Nat :=
  T.filterMap (fun st => match st.ev with
    | .rx b => some b
    | _ => none)

/-- The number of times the watchdog is serviced in a trace. -/
def watchdogs (T : List Step) : Nat :=
  (T.filter (fun st => decide (st.ev = Event.watchdog))).length

/-- One step of the check that commands are issued to an idle chip.  The state
is whether the chip is known to be idle, and the last byte received.  A
read-status command makes the chip known idle exactly when the status byte it
received has bit 0 (write in progress) clear; a page-program or sector-erase
command needs the chip known idle and ends that knowledge; a read or
write-enable command needs the chip known idle.  `none` stands for a command
issued without that knowledge. -/
def wipStep (st : Bool × Nat) (x : Step) : Option (Bool × Nat) :=
  match x.ev with
  | .rx b => some (st.1, b)
  | .disable c _ =>
    match c.head? with
    | some op =>
      if op = SPI_FLASH_INS_RDSR then some (decide (st.2 &&& 0x01 = 0), st.2)
      else if op = SPI_FLASH_INS_PP ∨ op = SPI_FLASH_INS_SE then
        (if st.1 then some (false, st.2) else none)
      else if op = SPI_FLASH_INS_READ ∨ op = SPI_FLASH_INS_WREN then
        (if st.1 then some st else none)
      else some st
    | none => some st
  | _ => some st

/-- The check of `wipStep` along a trace. -/
def wipRun : Bool × Nat → List Step → Option (Bool × Nat)
  | st, [] => some st
  | st, x :: T => (wipStep st x).bind (fun st2 => wipRun st2 T)

/-- Every read, write-enable, page-program and sector-erase command of the
trace comes after a read-status command that received a status byte with bit 0
clear, with no page-program or sector-erase command in between; nothing is
assumed about the chip before the trace. -/
def PolledIdle (T : List Step) : Prop :=
  ∀ st : Bool × Nat, (wipRun st T).isSome = true

/-- The steps of a trace other than printed lines. -/
def silent (T : List Step) : List Step :=
  T.filter (fun st => match st.ev with
    | .printf _ => false
    | _ => true)

/-- The commands of a trace other than status polls and reads, in issue
order. -/
def mutating (T : List Step) : List (List Nat × Nat) :=
  (commands T).filter (fun c =>
    decide (c.1.head? ≠ some SPI_FLASH_INS_RDSR ∧ c.1.head? ≠ some SPI_FLASH_INS_READ))

/-- Two states of the machine between calls that differ at most in the
diagnostics flag, which is off in the second, and in the trace so far. -/
def Twin (a b : State) : Prop :=
  a.chip = b.chip ∧ a.ipl = b.ipl ∧ a.splmax = b.splmax ∧ a.cs = false ∧ b.cs = false ∧
    b.canary = false

/-- The lines the inner loop of `check_erase_canary` prints in `n` iterations
from index `i` on: one line for each index at which a marker is found. -/
def scanReports (b : List Nat) (p offset : Nat) : Nat → Nat → List Report
  | 0, _ => []
  | n + 1, i =>
    (if memcmp4 b i CANARY1 then [Report.canaryE 1 p offset]
      else if memcmp4 b i CANARY2 then [Report.canaryE 2 p offset]
      else if memcmp4 b i CANARY3 then [Report.canaryE 3 p offset]
      else []) ++ scanReports b p offset n (i + 1)

/-- The byte the driver reads at flash address `x`: the complement of the
stored byte. -/
def logical (mem : Nat → Nat) (x : Nat) : Nat :=
  toU8 (bnot ((mem (x % 2 ^ 24) % 256 : Nat) : Int))

/-- The page buffer `b` after `xmem_pread(b, PAGE_SIZE, p)`. -/
def pageBuf (mem : Nat → Nat) (p : Nat) (b : List Nat) : List Nat :=
  storeFrom b 0 ((readData mem (p % 2 ^ 24) 256).map (fun u : Nat => toU8 (bnot (u : Int))))

/-- The steps of `check_erase_canary` over `k` pages from address `p` on, on an
idle chip: for each page the read, with its status poll, and the lines of the
scan. -/
def eraseCanaryTrace (s : State) (offset : Nat) : Nat → Nat → List Nat → List Step
  | 0, _, _ => []
  | k + 1, p, b =>
    preadTrace s p 256 ++
      reportSteps s.ipl false (scanReports (pageBuf s.chip.mem p b) p offset 252 0) ++
      eraseCanaryTrace s offset k (p + 256) (pageBuf s.chip.mem p b)

/-- A state with diagnostics on whose chip holds the first marker across the
boundary of the pages at 0 and 256: its four bytes, stored complemented, lie at
the addresses 254 to 257. -/
def straddleState : State :=
  { exampleState with
    chip := { exampleState.chip with
      mem := fun x => if x = 254 then 0x18 else if x = 255 then 0xe2
        else if x = 256 then 0x1a else if x = 257 then 0x31 else 0xFF } }

/-- A state with diagnostics on whose chip holds the second marker inside the
page at 768: its four bytes, stored complemented, lie at the addresses 784 to
787. -/
def markedState : State :=
  { exampleState with
    chip := { exampleState.chip with
      mem := fun x => if x = 784 then 0x35 else if x = 785 then 0x01
        else if x = 786 then 0x45 else if x = 787 then 0x41 else 0xFF } }

end Xmem
namespace Xmem
/-! ## Arithmetic of the machine integers -/

@[simp] theorem toU8_nat (n : Nat) : toU8 (n : Int) = n % 256 := by
  unfold toU8; omega

@[simp] theorem toU8_2 : toU8 2 = 2 := by decide
@[simp] theorem toU8_3 : toU8 3 = 3 := by decide
@[simp] theorem toU8_5 : toU8 5 = 5 := by decide
@[simp] theorem toU8_6 : toU8 6 = 6 := by decide
@[simp] theorem toU8_d8 : toU8 216 = 216 := by decide
@[simp] theorem toU8_ab : toU8 171 = 171 := by decide

theorem toU8_bnot (u : Nat) : toU8 (bnot (u : Int)) = 255 - u % 256 := by
  unfold toU8 bnot; omega

theorem lor_ff (i : Nat) : i ||| 0xff = i / 256 * 256 + 255 := by
  have h1 : i = 2^8 * (i / 256) + i % 256 := by omega
  have h2 : ∀ r, r < 256 → r ||| 255 = 255 := by
    intro r hr; interval_cases r <;> rfl
  conv_lhs => rw [h1]
  rw [Nat.mul_add_lt_is_or (by omega), Nat.or_assoc, h2 _ (by omega),
    ← Nat.mul_add_lt_is_or (by omega)]
  omega

theorem status_eq (c : Chip) : c.status = statusByte c.busy c.wel c.sr := rfl

theorem statusByte_lt (b : Nat) (w : Bool) (sr : Nat) : statusByte b w sr < 256 := by
  unfold statusByte; omega

theorem statusByte_wip (b : Nat) (w : Bool) (sr : Nat) :
    statusByte b w sr &&& 1 = if b = 0 then 0 else 1 := by
  rw [Nat.and_one_is_mod]
  unfold statusByte
  split <;> split <;> omega

/-! ## Symbolic execution of the leaf operations -/

@[simp] theorem after_after (s : State) (c c' : Chip) (t t' : List Step) :
    (s.after c t).after c' t' = s.after c' (t ++ t') := by
  simp [State.after]

@[simp] theorem after_cs (s : State) (c : Chip) (t : List Step) : (s.after c t).cs = false := rfl
@[simp] theorem after_ipl (s : State) (c : Chip) (t : List Step) : (s.after c t).ipl = s.ipl := rfl
@[simp] theorem after_splmax (s : State) (c : Chip) (t : List Step) :
    (s.after c t).splmax = s.splmax := rfl
@[simp] theorem after_canary (s : State) (c : Chip) (t : List Step) :
    (s.after c t).canary = s.canary := rfl
@[simp] theorem after_chip (s : State) (c : Chip) (t : List Step) : (s.after c t).chip = c := rfl
@[simp] theorem after_trace (s : State) (c : Chip) (t : List Step) :
    (s.after c t).trace = s.trace ++ t := rfl

theorem write_enable_eq (s : State) (h : s.cs = false) :
    write_enable s = s.after
      (if s.chip.busy = 0 then { s.chip.idle with wel := true } else s.chip.idle)
      (txn s.ipl s.splmax [.tx 6] [6] 0) := by
  simp [write_enable, splhigh, SPI_FLASH_ENABLE, SPI_WRITE, SPI_FLASH_DISABLE, splx, State.emit,
    Chip.select, Chip.tx, Chip.deselect, State.after, txn, h, SPI_FLASH_INS_WREN, Chip.idle]

theorem read_status_register_eq (s : State) (h : s.cs = false) :
    read_status_register s = (statusByte s.chip.busy s.chip.wel s.chip.sr, s.after
      { s.chip.idle with busy := s.chip.busy - 1 }
      (txn s.ipl s.splmax [.tx 5, .flush, .rx (statusByte s.chip.busy s.chip.wel s.chip.sr)]
        [5] 1)) := by
  have := statusByte_lt s.chip.busy s.chip.wel s.chip.sr
  simp [read_status_register, splhigh, SPI_FLASH_ENABLE, SPI_WRITE, SPI_FLASH_DISABLE, splx,
    State.emit, Chip.select, Chip.tx, Chip.deselect, State.after, txn, h, SPI_FLASH_INS_RDSR,
    SPI_FLASH_INS_WREN, Chip.idle, SPI_READ, SPI_FLUSH, Chip.rx, status_eq, Nat.mod_eq_of_lt this]

theorem wait_ready_eq (fuel : Nat) : ∀ (s : State), s.cs = false → s.chip.busy < fuel →
    wait_ready fuel s = some (statusByte 0 s.chip.wel s.chip.sr,
      s.after { s.chip.idle with busy := 0 }
        (pollTrace s.ipl s.splmax s.chip.wel s.chip.sr s.chip.busy)) := by
  induction fuel with
  | zero => intro s _ h; omega
  | succ fuel ih =>
    intro s hcs hb
    rw [wait_ready, read_status_register_eq s hcs]
    simp only [watchdog_periodic, State.emit]
    rw [statusByte_wip]
    by_cases h0 : s.chip.busy = 0
    · simp [h0, pollTrace, State.after, Chip.idle]
    · obtain ⟨k, hk⟩ : ∃ k, s.chip.busy = k + 1 := ⟨s.chip.busy - 1, by omega⟩
      simp only [h0, if_false, ne_eq, one_ne_zero, not_false_eq_true, if_true]
      rw [ih _ rfl (by simp [State.after]; omega)]
      simp [State.after, Chip.idle, hk, pollTrace]

theorem shift_bytes (offset : Nat) :
    addr24 ((offset >>> 16) % 256) ((offset >>> 8) % 256) ((offset >>> 0) % 256) =
      offset % 2 ^ 24 := by
  simp only [Nat.shiftRight_eq_div_pow, addr24]
  omega

theorem xmem_pread_loop_eq (a2 a1 a0 : Nat) : ∀ (n p : Nat) (b : List Nat) (s : State),
    s.cs = true → s.chip.cmd = [3, a2, a1, a0] → s.chip.busy = 0 →
    xmem_pread_loop n p b s =
      (storeFrom b p ((readData s.chip.mem (addr24 a2 a1 a0 + s.chip.nout) n).map
          (fun u : Nat => toU8 (bnot (u : Int)))),
        { s with
          chip := { s.chip with nout := s.chip.nout + n }
          trace := s.trace ++ (readData s.chip.mem (addr24 a2 a1 a0 + s.chip.nout) n).map
            (fun u => ⟨.rx u, s.ipl, true⟩) }) := by
  intro n
  induction n with
  | zero => intro p b s _ _ _; simp [xmem_pread_loop, readData, storeFrom]
  | succ n ih =>
    intro p b s hcs hcmd hb
    rw [xmem_pread_loop]
    simp only [SPI_READ, hcs, if_true, Chip.rx, hcmd, SPI_FLASH_INS_READ, hb, State.emit,
      and_self]
    rw [ih _ _ _ (by rfl) (by rfl) (by rfl)]
    simp [readData, List.range_succ_eq_map, storeFrom, hcs, Nat.add_assoc, Nat.add_comm 1]
    rfl

theorem xmem_pread_eq (fuel : Nat) (buf : List Nat) (size : Int) (offset : Nat) (s : State)
    (hcs : s.cs = false) (hb : s.chip.busy < fuel) :
    xmem_pread fuel buf size offset s =
      some ((storeFrom buf 0 ((readData s.chip.mem (offset % 2 ^ 24) size.toNat).map
          (fun u : Nat => toU8 (bnot (u : Int)))), size),
        s.after { s.chip.idle with busy := 0 } (preadTrace s offset size.toNat)) := by
  unfold xmem_pread preadTrace
  rw [wait_ready_eq fuel s hcs hb]
  simp only [Option.bind_eq_bind, Option.some_bind, Option.pure_def, splhigh, SPI_FLASH_ENABLE,
    SPI_WRITE_FAST, SPI_WRITE, SPI_WAITFORTx_ENDED, SPI_FLUSH, State.emit, Chip.select, Chip.tx,
    after_cs, after_chip, after_ipl, after_splmax, after_trace, if_true, toU8_nat,
    SPI_FLASH_INS_READ, List.nil_append, List.cons_append, List.append_assoc]
  rw [xmem_pread_loop_eq ((offset >>> 16) % 256) ((offset >>> 8) % 256) ((offset >>> 0) % 256)
    _ _ _ _ (by rfl) (by rfl) (by rfl)]
  have h24 := shift_bytes offset
  simp only [Nat.shiftRight_zero] at h24
  simp [SPI_FLASH_DISABLE, splx, State.emit, Chip.deselect, State.after, Chip.idle, txn,
    h24, SPI_FLASH_INS_WREN, SPI_FLASH_INS_PP, SPI_FLASH_INS_SE]

theorem check_write_canary_loop_reports (b : List Nat) (offset : Nat) : ∀ (n i : Nat),
    ∃ R : List Report, ∀ s : State, check_write_canary_loop b offset n i s =
      { s with trace := s.trace ++ reportSteps s.ipl s.cs R } := by
  intro n
  induction n with
  | zero => intro i; exact ⟨[], fun s => by simp [check_write_canary_loop, reportSteps]⟩
  | succ n ih =>
    intro i
    obtain ⟨R, hR⟩ := ih (i + 1)
    by_cases h1 : memcmp4 b i CANARY1 = true
    · exact ⟨Report.canaryW 1 (offset &&& toULong (bnot ((PAGE_SIZE : Int) - 1))) i :: R,
        fun s => by
          simp [check_write_canary_loop, h1, hR, printf, State.emit, reportSteps]⟩
    by_cases h2 : memcmp4 b i CANARY2 = true
    · exact ⟨Report.canaryW 2 (offset &&& toULong (bnot ((PAGE_SIZE : Int) - 1))) i :: R,
        fun s => by
          simp [check_write_canary_loop, h1, h2, hR, printf, State.emit, reportSteps]⟩
    by_cases h3 : memcmp4 b i CANARY3 = true
    · exact ⟨Report.canaryW 3 (offset &&& toULong (bnot ((PAGE_SIZE : Int) - 1))) i :: R,
        fun s => by
          simp [check_write_canary_loop, h1, h2, h3, hR, printf, State.emit, reportSteps]⟩
    · exact ⟨R, fun s => by
        simp [check_write_canary_loop, h1, h2, h3, hR, printf, State.emit, reportSteps]⟩

theorem check_write_canary_reports (b : List Nat) (size : Int) (offset : Nat) :
    ∃ R : List Report, ∀ s : State, check_write_canary b size offset s =
      { s with trace := s.trace ++ reportSteps s.ipl s.cs R } :=
  check_write_canary_loop_reports b offset _ 0

theorem check_write_canary_eq (b : List Nat) (size : Int) (offset : Nat) (s : State) :
    check_write_canary b size offset s =
      { s with trace := s.trace ++ writeCanarySteps s b size offset } := by
  obtain ⟨R, hR⟩ := check_write_canary_reports b size offset
  simp [writeCanarySteps, hR]

theorem writeCanarySteps_eq (b : List Nat) (size : Int) (offset : Nat) :
    ∃ R : List Report, ∀ s : State,
      writeCanarySteps s b size offset = reportSteps s.ipl s.cs R := by
  obtain ⟨R, hR⟩ := check_write_canary_reports b size offset
  exact ⟨R, fun s => by simp [writeCanarySteps, hR]⟩

theorem writeCanarySteps_congr (b : List Nat) (size : Int) (offset : Nat) (s t : State)
    (hl : s.ipl = t.ipl) (hc : s.cs = t.cs) :
    writeCanarySteps s b size offset = writeCanarySteps t b size offset := by
  obtain ⟨R, hR⟩ := writeCanarySteps_eq b size offset
  rw [hR, hR, hl, hc]

theorem program_page_loop_eq (buf : List Nat) : ∀ (n p : Nat) (s : State), s.cs = true →
    program_page_loop buf n p s = (p + n,
      { s with
        chip := { s.chip with cmd := s.chip.cmd ++ pageData buf p n }
        trace := s.trace ++ (pageData buf p n).map (fun d => ⟨.tx d, s.ipl, true⟩) }) := by
  intro n
  induction n with
  | zero => intro p s _; simp [program_page_loop, pageData]
  | succ n ih =>
    intro p s hcs
    rw [program_page_loop]
    simp only [SPI_WRITE_FAST, SPI_WRITE, hcs, if_true, Chip.tx, State.emit]
    rw [ih _ _ (by rfl)]
    simp [pageData, List.range_succ_eq_map, hcs, Nat.add_assoc, Nat.add_comm 1, Nat.add_left_comm]

theorem write_canary_after (s : State) (c0 : Chip) (T0 : List Step) (cond : Bool)
    (b : List Nat) (n : Int) (off : Nat) (hcs : s.cs = false) :
    (if cond = true then check_write_canary b n off (s.after c0 T0) else s.after c0 T0) =
      s.after c0 (T0 ++ if cond = true then writeCanarySteps s b n off else []) := by
  cases cond
  · simp
  · rw [if_pos rfl, if_pos rfl, check_write_canary_eq,
      writeCanarySteps_congr b n off (s.after c0 T0) s rfl (by simp [hcs])]
    simp [State.after]

theorem program_page_eq (fuel : Nat) (offset : Nat) (buf : List Nat) (p : Nat) (nbytes : Int)
    (s : State) (hcs : s.cs = false) (hb : s.chip.busy < fuel) :
    program_page fuel offset buf p nbytes s =
      some (p + nbytes.toNat,
        s.after (programPageChip s.chip (offset % 2 ^ 24) (pageData buf p nbytes.toNat))
          (programPageTrace s offset buf p nbytes)) := by
  unfold program_page programPageTrace programPageChip
  rw [wait_ready_eq fuel s hcs hb]
  simp only [Option.bind_eq_bind, Option.some_bind, Option.pure_def, after_canary]
  rw [write_canary_after s _ _ _ _ _ _ hcs, write_enable_eq _ (by rfl)]
  simp only [splhigh, SPI_FLASH_ENABLE,
    SPI_WRITE_FAST, SPI_WRITE, State.emit, Chip.select, Chip.tx, after_after,
    after_cs, after_chip, after_ipl, after_splmax, after_trace, if_true, toU8_nat,
    SPI_FLASH_INS_PP, List.nil_append, List.cons_append, List.append_assoc]
  rw [program_page_loop_eq buf _ _ _ (by rfl)]
  have h24 := shift_bytes offset
  simp only [Nat.shiftRight_zero] at h24
  simp [SPI_FLASH_DISABLE, splx, State.emit, Chip.deselect, State.after, Chip.idle, txn,
    h24, SPI_FLASH_INS_WREN, SPI_FLASH_INS_PP, SPI_FLASH_INS_SE, SPI_WAITFORTx_ENDED]

/-! ## Commands of a trace -/

theorem commands_append (T U : List Step) : commands (T ++ U) = commands T ++ commands U := by
  simp [commands]

theorem commands_txn (l m : Nat) (body : List Event) (cmd : List Nat) (n : Nat)
    (h : ∀ e ∈ body, ∀ c k, e ≠ Event.disable c k) :
    commands (txn l m body cmd n) = [(cmd, n)] := by
  have hb : List.filterMap (fun st : Step => match st.ev with
      | .disable c n => some (c, n)
      | _ => none) (body.map (fun e => ⟨e, m, true⟩)) = [] := by
    rw [List.filterMap_eq_nil_iff]
    intro st hst
    obtain ⟨e, he, rfl⟩ := List.mem_map.1 hst
    cases e <;> first | rfl | exact absurd rfl (h _ he _ _)
  simp [commands, txn, hb]

theorem commands_reportSteps (l : Nat) (cs : Bool) (R : List Report) :
    commands (reportSteps l cs R) = [] := by
  simp [commands, reportSteps, List.filterMap_eq_nil_iff]

theorem commands_pollTrace (l m : Nat) (wel : Bool) (sr : Nat) : ∀ k,
    commands (pollTrace l m wel sr k) = List.replicate (k + 1) ([5], 1) := by
  intro k
  induction k with
  | zero => simp [pollTrace, commands, txn]
  | succ k ih =>
    rw [pollTrace, commands_append, ih]
    simp [commands, txn, List.replicate_succ]

theorem withOpcode_append (op : Nat) (T U : List Step) :
    withOpcode op (T ++ U) = withOpcode op T ++ withOpcode op U := by
  simp [withOpcode, commands_append]

theorem withOpcode_pollTrace (op : Nat) (h : op ≠ 5) (l m : Nat) (wel : Bool) (sr : Nat)
    (k : Nat) : withOpcode op (pollTrace l m wel sr k) = [] := by
  simp [withOpcode, commands_pollTrace, List.filter_eq_nil_iff, Ne.symm h]

theorem withOpcode_readOnly (op : Nat) (h5 : op ≠ 5) (h3 : op ≠ 3) (T : List Step)
    (hT : ReadOnly T) : withOpcode op T = [] := by
  simp only [withOpcode, List.filter_eq_nil_iff, decide_eq_true_eq]
  intro c hc heq
  rcases hT c hc with h | h <;> rw [h] at heq <;>
    simp [SPI_FLASH_INS_RDSR, SPI_FLASH_INS_READ] at heq <;> omega

theorem ppCmds_append (T U : List Step) : ppCmds (T ++ U) = ppCmds T ++ ppCmds U := by
  simp [ppCmds, withOpcode_append]

theorem seCmds_append (T U : List Step) : seCmds (T ++ U) = seCmds T ++ seCmds U := by
  simp [seCmds, withOpcode_append]

theorem ppCmds_pollTrace (l m : Nat) (wel : Bool) (sr : Nat) (k : Nat) :
    ppCmds (pollTrace l m wel sr k) = [] := by
  simp [ppCmds, withOpcode_pollTrace, SPI_FLASH_INS_PP]

theorem commands_writeCanarySteps (s : State) (b : List Nat) (n : Int) (off : Nat) :
    commands (writeCanarySteps s b n off) = [] := by
  obtain ⟨R, hR⟩ := writeCanarySteps_eq b n off
  rw [hR, commands_reportSteps]


theorem ppCmds_programPageTrace (s : State) (offset : Nat) (buf : List Nat) (p : Nat)
    (nbytes : Int) :
    ppCmds (programPageTrace s offset buf p nbytes) =
      [(offset % 2 ^ 24, pageData buf p nbytes.toNat)] := by
  have h24 := shift_bytes offset
  simp only [Nat.shiftRight_zero] at h24
  have hc : commands (if s.canary = true then writeCanarySteps s (buf.drop p) nbytes offset
      else []) = [] := by
    split
    · exact commands_writeCanarySteps _ _ _ _
    · rfl
  unfold programPageTrace
  rw [ppCmds_append, ppCmds_append, ppCmds_append, ppCmds_pollTrace]
  simp only [ppCmds, withOpcode, hc, List.filter_nil, List.map_nil, List.nil_append]
  rw [commands_txn, commands_txn]
  · simp [SPI_FLASH_INS_PP, h24, cmdAddr]
  · intro e he c k
    simp only [List.mem_append, List.mem_cons, List.mem_map, List.mem_singleton,
      List.not_mem_nil, or_false] at he
    rcases he with ((rfl | rfl | rfl | rfl) | ⟨d, _, rfl⟩) | rfl <;> simp
  · simp

/-! ## The chunking of `xmem_pwrite` -/

theorem next_page_spec (i e : Nat) (h : i < e) (he : e ≤ 2 ^ 32 - 256) :
    i < next_page i e ∧ next_page i e ≤ e ∧ next_page i e - i ≤ 256 ∧
      i / 256 = (next_page i e - 1) / 256 ∧ (next_page i e < e → next_page i e % 256 = 0) := by
  unfold next_page
  simp only [lor_ff, LONG_BITS]
  have h1 : (i / 256 * 256 + 255 + 1) % 2 ^ 32 = i / 256 * 256 + 256 := by omega
  rw [h1]
  split <;> omega

theorem nbytes_eq (i np : Nat) (h : i ≤ np) (h2 : np - i ≤ 256) :
    (toCInt (toULong ((np : Int) - i))).toNat = np - i := by
  unfold toCInt toULong
  simp only [INT_BITS, LONG_BITS]
  omega

theorem pageData_length (buf : List Nat) (p n : Nat) : (pageData buf p n).length = n := by
  simp [pageData]

theorem after_self (s : State) (h : s.cs = false) : s.after s.chip [] = s := by
  cases s
  simp_all [State.after]


theorem pageData_getD (buf : List Nat) (p n k : Nat) (h : k < n) :
    (pageData buf p n).getD k 0xFF = toU8 (bnot (buf.getD (p + k) 0)) := by
  simp [pageData, List.getD_eq_getElem?_getD, List.getElem?_map, List.getElem?_range h]

theorem xmem_pwrite_loop_spec (fuel : Nat) (buf : List Nat) (e : Nat) (he : e ≤ 2 ^ 32 - 256) :
    ∀ (n i p : Nat) (s : State), s.cs = false → s.chip.busy < fuel → s.chip.tpp < fuel →
      i ≤ e → e - i ≤ n →
      ∃ (c : Chip) (T : List Step),
        xmem_pwrite_loop fuel buf e n i p s = some (p + (e - i), s.after c T) ∧
        Chunks buf e i p (ppCmds T) ∧
        c.busy < fuel ∧ c.tpp = s.chip.tpp ∧ c.tse = s.chip.tse ∧
        (e ≤ 2 ^ 24 → ∀ x, c.mem x =
          if i ≤ x ∧ x < e then s.chip.mem x &&& toU8 (bnot (buf.getD (p + (x - i)) 0))
          else s.chip.mem x) := by
  intro n
  induction n with
  | zero =>
    intro i p s hcs hb ht hie hn
    have : i = e := by omega
    subst this
    refine ⟨s.chip, [], ?_, ?_, hb, rfl, rfl, ?_⟩
    · simp [xmem_pwrite_loop, after_self s hcs]
    · simp [ppCmds, withOpcode, commands, Chunks]
    · intro _ x
      rw [if_neg (by omega)]
  | succ n ih =>
    intro i p s hcs hb ht hie hn
    by_cases hlt : i < e
    · obtain ⟨h1, h2, h3, -, -⟩ := next_page_spec i e hlt he
      obtain ⟨c, T, hrun, hch, hcb, hct, hcs2, hmem⟩ := ih (next_page i e) (p + (next_page i e - i))
        (s.after (programPageChip s.chip (i % 2 ^ 24) (pageData buf p (next_page i e - i)))
          (programPageTrace s i buf p (toCInt (toULong ((next_page i e : Int) - i)))))
        rfl (by simpa [programPageChip] using ht) (by simpa [programPageChip, Chip.idle] using ht)
        h2 (by omega)
      refine ⟨c, programPageTrace s i buf p (toCInt (toULong ((next_page i e : Int) - i))) ++ T,
        ?_, ?_, hcb, ?_, ?_, ?_⟩
      · rw [xmem_pwrite_loop, if_pos hlt]
        simp only [Option.bind_eq_bind]
        rw [program_page_eq fuel i buf p _ s hcs hb, nbytes_eq i _ (by omega) h3]
        simp only [Option.some_bind]
        rw [hrun, after_after]
        congr 2
        omega
      · rw [ppCmds_append, ppCmds_programPageTrace, nbytes_eq i _ (by omega) h3]
        exact ⟨hlt, rfl, rfl, hch⟩
      · simpa [programPageChip, Chip.idle] using hct
      · simpa [programPageChip, Chip.idle] using hcs2
      · intro h24 x
        rw [hmem h24 x]
        simp only [after_chip, programPageChip, programMem, pageData_length,
          Nat.mod_eq_of_lt (show i < 2 ^ 24 by omega)]
        by_cases hx1 : i ≤ x ∧ x < i + (next_page i e - i)
        · rw [if_neg (by omega), if_pos hx1, if_pos (by omega),
            pageData_getD buf p _ _ (by omega)]
        · rw [if_neg hx1]
          by_cases hx2 : next_page i e ≤ x ∧ x < e
          · have hidx : p + (next_page i e - i) + (x - next_page i e) = p + (x - i) := by omega
            rw [if_pos hx2, if_pos (by omega), hidx]
          · rw [if_neg hx2, if_neg (by omega)]
    · have : i = e := by omega
      subst this
      refine ⟨s.chip, [], ?_, ?_, hb, rfl, rfl, ?_⟩
      · simp [xmem_pwrite_loop, after_self s hcs]
      · simp [ppCmds, withOpcode, commands, Chunks]
      · intro _ x
        rw [if_neg (by omega)]


@[simp] theorem newSteps_after (s : State) (c : Chip) (T : List Step) :
    newSteps s (s.after c T) = T := by
  simp [newSteps]

theorem toULong_add (addr size : Nat) (h : addr + size < 2 ^ 32) :
    toULong ((addr : Int) + (size : Nat)) = addr + size := by
  unfold toULong
  simp only [LONG_BITS]
  omega

theorem xmem_pwrite_spec (fuel : Nat) (buf : List Nat) (size addr : Nat) (s : State)
    (hcs : s.cs = false) (hb : s.chip.busy < fuel) (ht : s.chip.tpp < fuel)
    (hsz : addr + size ≤ 2 ^ 32 - 256) (hf : size ≤ fuel) :
    ∃ (c : Chip) (T : List Step),
      xmem_pwrite fuel buf size addr s = some ((size : Int), s.after c T) ∧
      Chunks buf (addr + size) addr 0 (ppCmds T) ∧
      c.busy < fuel ∧ c.tpp = s.chip.tpp ∧ c.tse = s.chip.tse ∧
      (addr + size ≤ 2 ^ 24 → ∀ x, c.mem x =
        if addr ≤ x ∧ x < addr + size then
          s.chip.mem x &&& toU8 (bnot (buf.getD (0 + (x - addr)) 0))
        else s.chip.mem x) := by
  obtain ⟨c, T, hrun, hrest⟩ := xmem_pwrite_loop_spec fuel buf (addr + size) hsz fuel addr 0 s
    hcs hb ht (by omega) (by omega)
  refine ⟨c, T, ?_, hrest⟩
  unfold xmem_pwrite
  simp only [toULong_add addr size (by omega), Option.bind_eq_bind, hrun, Option.some_bind,
    Option.pure_def]

theorem chunks_partition (buf : List Nat) (e : Nat) (he : e ≤ 2 ^ 24) :
    ∀ (L : List (Nat × List Nat)) (i p : Nat), i ≤ e → Chunks buf e i p L →
      PagePartition i e (L.map (fun c => (c.1, c.2.length))) := by
  intro L
  induction L with
  | nil =>
    intro i p hie h
    simp only [Chunks] at h
    simp only [List.map_nil, PagePartition]
    omega
  | cons c rest ih =>
    intro i p hie h
    obtain ⟨a, d⟩ := c
    obtain ⟨hlt, rfl, rfl, hrest⟩ := h
    obtain ⟨h1, h2, h3, h4, h5⟩ := next_page_spec i e hlt (by omega)
    have hadd : i + (next_page i e - i) = next_page i e := by omega
    simp only [List.map_cons, PagePartition, pageData_length, hadd]
    refine ⟨by omega, by omega, h3, h4, ?_, ih _ _ h2 hrest⟩
    intro hne
    apply h5
    cases rest with
    | nil => exact absurd rfl hne
    | cons c2 rest2 =>
      obtain ⟨a2, d2⟩ := c2
      exact hrest.1

theorem pageData_add (buf : List Nat) (p a b : Nat) :
    pageData buf p (a + b) = pageData buf p a ++ pageData buf (p + a) b := by
  simp [pageData, List.range_add, Nat.add_assoc, Function.comp_def]

theorem chunks_data (buf : List Nat) (e : Nat) (he : e ≤ 2 ^ 32 - 256) :
    ∀ (L : List (Nat × List Nat)) (i p : Nat), i ≤ e → Chunks buf e i p L →
      (L.map (fun c => c.2)).flatten = pageData buf p (e - i) := by
  intro L
  induction L with
  | nil =>
    intro i p hie h
    simp only [Chunks] at h
    have : e - i = 0 := by omega
    simp [this, pageData]
  | cons c rest ih =>
    intro i p hie h
    obtain ⟨a, d⟩ := c
    obtain ⟨hlt, rfl, rfl, hrest⟩ := h
    obtain ⟨h1, h2, h3, h4, h5⟩ := next_page_spec i e hlt he
    have hadd : e - i = (next_page i e - i) + (e - next_page i e) := by omega
    rw [List.map_cons, List.flatten_cons, ih _ _ h2 hrest, hadd, pageData_add]

theorem compl_xor (u : Nat) (h : u < 256) : 255 - u = u ^^^ 0xFF := by
  interval_cases u <;> rfl

theorem toU8_bnot_lt (u : Nat) (h : u < 256) : toU8 (bnot (u : Int)) = u ^^^ 0xFF := by
  rw [toU8_bnot, Nat.mod_eq_of_lt h, compl_xor u h]

theorem pageData_eq_take (buf : List Nat) (n : Nat) (hn : n ≤ buf.length)
    (hbytes : ∀ b ∈ buf, b < 256) :
    pageData buf 0 n = (buf.take n).map (fun b => b ^^^ 0xFF) := by
  apply List.ext_getElem
  · simp [pageData, hn]
  · intro k h1 h2
    simp only [pageData, List.length_map, List.length_range] at h1
    have hk : k < buf.length := by omega
    simp only [pageData, List.getElem_map, List.getElem_range, Nat.zero_add, List.getElem_take,
      List.getD_eq_getElem?_getD, List.getElem?_eq_getElem hk, Option.getD_some]
    exact toU8_bnot_lt _ (hbytes _ (List.getElem_mem hk))


theorem chunks_bytes (buf : List Nat) (e : Nat) (he : e ≤ 2 ^ 24) :
    ∀ (L : List (Nat × List Nat)) (i p : Nat), i ≤ e → Chunks buf e i p L →
      ∀ c ∈ L, ∀ j, j < c.2.length → i ≤ c.1 + j ∧ c.1 + j < e ∧
        c.2.getD j 0xFF = toU8 (bnot (buf.getD (p + (c.1 + j - i)) 0)) := by
  intro L
  induction L with
  | nil => intro i p _ _ c hc; simp at hc
  | cons c0 rest ih =>
    intro i p hie h c hc j hj
    obtain ⟨a, d⟩ := c0
    obtain ⟨hlt, rfl, rfl, hrest⟩ := h
    obtain ⟨h1, h2, h3, h4, h5⟩ := next_page_spec i e hlt (by omega)
    rcases List.mem_cons.1 hc with rfl | hc
    · simp only [pageData_length] at hj
      simp only [Nat.mod_eq_of_lt (show i < 2 ^ 24 by omega)]
      refine ⟨by omega, by omega, ?_⟩
      rw [pageData_getD buf p _ _ hj]
      congr 4
      omega
    · obtain ⟨g1, g2, g3⟩ := ih _ _ h2 hrest c hc j hj
      refine ⟨by omega, g2, ?_⟩
      rw [g3]
      congr 4
      omega

theorem xmem_pwrite_loop_cycle (fuel : Nat) (buf : List Nat) : ∀ (n i p : Nat) (s : State),
    i % 256 = 0 → i ≤ 0xFFFFFF00 → xmem_pwrite_loop fuel buf 0xFFFFFF01 n i p s = none := by
  intro n
  induction n with
  | zero =>
    intro i p s _ hi
    rw [xmem_pwrite_loop, if_pos (by omega)]
  | succ n ih =>
    intro i p s hmod hi
    have hnp : next_page i 0xFFFFFF01 % 256 = 0 ∧ next_page i 0xFFFFFF01 ≤ 0xFFFFFF00 := by
      unfold next_page
      simp only [lor_ff, LONG_BITS]
      split <;> omega
    rw [xmem_pwrite_loop, if_pos (by omega)]
    simp only [Option.bind_eq_bind]
    cases program_page fuel i buf p
        (toCInt (toULong ((next_page i 0xFFFFFF01 : Int) - i))) s with
    | none => rfl
    | some r => exact ih _ _ _ hnp.1 hnp.2

theorem storeFrom_getElem? : ∀ (vals b : List Nat) (p k : Nat),
    (storeFrom b p vals)[k]? =
      if p ≤ k ∧ k < p + vals.length ∧ k < b.length then vals[k - p]? else b[k]? := by
  intro vals
  induction vals with
  | nil =>
    intro b p k
    rw [storeFrom, if_neg (by simp only [List.length_nil]; omega)]
  | cons v vs ih =>
    intro b p k
    rw [storeFrom, ih, List.length_set, List.length_cons, List.getElem?_set]
    by_cases h1 : p + 1 ≤ k ∧ k < p + 1 + vs.length ∧ k < b.length
    · rw [if_pos h1, if_pos (by omega)]
      obtain ⟨j, hj⟩ : ∃ j, k - p = j + 1 := ⟨k - p - 1, by omega⟩
      rw [hj, List.getElem?_cons_succ]
      congr 1
      omega
    · rw [if_neg h1]
      by_cases h2 : p = k
      · subst h2
        rw [if_pos rfl]
        by_cases h3 : p < b.length
        · rw [if_pos h3, if_pos (by omega)]
          simp
        · rw [if_neg h3, if_neg (by omega), List.getElem?_eq_none (by omega)]
      · rw [if_neg h2, if_neg (by omega)]

theorem storeFrom_zero (vals b : List Nat) (h : vals.length ≤ b.length) :
    storeFrom b 0 vals = vals ++ b.drop vals.length := by
  apply List.ext_getElem?
  intro k
  rw [storeFrom_getElem?, List.getElem?_append]
  by_cases hk : k < vals.length
  · rw [if_pos (by omega), if_pos hk]
    rfl
  · rw [if_neg (by omega), if_neg hk, List.getElem?_drop]
    congr 1
    omega

theorem readData_length (mem : Nat → Nat) (a n : Nat) : (readData mem a n).length = n := by
  simp [readData]

theorem readData_lt (mem : Nat → Nat) (a n : Nat) : ∀ d ∈ readData mem a n, d < 256 := by
  intro d hd
  simp only [readData, List.mem_map] at hd
  obtain ⟨k, -, rfl⟩ := hd
  omega

theorem map_toU8_bnot (data : List Nat) (h : ∀ d ∈ data, d < 256) :
    data.map (fun u : Nat => toU8 (bnot (u : Int))) = data.map (fun d => d ^^^ 0xFF) := by
  apply List.map_congr_left
  intro d hd
  exact toU8_bnot_lt d (h d hd)

theorem ff_and (v : Nat) : 0xFF &&& v = v % 256 := by
  rw [Nat.and_comm]
  exact Nat.and_pow_two_sub_one_eq_mod v 8

/-! ## Sector erase -/

theorem readOnly_nil : ReadOnly [] := by
  intro c hc
  simp [commands] at hc

theorem readOnly_append (T U : List Step) (hT : ReadOnly T) (hU : ReadOnly U) :
    ReadOnly (T ++ U) := by
  intro c hc
  rw [commands_append, List.mem_append] at hc
  rcases hc with h | h
  · exact hT c h
  · exact hU c h

theorem readOnly_pollTrace (l m : Nat) (wel : Bool) (sr : Nat) (k : Nat) :
    ReadOnly (pollTrace l m wel sr k) := by
  intro c hc
  rw [commands_pollTrace] at hc
  rw [List.eq_of_mem_replicate hc]
  left
  rfl

theorem readOnly_reportSteps (l : Nat) (cs : Bool) (R : List Report) :
    ReadOnly (reportSteps l cs R) := by
  intro c hc
  rw [commands_reportSteps] at hc
  simp at hc

theorem readOnly_preadTrace (s : State) (offset n : Nat) : ReadOnly (preadTrace s offset n) := by
  apply readOnly_append _ _ (readOnly_pollTrace _ _ _ _ _)
  intro c hc
  rw [commands_txn] at hc
  · rw [List.mem_singleton.1 hc]
    right
    rfl
  · intro e he c k
    simp only [List.mem_append, List.mem_cons, List.mem_map, List.not_mem_nil, or_false] at he
    rcases he with (rfl | rfl | rfl | rfl | rfl | rfl) | ⟨d, _, rfl⟩ <;> simp

theorem check_erase_canary_scan_reports (b : List Nat) (p offset : Nat) : ∀ (n i : Nat),
    ∃ R : List Report, ∀ s : State, check_erase_canary_scan b p offset n i s =
      { s with trace := s.trace ++ reportSteps s.ipl s.cs R } := by
  intro n
  induction n with
  | zero => intro i; exact ⟨[], fun s => by simp [check_erase_canary_scan, reportSteps]⟩
  | succ n ih =>
    intro i
    obtain ⟨R, hR⟩ := ih (i + 1)
    by_cases h1 : memcmp4 b i CANARY1 = true
    · exact ⟨Report.canaryE 1 p offset :: R, fun s => by
        simp [check_erase_canary_scan, h1, hR, printf, State.emit, reportSteps]⟩
    by_cases h2 : memcmp4 b i CANARY2 = true
    · exact ⟨Report.canaryE 2 p offset :: R, fun s => by
        simp [check_erase_canary_scan, h1, h2, hR, printf, State.emit, reportSteps]⟩
    by_cases h3 : memcmp4 b i CANARY3 = true
    · exact ⟨Report.canaryE 3 p offset :: R, fun s => by
        simp [check_erase_canary_scan, h1, h2, h3, hR, printf, State.emit, reportSteps]⟩
    · exact ⟨R, fun s => by
        simp [check_erase_canary_scan, h1, h2, h3, hR, printf, State.emit, reportSteps]⟩

theorem chip_ready_eq (c : Chip) (hb : c.busy = 0) (hc : c.cmd = []) (hn : c.nout = 0) :
    { c.idle with busy := 0 } = c := by
  cases c
  simp_all [Chip.idle]

theorem check_erase_canary_loop_spec (fuel offset e : Nat) (hfuel : 0 < fuel)
    (he : e < 2 ^ 32) : ∀ (n p : Nat) (b : List Nat) (s : State),
      s.cs = false → s.chip.busy = 0 → s.chip.cmd = [] → s.chip.nout = 0 →
      p ≤ e → (e - p) % 256 = 0 → (e - p) / 256 ≤ n →
      ∃ T, check_erase_canary_loop fuel offset e n p b s = some (s.after s.chip T) ∧
        ReadOnly T := by
  intro n
  induction n with
  | zero =>
    intro p b s hcs _ _ _ hpe hmod hn
    have : ¬ p < e := by omega
    exact ⟨[], by simp [check_erase_canary_loop, this, after_self s hcs], readOnly_nil⟩
  | succ n ih =>
    intro p b s hcs hb hc hn hpe hmod hcount
    by_cases hlt : p < e
    · obtain ⟨R, hR⟩ := check_erase_canary_scan_reports
        (storeFrom b 0 ((readData s.chip.mem (p % 2 ^ 24) ((PAGE_SIZE : Int)).toNat).map
          (fun u : Nat => toU8 (bnot (u : Int))))) p offset (PAGE_SIZE - 4) 0
      have hp : (p + PAGE_SIZE) % 2 ^ LONG_BITS = p + 256 := by
        simp only [PAGE_SIZE, LONG_BITS]
        omega
      obtain ⟨T, hT, hro⟩ := ih (p + 256)
        (storeFrom b 0 ((readData s.chip.mem (p % 2 ^ 24) ((PAGE_SIZE : Int)).toNat).map
          (fun u : Nat => toU8 (bnot (u : Int)))))
        (s.after s.chip
          (preadTrace s p ((PAGE_SIZE : Int)).toNat ++ reportSteps s.ipl false R))
        rfl hb hc hn (by omega) (by omega) (by omega)
      refine ⟨preadTrace s p ((PAGE_SIZE : Int)).toNat ++ reportSteps s.ipl false R ++ T, ?_,
        readOnly_append _ _ (readOnly_append _ _ (readOnly_preadTrace _ _ _)
          (readOnly_reportSteps s.ipl false R)) hro⟩
      rw [check_erase_canary_loop, if_pos hlt]
      simp only [Option.bind_eq_bind]
      rw [xmem_pread_eq fuel b PAGE_SIZE p s hcs (by omega), chip_ready_eq s.chip hb hc hn]
      simp only [Option.some_bind, ne_eq, not_true_eq_false, if_false, hR, hp]
      have hst : ∀ U : List Step, ({ (s.after s.chip U) with
          trace := (s.after s.chip U).trace ++
            reportSteps (s.after s.chip U).ipl (s.after s.chip U).cs R } : State) =
          s.after s.chip (U ++ reportSteps s.ipl false R) := by
        intro U
        simp [State.after]
      rw [hst, hT, after_after, after_chip]
    · have : p = e := by omega
      subst this
      exact ⟨[], by simp [check_erase_canary_loop, after_self s hcs], readOnly_nil⟩

theorem erase_sector_spec (fuel offset : Nat) (s : State) (hcs : s.cs = false)
    (hb : s.chip.busy < fuel) (h256 : 256 ≤ fuel) (hoff : offset + 65536 < 2 ^ 32) :
    ∃ Tc, ReadOnly Tc ∧ (s.canary = false → Tc = []) ∧
      erase_sector fuel offset s =
        some (s.after (eraseSectorChip s.chip (offset % 2 ^ 24))
          (pollTrace s.ipl s.splmax s.chip.wel s.chip.sr s.chip.busy ++ Tc ++
            txn s.ipl s.splmax [.tx 6] [6] 0 ++ eraseTxn s.ipl s.splmax offset)) := by
  have h24 := shift_bytes offset
  simp only [Nat.shiftRight_zero] at h24
  by_cases hc : s.canary = true
  · have he : (offset + SECTOR_SIZE) % 2 ^ LONG_BITS = offset + 65536 := by
      simp only [SECTOR_SIZE, LONG_BITS]
      omega
    obtain ⟨T, hT, hro⟩ := check_erase_canary_loop_spec fuel offset (offset + 65536)
      (by omega) hoff fuel offset (List.replicate PAGE_SIZE 0)
      (s.after { s.chip.idle with busy := 0 }
        (pollTrace s.ipl s.splmax s.chip.wel s.chip.sr s.chip.busy))
      rfl rfl rfl rfl (by omega) (by omega) (by omega)
    refine ⟨T, hro, fun h => by rw [h] at hc; exact absurd hc (by decide), ?_⟩
    unfold erase_sector
    rw [wait_ready_eq fuel s hcs hb]
    simp only [Option.bind_eq_bind, Option.some_bind, after_canary, hc, if_true]
    rw [check_erase_canary, he, hT, after_after, after_chip]
    simp only [Option.some_bind, Option.pure_def]
    rw [write_enable_eq _ (by rfl)]
    simp [splhigh, SPI_FLASH_ENABLE, SPI_WRITE_FAST, SPI_WRITE, State.emit, Chip.select, Chip.tx,
      SPI_FLASH_DISABLE, splx, Chip.deselect, State.after, Chip.idle, txn, eraseTxn,
      eraseSectorChip, h24, SPI_FLASH_INS_WREN, SPI_FLASH_INS_PP, SPI_FLASH_INS_SE,
      SPI_WAITFORTx_ENDED]
  · refine ⟨[], readOnly_nil, fun _ => rfl, ?_⟩
    unfold erase_sector
    rw [wait_ready_eq fuel s hcs hb]
    simp only [Option.bind_eq_bind, Option.some_bind, after_canary, hc, if_false,
      Option.pure_def, Bool.false_eq_true]
    rw [write_enable_eq _ (by rfl)]
    simp [splhigh, SPI_FLASH_ENABLE, SPI_WRITE_FAST, SPI_WRITE, State.emit, Chip.select, Chip.tx,
      SPI_FLASH_DISABLE, splx, Chip.deselect, State.after, Chip.idle, txn, eraseTxn,
      eraseSectorChip, h24, SPI_FLASH_INS_WREN, SPI_FLASH_INS_PP, SPI_FLASH_INS_SE,
      SPI_WAITFORTx_ENDED]

theorem withOpcode_eraseSector (l m : Nat) (wel : Bool) (sr k offset : Nat) (Tc : List Step)
    (hro : ReadOnly Tc) :
    withOpcode SPI_FLASH_INS_SE (pollTrace l m wel sr k ++ Tc ++ txn l m [.tx 6] [6] 0 ++
      eraseTxn l m offset) =
      [([0xd8, (offset >>> 16) % 256, (offset >>> 8) % 256, offset % 256], 0)] := by
  rw [withOpcode_append, withOpcode_append, withOpcode_append,
    withOpcode_pollTrace _ (by decide), withOpcode_readOnly _ (by decide) (by decide) Tc hro]
  simp only [withOpcode, eraseTxn, List.nil_append]
  rw [commands_txn, commands_txn]
  · simp [SPI_FLASH_INS_SE]
  · intro e he c k
    simp only [List.mem_cons, List.not_mem_nil, or_false] at he
    rcases he with rfl | rfl | rfl | rfl | rfl <;> simp
  · simp

theorem xmem_erase_loop_spec (fuel e : Nat) (he : e ≤ 2 ^ 24) (hea : e % 65536 = 0)
    (h256 : 256 ≤ fuel) : ∀ (n addr : Nat) (s : State),
      s.cs = false → s.chip.busy < fuel → s.chip.tse < fuel → addr % 65536 = 0 → addr ≤ e →
      (e - addr) / 65536 ≤ n →
      ∃ (c : Chip) (T : List Step),
        xmem_erase_loop fuel e n addr s = some (s.after c T) ∧
        withOpcode SPI_FLASH_INS_SE T = (List.range ((e - addr) / 65536)).map (fun j =>
          ([0xd8, ((addr + 65536 * j) >>> 16) % 256, ((addr + 65536 * j) >>> 8) % 256,
            (addr + 65536 * j) % 256], 0)) ∧
        c.busy < fuel ∧ c.tse = s.chip.tse ∧ c.tpp = s.chip.tpp ∧
        ∀ x, c.mem x = if addr ≤ x ∧ x < e then 0xFF else s.chip.mem x := by
  intro n
  induction n with
  | zero =>
    intro addr s hcs hb ht ha hae hn
    have : addr = e := by omega
    subst this
    refine ⟨s.chip, [], ?_, ?_, hb, rfl, rfl, ?_⟩
    · simp [xmem_erase_loop, after_self s hcs]
    · simp [withOpcode, commands]
    · intro x
      rw [if_neg (by omega)]
  | succ n ih =>
    intro addr s hcs hb ht ha hae hn
    by_cases hlt : addr < e
    · obtain ⟨Tc, hro, -, hrun1⟩ := erase_sector_spec fuel addr s hcs hb h256 (by omega)
      have hnext : (addr + XMEM_ERASE_UNIT_SIZE) % 2 ^ LONG_BITS = addr + 65536 := by
        simp only [XMEM_ERASE_UNIT_SIZE, LONG_BITS]
        omega
      obtain ⟨c, T, hrun, hse, hcb, hct, hcp, hmem⟩ := ih (addr + 65536)
        (s.after (eraseSectorChip s.chip (addr % 2 ^ 24))
          (pollTrace s.ipl s.splmax s.chip.wel s.chip.sr s.chip.busy ++ Tc ++
            txn s.ipl s.splmax [.tx 6] [6] 0 ++ eraseTxn s.ipl s.splmax addr))
        rfl (by simpa [eraseSectorChip] using ht) (by simpa [eraseSectorChip, Chip.idle] using ht)
        (by omega) (by omega) (by omega)
      refine ⟨c, (pollTrace s.ipl s.splmax s.chip.wel s.chip.sr s.chip.busy ++ Tc ++
            txn s.ipl s.splmax [.tx 6] [6] 0 ++ eraseTxn s.ipl s.splmax addr) ++ T,
        ?_, ?_, hcb, ?_, ?_, ?_⟩
      · rw [xmem_erase_loop, if_pos hlt]
        simp only [Option.bind_eq_bind]
        rw [hrun1]
        simp only [Option.some_bind, hnext]
        rw [hrun, after_after]
      · obtain ⟨k, hk⟩ : ∃ k, (e - addr) / 65536 = k + 1 := ⟨(e - addr) / 65536 - 1, by omega⟩
        have hk2 : (e - (addr + 65536)) / 65536 = k := by omega
        rw [withOpcode_append, withOpcode_eraseSector _ _ _ _ _ _ _ hro, hse, hk, hk2,
          List.range_succ_eq_map]
        simp [Function.comp_def, Nat.mul_add, Nat.add_assoc]
        intro a _
        rw [Nat.add_comm 65536 (65536 * a)]
        exact ⟨rfl, rfl, rfl⟩
      · simpa [eraseSectorChip, Chip.idle] using hct
      · simpa [eraseSectorChip, Chip.idle] using hcp
      · intro x
        rw [hmem x]
        simp only [after_chip, eraseSectorChip, eraseMem,
          Nat.mod_eq_of_lt (show addr < 2 ^ 24 by omega)]
        by_cases hx1 : addr + 65536 ≤ x ∧ x < e
        · rw [if_pos hx1, if_pos (by omega)]
        · rw [if_neg hx1]
          by_cases hx2 : x / 65536 = addr / 65536
          · rw [if_pos hx2, if_pos (by omega)]
          · rw [if_neg hx2, if_neg (by omega)]
    · have : addr = e := by omega
      subst this
      refine ⟨s.chip, [], ?_, ?_, hb, rfl, rfl, ?_⟩
      · simp [xmem_erase_loop, after_self s hcs]
      · simp [withOpcode, commands]
      · intro x
        rw [if_neg (by omega)]

theorem tmod_unit_eq_zero_iff (size : Int) :
    size.tmod (XMEM_ERASE_UNIT_SIZE : Nat) = 0 ↔ size % 65536 = 0 := by
  have h : ((XMEM_ERASE_UNIT_SIZE : Nat) : Int) = 65536 := rfl
  rw [h, ← Int.dvd_iff_tmod_eq_zero, Int.dvd_iff_emod_eq_zero]

theorem toCInt_of_aligned (size : Int) (h : size % 65536 = 0) : toCInt size = 0 := by
  unfold toCInt
  simp only [INT_BITS]
  omega

theorem xmem_erase_spec (fuel : Nat) (size addr : Nat) (s : State) (hcs : s.cs = false)
    (hb : s.chip.busy < fuel) (ht : s.chip.tse < fuel) (h256 : 256 ≤ fuel)
    (hs : size % 65536 = 0) (ha : addr % 65536 = 0) (hsz : addr + size ≤ 2 ^ 24)
    (hf : size / 65536 ≤ fuel) :
    ∃ (c : Chip) (T : List Step),
      xmem_erase fuel size addr s = some (0, s.after c T) ∧
      withOpcode SPI_FLASH_INS_SE T = (List.range (size / 65536)).map (fun j =>
        ([0xd8, ((addr + 65536 * j) >>> 16) % 256, ((addr + 65536 * j) >>> 8) % 256,
          (addr + 65536 * j) % 256], 0)) ∧
      c.busy < fuel ∧ c.tse = s.chip.tse ∧ c.tpp = s.chip.tpp ∧
      ∀ x, c.mem x = if addr ≤ x ∧ x < addr + size then 0xFF else s.chip.mem x := by
  obtain ⟨c, T, hrun, hse, hrest⟩ := xmem_erase_loop_spec fuel (addr + size) hsz (by omega) h256
    fuel addr s hcs hb ht ha (by omega) (by rw [Nat.add_sub_cancel_left]; exact hf)
  rw [Nat.add_sub_cancel_left] at hse
  refine ⟨c, T, ?_, hse, hrest⟩
  have h1 : ((size : Nat) : Int).tmod (XMEM_ERASE_UNIT_SIZE : Nat) = 0 :=
    (tmod_unit_eq_zero_iff _).2 (by omega)
  have h2 : addr % XMEM_ERASE_UNIT_SIZE = 0 := ha
  unfold xmem_erase
  simp only [h1, h2, ne_eq, not_true_eq_false, if_false, toULong_add addr size (by omega),
    Option.bind_eq_bind, hrun, Option.some_bind, Option.pure_def,
    toCInt_of_aligned (size : Nat) (by omega)]

/-! ## Interrupt mask and chip-select -/

theorem quiet_refl (s : State) : Quiet s s :=
  ⟨rfl, rfl, rfl, rfl, [], by simp, by simp⟩

theorem quiet_trans {a b c : State} (h1 : Quiet a b) (h2 : Quiet b c) : Quiet a c := by
  obtain ⟨i1, c1, m1, n1, T1, t1, g1⟩ := h1
  obtain ⟨i2, c2, m2, n2, T2, t2, g2⟩ := h2
  refine ⟨by rw [i2, i1], by rw [c2, c1], by rw [m2, m1], by rw [n2, n1], T1 ++ T2,
    by rw [t2, t1, List.append_assoc], ?_⟩
  intro st hst
  rcases List.mem_append.1 hst with h | h
  · exact g1 st h
  · rw [← i1, ← c1]
    exact g2 st h

theorem quiet_emit (s : State) (e : Event) : Quiet s (s.emit e) :=
  ⟨rfl, rfl, rfl, rfl, [⟨e, s.ipl, s.cs⟩], rfl, by simp⟩

theorem quiet_SPI_WRITE (x : Int) (s : State) : Quiet s (SPI_WRITE x s) :=
  ⟨rfl, rfl, rfl, rfl, [⟨.tx (toU8 x), s.ipl, s.cs⟩], rfl, by simp⟩

theorem quiet_SPI_READ (s : State) : Quiet s (SPI_READ s).2 :=
  ⟨rfl, rfl, rfl, rfl, [⟨.rx ((SPI_READ s).1), s.ipl, s.cs⟩], rfl, by simp⟩

theorem quiet_ite (c : Prop) [Decidable c] {s a b : State} (ha : Quiet s a) (hb : Quiet s b) :
    Quiet s (if c then a else b) := by
  split
  · exact ha
  · exact hb

theorem quiet_xmem_pread_loop : ∀ (n p : Nat) (b : List Nat) (s : State),
    Quiet s (xmem_pread_loop n p b s).2 := by
  intro n
  induction n with
  | zero => intro p b s; exact quiet_refl s
  | succ n ih =>
    intro p b s
    rw [xmem_pread_loop]
    exact quiet_trans (quiet_SPI_READ s) (ih _ _ _)

theorem quiet_program_page_loop (buf : List Nat) : ∀ (n p : Nat) (s : State),
    Quiet s (program_page_loop buf n p s).2 := by
  intro n
  induction n with
  | zero => intro p s; exact quiet_refl s
  | succ n ih =>
    intro p s
    rw [program_page_loop]
    exact quiet_trans (quiet_SPI_WRITE _ s) (ih _ _)

theorem quiet_reports (s : State) (R : List Report) :
    Quiet s { s with trace := s.trace ++ reportSteps s.ipl s.cs R } := by
  refine ⟨rfl, rfl, rfl, rfl, _, rfl, ?_⟩
  intro st hst
  obtain ⟨r, -, rfl⟩ := List.mem_map.1 hst
  exact ⟨rfl, rfl⟩

theorem quiet_check_write_canary (b : List Nat) (size : Int) (offset : Nat) (s : State) :
    Quiet s (check_write_canary b size offset s) := by
  obtain ⟨R, hR⟩ := check_write_canary_reports b size offset
  rw [hR]
  exact quiet_reports s R

theorem quiet_check_erase_canary_scan (b : List Nat) (p offset n i : Nat) (s : State) :
    Quiet s (check_erase_canary_scan b p offset n i s) := by
  obtain ⟨R, hR⟩ := check_erase_canary_scan_reports b p offset n i
  rw [hR]
  exact quiet_reports s R

theorem restores_refl (s : State) (hcs : s.cs = false) : Restores s s :=
  ⟨rfl, hcs, rfl, rfl, [], by simp, by simp [Guarded]⟩

theorem restores_trans {a b c : State} (h1 : Restores a b) (h2 : Restores b c) :
    Restores a c := by
  obtain ⟨i1, c1, m1, n1, T1, t1, g1⟩ := h1
  obtain ⟨i2, c2, m2, n2, T2, t2, g2⟩ := h2
  refine ⟨by rw [i2, i1], c2, by rw [m2, m1], by rw [n2, n1], T1 ++ T2,
    by rw [t2, t1, List.append_assoc], ?_⟩
  intro st hst
  rcases List.mem_append.1 hst with h | h
  · exact g1 st h
  · rw [← m1]
    exact g2 st h

theorem restores_of_quiet {s s2 : State} (hcs : s.cs = false) (h : Quiet s s2) :
    Restores s s2 := by
  obtain ⟨i1, c1, m1, n1, T1, t1, g1⟩ := h
  refine ⟨i1, by rw [c1, hcs], m1, n1, T1, t1, ?_⟩
  intro st hst hc
  rw [(g1 st hst).2, hcs] at hc
  exact Bool.noConfusion hc

theorem restores_txn {s s2 : State}
    (h : Quiet (SPI_FLASH_ENABLE (splhigh s).2) s2) :
    Restores s (splx (splhigh s).1 (SPI_FLASH_DISABLE s2)) := by
  obtain ⟨i1, c1, m1, n1, T1, t1, g1⟩ := h
  simp only [SPI_FLASH_ENABLE, splhigh, State.emit] at i1 c1 m1 n1 t1 g1
  refine ⟨rfl, rfl, m1, n1,
    [⟨.splhigh, s.splmax, s.cs⟩, ⟨.enable, s.splmax, true⟩] ++ T1 ++
      [⟨.disable s2.chip.cmd s2.chip.nout, s2.ipl, false⟩, ⟨.splx s.ipl, s.ipl, false⟩], ?_, ?_⟩
  · simp [splx, SPI_FLASH_DISABLE, State.emit, splhigh, t1]
  · intro st hst hc
    simp only [List.mem_append, List.mem_cons, List.not_mem_nil, or_false] at hst
    rcases hst with ((rfl | rfl) | h) | (rfl | rfl)
    · rfl
    · rfl
    · exact (g1 st h).1
    · exact Bool.noConfusion hc
    · exact Bool.noConfusion hc

theorem restores_write_enable (s : State) : Restores s (write_enable s) := by
  unfold write_enable
  exact restores_txn (quiet_SPI_WRITE _ _)

theorem restores_read_status_register (s : State) :
    Restores s (read_status_register s).2 := by
  unfold read_status_register
  exact restores_txn
    (quiet_trans (quiet_trans (quiet_SPI_WRITE _ _) (quiet_emit _ _)) (quiet_SPI_READ _))

theorem restores_wait_ready : ∀ (fuel : Nat) (s : State) (u : Nat) (s2 : State),
    s.cs = false → wait_ready fuel s = some (u, s2) → Restores s s2 := by
  intro fuel
  induction fuel with
  | zero => intro s u s2 _ h; exact Option.noConfusion h
  | succ fuel ih =>
    intro s u s2 hcs h
    rw [wait_ready] at h
    have h1 := restores_read_status_register s
    have h2 : Restores s (watchdog_periodic (read_status_register s).2) :=
      restores_trans h1 (restores_of_quiet h1.2.1 (quiet_emit _ _))
    simp only at h
    split at h
    · exact restores_trans h2 (ih _ _ _ h2.2.1 h)
    · simp only [Option.some.injEq, Prod.mk.injEq] at h
      rw [← h.2]
      exact h2

theorem restores_xmem_pread (fuel : Nat) (buf : List Nat) (size : Int) (offset : Nat)
    (s : State) (r : List Nat × Int) (s2 : State) (hcs : s.cs = false)
    (h : xmem_pread fuel buf size offset s = some (r, s2)) : Restores s s2 := by
  unfold xmem_pread at h
  cases hw : wait_ready fuel s with
  | none => rw [hw] at h; exact Option.noConfusion h
  | some us =>
    obtain ⟨u, s1⟩ := us
    rw [hw] at h
    simp only [Option.bind_eq_bind, Option.some_bind, Option.pure_def, Option.some.injEq,
      Prod.mk.injEq] at h
    rw [← h.2]
    refine restores_trans (restores_wait_ready fuel s u s1 hcs hw) (restores_txn ?_)
    exact quiet_trans (quiet_trans (quiet_trans (quiet_trans (quiet_trans (quiet_trans
      (quiet_SPI_WRITE _ _) (quiet_SPI_WRITE _ _)) (quiet_SPI_WRITE _ _))
      (quiet_SPI_WRITE _ _)) (quiet_emit _ _)) (quiet_emit _ _)) (quiet_xmem_pread_loop _ _ _ _)

theorem restores_program_page (fuel : Nat) (offset : Nat) (buf : List Nat) (p : Nat)
    (nbytes : Int) (s : State) (r : Nat) (s2 : State) (hcs : s.cs = false)
    (h : program_page fuel offset buf p nbytes s = some (r, s2)) : Restores s s2 := by
  unfold program_page at h
  cases hw : wait_ready fuel s with
  | none => rw [hw] at h; exact Option.noConfusion h
  | some us =>
    obtain ⟨u, s1⟩ := us
    rw [hw] at h
    simp only [Option.bind_eq_bind, Option.some_bind, Option.pure_def, Option.some.injEq,
      Prod.mk.injEq] at h
    rw [← h.2]
    have h1 := restores_wait_ready fuel s u s1 hcs hw
    have h2 : Restores s (if s1.canary = true then
        check_write_canary (buf.drop p) nbytes offset s1 else s1) :=
      restores_trans h1 (restores_of_quiet h1.2.1
        (quiet_ite _ (quiet_check_write_canary _ _ _ _) (quiet_refl _)))
    refine restores_trans (restores_trans h2 (restores_write_enable _)) (restores_txn ?_)
    exact quiet_trans (quiet_trans (quiet_trans (quiet_trans (quiet_trans
      (quiet_SPI_WRITE _ _) (quiet_SPI_WRITE _ _)) (quiet_SPI_WRITE _ _))
      (quiet_SPI_WRITE _ _)) (quiet_program_page_loop _ _ _ _)) (quiet_emit _ _)

theorem restores_xmem_init (s : State) (hcs : s.cs = false) : Restores s (xmem_init s) := by
  unfold xmem_init
  have h1 : Restores s (((s.emit .spiInit).emit .pinsOut).emit .powerOn) :=
    restores_of_quiet hcs
      (quiet_trans (quiet_trans (quiet_emit _ _) (quiet_emit _ _)) (quiet_emit _ _))
  have h2 := restores_trans h1 (restores_txn (s := ((s.emit .spiInit).emit .pinsOut).emit .powerOn)
    (quiet_trans (quiet_SPI_WRITE SPI_FLASH_INS_RES _) (quiet_emit _ .txEnded)))
  exact restores_trans h2 (restores_of_quiet h2.2.1 (quiet_emit _ _))

theorem restores_check_erase_canary_loop (fuel offset e : Nat) :
    ∀ (n p : Nat) (b : List Nat) (s s2 : State), s.cs = false →
      check_erase_canary_loop fuel offset e n p b s = some s2 → Restores s s2 := by
  intro n
  induction n with
  | zero =>
    intro p b s s2 hcs h
    rw [check_erase_canary_loop] at h
    split at h
    · exact Option.noConfusion h
    · rw [← Option.some.inj h]
      exact restores_refl s hcs
  | succ n ih =>
    intro p b s s2 hcs h
    rw [check_erase_canary_loop] at h
    split at h
    · cases hr : xmem_pread fuel b PAGE_SIZE p s with
      | none => rw [hr] at h; exact Option.noConfusion h
      | some rs =>
        obtain ⟨⟨b1, r⟩, s1⟩ := rs
        rw [hr] at h
        simp only [Option.bind_eq_bind, Option.some_bind] at h
        have h1 := restores_xmem_pread fuel b PAGE_SIZE p s _ s1 hcs hr
        have h2 : Restores s (if r ≠ (PAGE_SIZE : Int) then printf (.errorReadingPage p) s1
            else s1) :=
          restores_trans h1 (restores_of_quiet h1.2.1
            (quiet_ite _ (quiet_emit _ _) (quiet_refl _)))
        have h3 := restores_trans h2 (restores_of_quiet h2.2.1
          (quiet_check_erase_canary_scan b1 p offset (PAGE_SIZE - 4) 0 _))
        exact restores_trans h3 (ih _ _ _ _ h3.2.1 h)
    · rw [← Option.some.inj h]
      exact restores_refl s hcs

theorem restores_erase_sector (fuel offset : Nat) (s s2 : State) (hcs : s.cs = false)
    (h : erase_sector fuel offset s = some s2) : Restores s s2 := by
  have htail : ∀ y : State, Restores y
      (splx (splhigh (write_enable y)).1
        (SPI_FLASH_DISABLE
          (SPI_WAITFORTx_ENDED
            (SPI_WRITE_FAST ((offset >>> 0 : Nat) : Int)
              (SPI_WRITE_FAST ((offset >>> 8 : Nat) : Int)
                (SPI_WRITE_FAST ((offset >>> 16 : Nat) : Int)
                  (SPI_WRITE_FAST (SPI_FLASH_INS_SE : Nat)
                    (SPI_FLASH_ENABLE (splhigh (write_enable y)).2)))))))) := by
    intro y
    refine restores_trans (restores_write_enable y) (restores_txn ?_)
    exact quiet_trans (quiet_trans (quiet_trans (quiet_trans
      (quiet_SPI_WRITE _ _) (quiet_SPI_WRITE _ _)) (quiet_SPI_WRITE _ _))
      (quiet_SPI_WRITE _ _)) (quiet_emit _ _)
  unfold erase_sector at h
  cases hw : wait_ready fuel s with
  | none => rw [hw] at h; exact Option.noConfusion h
  | some us =>
    obtain ⟨u, s1⟩ := us
    rw [hw] at h
    simp only [Option.bind_eq_bind, Option.some_bind] at h
    have h1 := restores_wait_ready fuel s u s1 hcs hw
    split at h
    · cases hc : check_erase_canary fuel offset s1 with
      | none => rw [hc] at h; exact Option.noConfusion h
      | some s3 =>
        rw [hc] at h
        simp only [Option.some_bind, Option.pure_def, Option.some.injEq] at h
        rw [← h]
        exact restores_trans (restores_trans h1
          (restores_check_erase_canary_loop _ _ _ _ _ _ _ _ h1.2.1 hc)) (htail s3)
    · simp only [Option.pure_def, Option.some_bind, Option.some.injEq] at h
      rw [← h]
      exact restores_trans h1 (htail s1)

theorem restores_xmem_pwrite_loop (fuel : Nat) (buf : List Nat) (e : Nat) :
    ∀ (n i p : Nat) (s : State) (r : Nat) (s2 : State), s.cs = false →
      xmem_pwrite_loop fuel buf e n i p s = some (r, s2) → Restores s s2 := by
  intro n
  induction n with
  | zero =>
    intro i p s r s2 hcs h
    rw [xmem_pwrite_loop] at h
    split at h
    · exact Option.noConfusion h
    · rw [← (Prod.mk.inj (Option.some.inj h)).2]
      exact restores_refl s hcs
  | succ n ih =>
    intro i p s r s2 hcs h
    rw [xmem_pwrite_loop] at h
    split at h
    · cases hp : program_page fuel i buf p
          (toCInt (toULong ((next_page i e : Int) - i))) s with
      | none =>
        simp only [Option.bind_eq_bind, hp] at h
        exact Option.noConfusion h
      | some ps =>
        obtain ⟨p1, s1⟩ := ps
        simp only [Option.bind_eq_bind, hp, Option.some_bind] at h
        have h1 := restores_program_page fuel i buf p _ s p1 s1 hcs hp
        exact restores_trans h1 (ih _ _ _ _ _ h1.2.1 h)
    · rw [← (Prod.mk.inj (Option.some.inj h)).2]
      exact restores_refl s hcs

theorem restores_xmem_pwrite (fuel : Nat) (buf : List Nat) (size : Int) (addr : Nat)
    (s : State) (r : Int) (s2 : State) (hcs : s.cs = false)
    (h : xmem_pwrite fuel buf size addr s = some (r, s2)) : Restores s s2 := by
  unfold xmem_pwrite at h
  cases hl : xmem_pwrite_loop fuel buf (toULong ((addr : Int) + size)) fuel addr 0 s with
  | none =>
    simp only [Option.bind_eq_bind, hl] at h
    exact Option.noConfusion h
  | some ps =>
    obtain ⟨p1, s1⟩ := ps
    simp only [Option.bind_eq_bind, hl, Option.some_bind, Option.pure_def, Option.some.injEq,
      Prod.mk.injEq] at h
    rw [← h.2]
    exact restores_xmem_pwrite_loop fuel buf _ _ _ _ _ _ _ hcs hl

theorem restores_xmem_erase_loop (fuel e : Nat) : ∀ (n addr : Nat) (s s2 : State),
    s.cs = false → xmem_erase_loop fuel e n addr s = some s2 → Restores s s2 := by
  intro n
  induction n with
  | zero =>
    intro addr s s2 hcs h
    rw [xmem_erase_loop] at h
    split at h
    · exact Option.noConfusion h
    · rw [← Option.some.inj h]
      exact restores_refl s hcs
  | succ n ih =>
    intro addr s s2 hcs h
    rw [xmem_erase_loop] at h
    split at h
    · cases he : erase_sector fuel addr s with
      | none =>
        simp only [Option.bind_eq_bind, he] at h
        exact Option.noConfusion h
      | some s1 =>
        simp only [Option.bind_eq_bind, he, Option.some_bind] at h
        have h1 := restores_erase_sector fuel addr s s1 hcs he
        exact restores_trans h1 (ih _ _ _ h1.2.1 h)
    · rw [← Option.some.inj h]
      exact restores_refl s hcs

theorem restores_xmem_erase (fuel : Nat) (size : Int) (addr : Nat) (s : State) (r : Int)
    (s2 : State) (hcs : s.cs = false) (h : xmem_erase fuel size addr s = some (r, s2)) :
    Restores s s2 := by
  unfold xmem_erase at h
  simp only at h
  split at h
  · rw [← (Prod.mk.inj (Option.some.inj h)).2]
    exact restores_refl s hcs
  · split at h
    · rw [← (Prod.mk.inj (Option.some.inj h)).2]
      exact restores_refl s hcs
    · cases hl : xmem_erase_loop fuel (toULong ((addr : Int) + size)) fuel addr s with
      | none =>
        simp only [Option.bind_eq_bind, hl] at h
        exact Option.noConfusion h
      | some s1 =>
        simp only [Option.bind_eq_bind, hl, Option.some_bind, Option.pure_def,
          Option.some.injEq, Prod.mk.injEq] at h
        rw [← h.2]
        exact restores_xmem_erase_loop fuel _ _ _ _ _ hcs hl

/-! ## What a call that returns has done -/

theorem wait_ready_none : ∀ (fuel : Nat) (s : State), s.cs = false → fuel ≤ s.chip.busy →
    wait_ready fuel s = none := by
  intro fuel
  induction fuel with
  | zero => intro s _ _; rfl
  | succ fuel ih =>
    intro s hcs hb
    rw [wait_ready, read_status_register_eq s hcs]
    simp only [watchdog_periodic, State.emit]
    have h0 : ¬ s.chip.busy = 0 := by omega
    rw [statusByte_wip]
    simp only [h0, if_false, ne_eq, one_ne_zero, not_false_eq_true, if_true]
    exact ih _ rfl (by simp [State.after]; omega)

theorem wait_ready_some (fuel : Nat) (s : State) (r : Nat × State) (hcs : s.cs = false)
    (h : wait_ready fuel s = some r) : s.chip.busy < fuel := by
  by_contra hb
  rw [wait_ready_none fuel s hcs (by omega)] at h
  exact Option.noConfusion h

theorem xmem_pread_some (fuel : Nat) (buf : List Nat) (size : Int) (offset : Nat) (s : State)
    (r : (List Nat × Int) × State) (hcs : s.cs = false)
    (h : xmem_pread fuel buf size offset s = some r) : s.chip.busy < fuel := by
  by_contra hb
  unfold xmem_pread at h
  rw [wait_ready_none fuel s hcs (by omega)] at h
  exact Option.noConfusion h

theorem program_page_some (fuel : Nat) (offset : Nat) (buf : List Nat) (p : Nat) (nbytes : Int)
    (s : State) (r : Nat × State) (hcs : s.cs = false)
    (h : program_page fuel offset buf p nbytes s = some r) : s.chip.busy < fuel := by
  by_contra hb
  unfold program_page at h
  rw [wait_ready_none fuel s hcs (by omega)] at h
  exact Option.noConfusion h

theorem erase_sector_some_busy (fuel offset : Nat) (s s2 : State) (hcs : s.cs = false)
    (h : erase_sector fuel offset s = some s2) : s.chip.busy < fuel := by
  by_contra hb
  unfold erase_sector at h
  rw [wait_ready_none fuel s hcs (by omega)] at h
  exact Option.noConfusion h

theorem xmem_pwrite_loop_steps (fuel : Nat) (buf : List Nat) (e : Nat) (P : List Step → Prop)
    (hnil : P []) (happ : ∀ A B, P A → P B → P (A ++ B))
    (hpage : ∀ (s : State) (off p : Nat) (nb : Int), s.cs = false →
      P (programPageTrace s off buf p nb)) :
    ∀ (n i p : Nat) (s : State) (r : Nat) (s2 : State), s.cs = false →
      xmem_pwrite_loop fuel buf e n i p s = some (r, s2) →
      ∃ (c : Chip) (T : List Step), s2 = s.after c T ∧ P T := by
  intro n
  induction n with
  | zero =>
    intro i p s r s2 hcs h
    rw [xmem_pwrite_loop] at h
    split at h
    · exact Option.noConfusion h
    · refine ⟨s.chip, [], ?_, hnil⟩
      rw [after_self s hcs, ← (Prod.mk.inj (Option.some.inj h)).2]
  | succ n ih =>
    intro i p s r s2 hcs h
    rw [xmem_pwrite_loop] at h
    split at h
    · cases hp : program_page fuel i buf p
          (toCInt (toULong ((next_page i e : Int) - i))) s with
      | none =>
        simp only [Option.bind_eq_bind, hp] at h
        exact Option.noConfusion h
      | some ps =>
        have hb := program_page_some fuel i buf p _ s ps hcs hp
        have heq := program_page_eq fuel i buf p
          (toCInt (toULong ((next_page i e : Int) - i))) s hcs hb
        simp only [Option.bind_eq_bind, heq, Option.some_bind] at h
        obtain ⟨c, T, hs2, hT⟩ := ih _ _ _ _ _ (by rfl) h
        refine ⟨c, programPageTrace s i buf p (toCInt (toULong ((next_page i e : Int) - i)))
          ++ T, ?_, happ _ _ (hpage s i p _ hcs) hT⟩
        rw [hs2, after_after]
    · refine ⟨s.chip, [], ?_, hnil⟩
      rw [after_self s hcs, ← (Prod.mk.inj (Option.some.inj h)).2]

theorem xmem_pwrite_steps (fuel : Nat) (buf : List Nat) (size : Int) (addr : Nat)
    (P : List Step → Prop) (hnil : P []) (happ : ∀ A B, P A → P B → P (A ++ B))
    (hpage : ∀ (s : State) (off p : Nat) (nb : Int), s.cs = false →
      P (programPageTrace s off buf p nb))
    (s : State) (r : Int) (s2 : State) (hcs : s.cs = false)
    (h : xmem_pwrite fuel buf size addr s = some (r, s2)) :
    r = size ∧ ∃ (c : Chip) (T : List Step), s2 = s.after c T ∧ P T := by
  unfold xmem_pwrite at h
  cases hl : xmem_pwrite_loop fuel buf (toULong ((addr : Int) + size)) fuel addr 0 s with
  | none =>
    simp only [Option.bind_eq_bind, hl] at h
    exact Option.noConfusion h
  | some ps =>
    obtain ⟨p1, s1⟩ := ps
    simp only [Option.bind_eq_bind, hl, Option.some_bind, Option.pure_def, Option.some.injEq,
      Prod.mk.injEq] at h
    rw [← h.2]
    exact ⟨h.1.symm, xmem_pwrite_loop_steps fuel buf _ P hnil happ hpage _ _ _ _ _ _ hcs hl⟩

theorem check_erase_canary_loop_some (fuel offset e : Nat) :
    ∀ (n p : Nat) (b : List Nat) (s s2 : State),
      s.cs = false → s.chip.busy = 0 → s.chip.cmd = [] → s.chip.nout = 0 →
      check_erase_canary_loop fuel offset e n p b s = some s2 →
      ∃ T, CanaryReads T ∧ s2 = s.after s.chip T := by
  intro n
  induction n with
  | zero =>
    intro p b s s2 hcs _ _ _ h
    rw [check_erase_canary_loop] at h
    split at h
    · exact Option.noConfusion h
    · exact ⟨[], CanaryReads.nil, by rw [after_self s hcs, ← Option.some.inj h]⟩
  | succ n ih =>
    intro p b s s2 hcs hb hc hn h
    rw [check_erase_canary_loop] at h
    split at h
    · cases hr : xmem_pread fuel b PAGE_SIZE p s with
      | none =>
        simp only [Option.bind_eq_bind, hr] at h
        exact Option.noConfusion h
      | some rs =>
        have hbf := xmem_pread_some fuel b PAGE_SIZE p s rs hcs hr
        have heq := xmem_pread_eq fuel b PAGE_SIZE p s hcs hbf
        rw [chip_ready_eq s.chip hb hc hn] at heq
        obtain ⟨R, hR⟩ := check_erase_canary_scan_reports
          (storeFrom b 0 ((readData s.chip.mem (p % 2 ^ 24) ((PAGE_SIZE : Int)).toNat).map
            (fun u : Nat => toU8 (bnot (u : Int))))) p offset (PAGE_SIZE - 4) 0
        have hst : ∀ U : List Step, ({ (s.after s.chip U) with
            trace := (s.after s.chip U).trace ++
              reportSteps (s.after s.chip U).ipl (s.after s.chip U).cs R } : State) =
            s.after s.chip (U ++ reportSteps s.ipl false R) := by
          intro U
          simp [State.after]
        simp only [Option.bind_eq_bind, heq, Option.some_bind, ne_eq, not_true_eq_false,
          if_false, hR, hst] at h
        obtain ⟨T, hT, hs2⟩ := ih _ _
          (s.after s.chip (preadTrace s p ((PAGE_SIZE : Int)).toNat ++
            reportSteps s.ipl false R)) _ rfl hb hc hn h
        refine ⟨preadTrace s p ((PAGE_SIZE : Int)).toNat ++ reportSteps s.ipl false R ++ T,
          CanaryReads.page s p _ s.ipl R T hT, ?_⟩
        rw [hs2, after_after, after_chip]
    · exact ⟨[], CanaryReads.nil, by rw [after_self s hcs, ← Option.some.inj h]⟩

theorem erase_sector_some (fuel offset : Nat) (s s2 : State) (hcs : s.cs = false)
    (h : erase_sector fuel offset s = some s2) :
    ∃ Tc, CanaryReads Tc ∧ (s.canary = false → Tc = []) ∧
      s2 = s.after (eraseSectorChip s.chip (offset % 2 ^ 24))
        (pollTrace s.ipl s.splmax s.chip.wel s.chip.sr s.chip.busy ++ Tc ++
          txn s.ipl s.splmax [.tx 6] [6] 0 ++ eraseTxn s.ipl s.splmax offset) := by
  have hb := erase_sector_some_busy fuel offset s s2 hcs h
  have h24 := shift_bytes offset
  simp only [Nat.shiftRight_zero] at h24
  unfold erase_sector at h
  rw [wait_ready_eq fuel s hcs hb] at h
  simp only [Option.bind_eq_bind, Option.some_bind, after_canary] at h
  by_cases hc : s.canary = true
  · simp only [hc, if_true] at h
    cases hl : check_erase_canary fuel offset (s.after { s.chip.idle with busy := 0 }
        (pollTrace s.ipl s.splmax s.chip.wel s.chip.sr s.chip.busy)) with
    | none =>
      rw [hl] at h
      exact Option.noConfusion h
    | some s3 =>
      obtain ⟨T, hT, hs3⟩ := check_erase_canary_loop_some fuel offset _ _ _ _ _ _
        rfl rfl rfl rfl hl
      rw [hl, hs3, after_after, after_chip] at h
      simp only [Option.some_bind, Option.pure_def, Option.some.injEq] at h
      refine ⟨T, hT, fun h0 => by rw [h0] at hc; exact absurd hc (by decide), ?_⟩
      rw [← h, write_enable_eq _ (by rfl)]
      simp [splhigh, SPI_FLASH_ENABLE, SPI_WRITE_FAST, SPI_WRITE, State.emit, Chip.select,
        Chip.tx, SPI_FLASH_DISABLE, splx, Chip.deselect, State.after, Chip.idle, txn, eraseTxn,
        eraseSectorChip, h24, SPI_FLASH_INS_WREN, SPI_FLASH_INS_PP, SPI_FLASH_INS_SE,
        SPI_WAITFORTx_ENDED]
  · simp only [hc, if_false, Option.pure_def, Bool.false_eq_true, Option.some_bind,
      Option.some.injEq] at h
    refine ⟨[], CanaryReads.nil, fun _ => rfl, ?_⟩
    rw [← h, write_enable_eq _ (by rfl)]
    simp [splhigh, SPI_FLASH_ENABLE, SPI_WRITE_FAST, SPI_WRITE, State.emit, Chip.select,
      Chip.tx, SPI_FLASH_DISABLE, splx, Chip.deselect, State.after, Chip.idle, txn, eraseTxn,
      eraseSectorChip, h24, SPI_FLASH_INS_WREN, SPI_FLASH_INS_PP, SPI_FLASH_INS_SE,
      SPI_WAITFORTx_ENDED]

theorem xmem_erase_loop_steps (fuel e : Nat) (P : List Step → Prop)
    (hnil : P []) (happ : ∀ A B, P A → P B → P (A ++ B))
    (hsec : ∀ (s : State) (offset : Nat) (Tc : List Step), s.cs = false → CanaryReads Tc →
      (s.canary = false → Tc = []) →
      P (pollTrace s.ipl s.splmax s.chip.wel s.chip.sr s.chip.busy ++ Tc ++
        txn s.ipl s.splmax [.tx 6] [6] 0 ++ eraseTxn s.ipl s.splmax offset)) :
    ∀ (n addr : Nat) (s s2 : State), s.cs = false →
      xmem_erase_loop fuel e n addr s = some s2 →
      ∃ (c : Chip) (T : List Step), s2 = s.after c T ∧ P T := by
  intro n
  induction n with
  | zero =>
    intro addr s s2 hcs h
    rw [xmem_erase_loop] at h
    split at h
    · exact Option.noConfusion h
    · exact ⟨s.chip, [], by rw [after_self s hcs, ← Option.some.inj h], hnil⟩
  | succ n ih =>
    intro addr s s2 hcs h
    rw [xmem_erase_loop] at h
    split at h
    · cases he : erase_sector fuel addr s with
      | none =>
        simp only [Option.bind_eq_bind, he] at h
        exact Option.noConfusion h
      | some s1 =>
        obtain ⟨Tc, hTc, hnc, hs1⟩ := erase_sector_some fuel addr s s1 hcs he
        simp only [Option.bind_eq_bind, he, Option.some_bind] at h
        rw [hs1] at h
        obtain ⟨c, T, hs2, hT⟩ := ih _ _ _ (by rfl) h
        refine ⟨c, (pollTrace s.ipl s.splmax s.chip.wel s.chip.sr s.chip.busy ++ Tc ++
          txn s.ipl s.splmax [.tx 6] [6] 0 ++ eraseTxn s.ipl s.splmax addr) ++ T, ?_,
          happ _ _ (hsec s addr Tc hcs hTc hnc) hT⟩
        rw [hs2, after_after]
    · exact ⟨s.chip, [], by rw [after_self s hcs, ← Option.some.inj h], hnil⟩

theorem xmem_erase_steps (fuel : Nat) (size : Int) (addr : Nat) (P : List Step → Prop)
    (hnil : P []) (happ : ∀ A B, P A → P B → P (A ++ B))
    (hsec : ∀ (s : State) (offset : Nat) (Tc : List Step), s.cs = false → CanaryReads Tc →
      (s.canary = false → Tc = []) →
      P (pollTrace s.ipl s.splmax s.chip.wel s.chip.sr s.chip.busy ++ Tc ++
        txn s.ipl s.splmax [.tx 6] [6] 0 ++ eraseTxn s.ipl s.splmax offset))
    (s : State) (r : Int) (s2 : State) (hcs : s.cs = false)
    (h : xmem_erase fuel size addr s = some (r, s2)) :
    ∃ (c : Chip) (T : List Step), s2 = s.after c T ∧ P T := by
  unfold xmem_erase at h
  simp only at h
  split at h
  · exact ⟨s.chip, [], by rw [after_self s hcs, ← (Prod.mk.inj (Option.some.inj h)).2], hnil⟩
  · split at h
    · exact ⟨s.chip, [], by rw [after_self s hcs, ← (Prod.mk.inj (Option.some.inj h)).2], hnil⟩
    · cases hl : xmem_erase_loop fuel (toULong ((addr : Int) + size)) fuel addr s with
      | none =>
        simp only [Option.bind_eq_bind, hl] at h
        exact Option.noConfusion h
      | some s1 =>
        simp only [Option.bind_eq_bind, hl, Option.some_bind, Option.pure_def,
          Option.some.injEq, Prod.mk.injEq] at h
        rw [← h.2]
        exact xmem_erase_loop_steps fuel _ P hnil happ hsec _ _ _ _ hcs hl

/-! ## Write-enable before program and erase -/

theorem canaryReads_readOnly (T : List Step) (h : CanaryReads T) : ReadOnly T := by
  induction h with
  | nil => exact readOnly_nil
  | page s p n l R rest _ ih =>
    exact readOnly_append _ _ (readOnly_append _ _ (readOnly_preadTrace s p n)
      (readOnly_reportSteps l false R)) ih

theorem wrenPaired_append (A B : List (List Nat × Nat)) (hA : WrenPaired A)
    (hB : WrenPaired B) : WrenPaired (A ++ B) := by
  induction hA with
  | nil => exact hB
  | other c rest h1 h2 h3 _ ih => exact WrenPaired.other c _ h1 h2 h3 ih
  | pair w m rest h1 h2 _ ih => exact WrenPaired.pair w m _ h1 h2 ih

theorem wrenPaired_of_reads : ∀ (L : List (List Nat × Nat)),
    (∀ c ∈ L, c.1.head? = some SPI_FLASH_INS_RDSR ∨ c.1.head? = some SPI_FLASH_INS_READ) →
    WrenPaired L := by
  intro L
  induction L with
  | nil => intro _; exact WrenPaired.nil
  | cons c rest ih =>
    intro h
    have hc := h c (List.mem_cons_self _ _)
    refine WrenPaired.other c rest ?_ ?_ ?_ (ih (fun d hd => h d (List.mem_cons_of_mem _ hd)))
    all_goals
      rcases hc with hc | hc <;> rw [hc] <;>
        simp [SPI_FLASH_INS_RDSR, SPI_FLASH_INS_READ, SPI_FLASH_INS_WREN, SPI_FLASH_INS_PP,
          SPI_FLASH_INS_SE]

theorem wrenPaired_pred (L : List (List Nat × Nat)) (h : WrenPaired L) :
    ∀ (i : Nat) (c : List Nat × Nat), L[i]? = some c →
      (c.1.head? = some SPI_FLASH_INS_PP ∨ c.1.head? = some SPI_FLASH_INS_SE) →
      ∃ (j : Nat) (w : List Nat × Nat), i = j + 1 ∧ L[j]? = some w ∧
        w.1 = [SPI_FLASH_INS_WREN] := by
  induction h with
  | nil => intro i c hc; simp at hc
  | other c0 rest h1 h2 h3 _ ih =>
    intro i c hc hm
    cases i with
    | zero =>
      simp only [List.getElem?_cons_zero, Option.some.injEq] at hc
      subst hc
      rcases hm with hm | hm
      · exact absurd hm h2
      · exact absurd hm h3
    | succ i =>
      rw [List.getElem?_cons_succ] at hc
      obtain ⟨j, w, rfl, hw, hw6⟩ := ih i c hc hm
      exact ⟨j + 1, w, rfl, by rw [List.getElem?_cons_succ]; exact hw, hw6⟩
  | pair w0 m rest h1 h2 _ ih =>
    intro i c hc hm
    cases i with
    | zero =>
      simp only [List.getElem?_cons_zero, Option.some.injEq] at hc
      subst hc
      rw [h1] at hm
      simp [SPI_FLASH_INS_WREN, SPI_FLASH_INS_PP, SPI_FLASH_INS_SE] at hm
    | succ i =>
      cases i with
      | zero => exact ⟨0, w0, rfl, rfl, h1⟩
      | succ i =>
        rw [List.getElem?_cons_succ, List.getElem?_cons_succ] at hc
        obtain ⟨j, w, rfl, hw, hw6⟩ := ih i c hc hm
        exact ⟨j + 2, w, rfl,
          by rw [List.getElem?_cons_succ, List.getElem?_cons_succ]; exact hw, hw6⟩

theorem wrenPaired_count (L : List (List Nat × Nat)) (h : WrenPaired L) :
    (L.filter (fun c => c.1.head? = some SPI_FLASH_INS_WREN)).length =
      (L.filter (fun c => c.1.head? = some SPI_FLASH_INS_PP)).length +
        (L.filter (fun c => c.1.head? = some SPI_FLASH_INS_SE)).length := by
  induction h with
  | nil => rfl
  | other c rest h1 h2 h3 _ ih =>
    simp only [List.filter_cons, h1, h2, h3, decide_False, Bool.false_eq_true, if_false]
    exact ih
  | pair w m rest h1 h2 _ ih =>
    have hw6 : w.1.head? = some SPI_FLASH_INS_WREN := by rw [h1]; rfl
    rcases h2 with h2 | h2
    · simp only [List.filter_cons, hw6, h2]
      simp only [SPI_FLASH_INS_WREN, SPI_FLASH_INS_PP, SPI_FLASH_INS_SE] at ih ⊢
      simp only [Option.some.injEq, Nat.reduceEqDiff, decide_True, decide_False,
        Bool.false_eq_true, if_true, if_false, List.length_cons]
      omega
    · simp only [List.filter_cons, hw6, h2]
      simp only [SPI_FLASH_INS_WREN, SPI_FLASH_INS_PP, SPI_FLASH_INS_SE] at ih ⊢
      simp only [Option.some.injEq, Nat.reduceEqDiff, decide_True, decide_False,
        Bool.false_eq_true, if_true, if_false, List.length_cons]
      omega

theorem wrenBefore_of_paired (T : List Step) (h : WrenPaired (commands T)) : WrenBefore T :=
  ⟨wrenPaired_pred _ h, wrenPaired_count _ h⟩

theorem commands_programPageTrace (s : State) (offset : Nat) (buf : List Nat) (p : Nat)
    (nbytes : Int) :
    commands (programPageTrace s offset buf p nbytes) =
      List.replicate (s.chip.busy + 1) ([5], 1) ++
        [([6], 0), (2 :: (offset >>> 16) % 256 :: (offset >>> 8) % 256 :: offset % 256 ::
          pageData buf p nbytes.toNat, 0)] := by
  have hc : commands (if s.canary = true then writeCanarySteps s (buf.drop p) nbytes offset
      else []) = [] := by
    split
    · exact commands_writeCanarySteps _ _ _ _
    · rfl
  unfold programPageTrace
  rw [commands_append, commands_append, commands_append, commands_pollTrace, hc,
    commands_txn, commands_txn]
  · simp
  · intro e he c k
    simp only [List.mem_append, List.mem_cons, List.mem_map, List.mem_singleton,
      List.not_mem_nil, or_false] at he
    rcases he with ((rfl | rfl | rfl | rfl) | ⟨d, _, rfl⟩) | rfl <;> simp
  · simp

theorem commands_eraseTxn (l m offset : Nat) :
    commands (eraseTxn l m offset) =
      [([0xd8, (offset >>> 16) % 256, (offset >>> 8) % 256, offset % 256], 0)] := by
  unfold eraseTxn
  rw [commands_txn]
  intro e he c k
  simp only [List.mem_cons, List.mem_singleton, List.not_mem_nil, or_false] at he
  rcases he with rfl | rfl | rfl | rfl | rfl <;> simp

theorem commands_wren (l m : Nat) : commands (txn l m [.tx 6] [6] 0) = [([6], 0)] := by
  rw [commands_txn]
  intro e he c k
  simp only [List.mem_singleton] at he
  subst he
  simp

theorem wrenPaired_polls (k : Nat) : WrenPaired (List.replicate k ([5], 1)) := by
  apply wrenPaired_of_reads
  intro c hc
  rw [List.eq_of_mem_replicate hc]
  exact Or.inl rfl

theorem wrenPaired_programPageTrace (s : State) (offset : Nat) (buf : List Nat) (p : Nat)
    (nbytes : Int) : WrenPaired (commands (programPageTrace s offset buf p nbytes)) := by
  rw [commands_programPageTrace]
  exact wrenPaired_append _ _ (wrenPaired_polls _)
    (WrenPaired.pair _ _ _ rfl (Or.inl rfl) WrenPaired.nil)

theorem wrenPaired_eraseSector (l m : Nat) (wel : Bool) (sr k offset : Nat) (Tc : List Step)
    (hTc : CanaryReads Tc) :
    WrenPaired (commands (pollTrace l m wel sr k ++ Tc ++ txn l m [.tx 6] [6] 0 ++
      eraseTxn l m offset)) := by
  rw [commands_append, commands_append, commands_append, commands_pollTrace, commands_wren,
    commands_eraseTxn, List.append_assoc]
  exact wrenPaired_append _ _ (wrenPaired_append _ _ (wrenPaired_polls _)
    (wrenPaired_of_reads _ (canaryReads_readOnly Tc hTc)))
    (WrenPaired.pair _ _ _ rfl (Or.inr rfl) WrenPaired.nil)

theorem wrenPaired_commands_append (A B : List Step) (hA : WrenPaired (commands A))
    (hB : WrenPaired (commands B)) : WrenPaired (commands (A ++ B)) := by
  rw [commands_append]
  exact wrenPaired_append _ _ hA hB

/-! ## The polling loop -/

theorem rxBytes_pollTrace_succ (l m : Nat) (wel : Bool) (sr k : Nat) :
    rxBytes (pollTrace l m wel sr (k + 1)) =
      statusByte (k + 1) wel sr :: rxBytes (pollTrace l m wel sr k) := by
  rw [pollTrace]
  simp [rxBytes, txn]

theorem rxBytes_pollTrace (l m : Nat) (wel : Bool) (sr : Nat) : ∀ k,
    (rxBytes (pollTrace l m wel sr k)).length = k + 1 ∧
    (∀ j, j < k → (rxBytes (pollTrace l m wel sr k)).getD j 0 &&& 0x01 = 1) ∧
    (rxBytes (pollTrace l m wel sr k)).getD k 0 = statusByte 0 wel sr := by
  intro k
  induction k with
  | zero => exact ⟨by simp [pollTrace, rxBytes, txn], fun j hj => absurd hj (by omega),
      by simp [pollTrace, rxBytes, txn]⟩
  | succ k ih =>
    rw [rxBytes_pollTrace_succ]
    refine ⟨by simp [ih.1], ?_, by simpa using ih.2.2⟩
    intro j hj
    cases j with
    | zero =>
      have := statusByte_wip (k + 1) wel sr
      simpa using this
    | succ j => simpa using ih.2.1 j (by omega)

theorem watchdogs_pollTrace (l m : Nat) (wel : Bool) (sr : Nat) : ∀ k,
    watchdogs (pollTrace l m wel sr k) = k + 1 := by
  intro k
  induction k with
  | zero => simp [pollTrace, watchdogs, txn]
  | succ k ih =>
    have happ : ∀ A B : List Step, watchdogs (A ++ B) = watchdogs A + watchdogs B := by
      intro A B; simp [watchdogs]
    rw [pollTrace, happ, ih]
    simp [watchdogs, txn]
    omega

/-! ## Address bytes -/

theorem withOpcode_preadTrace (s : State) (offset n : Nat) :
    withOpcode SPI_FLASH_INS_READ (preadTrace s offset n) =
      [([3, (offset >>> 16) % 256, (offset >>> 8) % 256, offset % 256], n)] := by
  unfold preadTrace
  rw [withOpcode_append, withOpcode_pollTrace _ (by decide)]
  simp only [withOpcode, List.nil_append]
  rw [commands_txn]
  · simp [SPI_FLASH_INS_READ]
  · intro e he c k
    simp only [List.mem_append, List.mem_cons, List.mem_map, List.not_mem_nil, or_false] at he
    rcases he with (rfl | rfl | rfl | rfl | rfl | rfl) | ⟨d, _, rfl⟩ <;> simp

theorem withOpcode_programPageTrace (s : State) (offset : Nat) (buf : List Nat) (p : Nat)
    (nbytes : Int) :
    withOpcode SPI_FLASH_INS_PP (programPageTrace s offset buf p nbytes) =
      [(2 :: (offset >>> 16) % 256 :: (offset >>> 8) % 256 :: offset % 256 ::
        pageData buf p nbytes.toNat, 0)] := by
  rw [withOpcode, commands_programPageTrace, List.filter_append]
  simp [SPI_FLASH_INS_PP, List.filter_eq_nil_iff]

/-! ## The bytes the canary scans look at -/

theorem memcmp4_congr (b b2 : List Nat) (i : Nat) (c : List Nat)
    (h : ∀ k, k < 4 → b.getD (i + k) 0 = b2.getD (i + k) 0) :
    memcmp4 b i c = memcmp4 b2 i c := by
  have hm : (List.range 4).map (fun k => b.getD (i + k) 0) =
      (List.range 4).map (fun k => b2.getD (i + k) 0) :=
    List.map_congr_left (fun k hk => h k (List.mem_range.1 hk))
  unfold memcmp4
  rw [hm]

theorem check_write_canary_loop_congr (b b2 : List Nat) (offset : Nat) : ∀ (n i : Nat)
    (s : State), (∀ j, i ≤ j → j < i + n + 3 → b.getD j 0 = b2.getD j 0) →
    check_write_canary_loop b offset n i s = check_write_canary_loop b2 offset n i s := by
  intro n
  induction n with
  | zero => intro i s _; rfl
  | succ n ih =>
    intro i s h
    have hw : ∀ c, memcmp4 b i c = memcmp4 b2 i c := fun c =>
      memcmp4_congr b b2 i c (fun k hk => h (i + k) (by omega) (by omega))
    simp only [check_write_canary_loop, hw]
    exact ih (i + 1) _ (fun j h1 h2 => h j (by omega) (by omega))

theorem check_erase_canary_scan_congr (b b2 : List Nat) (p offset : Nat) : ∀ (n i : Nat)
    (s : State), (∀ j, i ≤ j → j < i + n + 3 → b.getD j 0 = b2.getD j 0) →
    check_erase_canary_scan b p offset n i s = check_erase_canary_scan b2 p offset n i s := by
  intro n
  induction n with
  | zero => intro i s _; rfl
  | succ n ih =>
    intro i s h
    have hw : ∀ c, memcmp4 b i c = memcmp4 b2 i c := fun c =>
      memcmp4_congr b b2 i c (fun k hk => h (i + k) (by omega) (by omega))
    simp only [check_erase_canary_scan, hw]
    exact ih (i + 1) _ (fun j h1 h2 => h j (by omega) (by omega))

/-! ## Commands are issued to an idle chip -/

theorem wipRun_append (A B : List Step) : ∀ st : Bool × Nat,
    wipRun st (A ++ B) = (wipRun st A).bind (fun st2 => wipRun st2 B) := by
  induction A with
  | nil => intro st; rfl
  | cons x A ih =>
    intro st
    simp only [List.cons_append, wipRun]
    cases wipStep st x with
    | none => rfl
    | some st2 => exact ih st2

theorem polledIdle_nil : PolledIdle [] := fun _ => rfl

theorem polledIdle_append (A B : List Step) (hA : PolledIdle A) (hB : PolledIdle B) :
    PolledIdle (A ++ B) := by
  intro st
  rw [wipRun_append]
  obtain ⟨st2, h2⟩ := Option.isSome_iff_exists.1 (hA st)
  rw [h2]
  exact hB st2

/-- Events between the assertion and the release of chip-select leave the
knowledge about the chip as it is. -/
theorem wipRun_body (l : Nat) (cs : Bool) : ∀ (body : List Event),
    (∀ e ∈ body, ∀ c k, e ≠ Event.disable c k) → ∀ st : Bool × Nat,
    ∃ y, wipRun st (body.map (fun e => ⟨e, l, cs⟩)) = some (st.1, y) := by
  intro body
  induction body with
  | nil => intro _ st; exact ⟨st.2, rfl⟩
  | cons e body ih =>
    intro h st
    have hb := ih (fun e he => h e (List.mem_cons_of_mem _ he))
    have he := h e (List.mem_cons_self _ _)
    cases e with
    | disable c k => exact absurd rfl (he c k)
    | rx b =>
      obtain ⟨y, hy⟩ := hb (st.1, b)
      exact ⟨y, by simpa [wipRun, wipStep] using hy⟩
    | _ =>
      obtain ⟨y, hy⟩ := hb st
      exact ⟨y, by simpa [wipRun, wipStep] using hy⟩

theorem wipRun_txn (l m : Nat) (body : List Event) (cmd : List Nat) (n : Nat)
    (h : ∀ e ∈ body, ∀ c k, e ≠ Event.disable c k) (st : Bool × Nat) :
    ∃ y, wipRun st (txn l m body cmd n) = wipStep (st.1, y) ⟨.disable cmd n, m, false⟩ := by
  obtain ⟨y, hy⟩ := wipRun_body m true body h st
  refine ⟨y, ?_⟩
  unfold txn
  rw [wipRun_append, wipRun_append]
  have h1 : ∀ a : Bool × Nat, wipStep a ⟨.splhigh, m, false⟩ = some a := fun _ => rfl
  have h2 : ∀ a : Bool × Nat, wipStep a ⟨.enable, m, true⟩ = some a := fun _ => rfl
  have h3 : ∀ a : Bool × Nat, wipStep a ⟨.splx l, l, false⟩ = some a := fun _ => rfl
  simp only [wipRun, Option.some_bind, Option.bind_eq_bind, hy, h1, h2, h3]
  exact Option.bind_some _

theorem wipRun_reportSteps (l : Nat) (cs : Bool) : ∀ (R : List Report) (st : Bool × Nat),
    wipRun st (reportSteps l cs R) = some st := by
  intro R
  induction R with
  | nil => intro st; rfl
  | cons r R ih =>
    intro st
    have := ih st
    simpa [reportSteps, wipRun, wipStep] using this

theorem wipRun_pollTrace (l m : Nat) (wel : Bool) (sr : Nat) : ∀ (k : Nat) (st : Bool × Nat),
    wipRun st (pollTrace l m wel sr k) = some (true, statusByte 0 wel sr) := by
  intro k
  induction k with
  | zero =>
    intro st
    have h := statusByte_wip 0 wel sr
    simp only [if_true] at h
    have h2 : statusByte 0 wel sr % 2 = 0 := by rw [← Nat.and_one_is_mod]; exact h
    simp [pollTrace, txn, wipRun, wipStep, SPI_FLASH_INS_RDSR, h2]
  | succ k ih =>
    intro st
    rw [pollTrace, wipRun_append, wipRun_append]
    simp only [txn, List.map_cons, List.map_nil, List.cons_append, List.nil_append, wipRun,
      wipStep, List.head?_cons, SPI_FLASH_INS_RDSR, if_true, Option.some_bind,
      Option.bind_eq_bind]
    exact ih _

theorem wipRun_preadTrace (s : State) (offset n : Nat) (st : Bool × Nat) :
    ∃ y, wipRun st (preadTrace s offset n) = some (true, y) := by
  unfold preadTrace
  rw [wipRun_append, wipRun_pollTrace]
  obtain ⟨y, hy⟩ := wipRun_txn s.ipl s.splmax
    ([.tx 3, .tx ((offset >>> 16) % 256), .tx ((offset >>> 8) % 256),
        .tx ((offset >>> 0) % 256), .txEnded, .flush] ++
      (readData s.chip.mem (offset % 2 ^ 24) n).map Event.rx)
    [3, (offset >>> 16) % 256, (offset >>> 8) % 256, (offset >>> 0) % 256] n
    (by
      intro e he c k
      simp only [List.mem_append, List.mem_cons, List.mem_map, List.not_mem_nil,
        or_false] at he
      rcases he with (rfl | rfl | rfl | rfl | rfl | rfl) | ⟨d, _, rfl⟩ <;> simp)
    (true, statusByte 0 s.chip.wel s.chip.sr)
  refine ⟨y, ?_⟩
  simp only [Option.some_bind, Option.bind_eq_bind, hy]
  simp [wipStep, SPI_FLASH_INS_RDSR, SPI_FLASH_INS_PP, SPI_FLASH_INS_SE, SPI_FLASH_INS_READ]

theorem wipRun_canaryReads (T : List Step) (h : CanaryReads T) :
    ∀ x : Nat, ∃ y, wipRun (true, x) T = some (true, y) := by
  induction h with
  | nil => intro x; exact ⟨x, rfl⟩
  | page s p n l R rest _ ih =>
    intro x
    obtain ⟨y, hy⟩ := wipRun_preadTrace s p n (true, x)
    obtain ⟨z, hz⟩ := ih y
    refine ⟨z, ?_⟩
    rw [wipRun_append, wipRun_append, hy]
    simp only [Option.some_bind, Option.bind_eq_bind, wipRun_reportSteps, hz]

theorem wipRun_wren (l m : Nat) (x : Nat) :
    wipRun (true, x) (txn l m [.tx 6] [6] 0) = some (true, x) := by
  simp [txn, wipRun, wipStep, SPI_FLASH_INS_RDSR, SPI_FLASH_INS_PP, SPI_FLASH_INS_SE,
    SPI_FLASH_INS_READ, SPI_FLASH_INS_WREN]

theorem polledIdle_preadTrace (s : State) (offset n : Nat) :
    PolledIdle (preadTrace s offset n) := by
  intro st
  obtain ⟨y, hy⟩ := wipRun_preadTrace s offset n st
  rw [hy]
  rfl

theorem polledIdle_programPageTrace (s : State) (offset : Nat) (buf : List Nat) (p : Nat)
    (nbytes : Int) : PolledIdle (programPageTrace s offset buf p nbytes) := by
  intro st
  obtain ⟨R, hR⟩ := writeCanarySteps_eq (buf.drop p) nbytes offset
  have hc : ∀ st2 : Bool × Nat, wipRun st2 (if s.canary = true then
      writeCanarySteps s (buf.drop p) nbytes offset else []) = some st2 := by
    intro st2
    split
    · rw [hR, wipRun_reportSteps]
    · rfl
  obtain ⟨y, hy⟩ := wipRun_txn s.ipl s.splmax
    ([.tx 2, .tx ((offset >>> 16) % 256), .tx ((offset >>> 8) % 256), .tx (offset % 256)] ++
      (pageData buf p nbytes.toNat).map Event.tx ++ [.txEnded])
    (2 :: (offset >>> 16) % 256 :: (offset >>> 8) % 256 :: offset % 256 ::
      pageData buf p nbytes.toNat) 0
    (by
      intro e he c k
      simp only [List.mem_append, List.mem_cons, List.mem_map, List.mem_singleton,
        List.not_mem_nil, or_false] at he
      rcases he with ((rfl | rfl | rfl | rfl) | ⟨d, _, rfl⟩) | rfl <;> simp)
    (true, statusByte 0 s.chip.wel s.chip.sr)
  unfold programPageTrace
  rw [wipRun_append, wipRun_append, wipRun_append, wipRun_pollTrace]
  simp only [Option.some_bind, Option.bind_eq_bind, hc, wipRun_wren, hy]
  simp [wipStep, SPI_FLASH_INS_RDSR, SPI_FLASH_INS_PP, SPI_FLASH_INS_SE, SPI_FLASH_INS_READ]

theorem polledIdle_eraseSector (l m : Nat) (wel : Bool) (sr k offset : Nat) (Tc : List Step)
    (hTc : CanaryReads Tc) :
    PolledIdle (pollTrace l m wel sr k ++ Tc ++ txn l m [.tx 6] [6] 0 ++
      eraseTxn l m offset) := by
  intro st
  obtain ⟨y, hy⟩ := wipRun_canaryReads Tc hTc (statusByte 0 wel sr)
  obtain ⟨z, hz⟩ := wipRun_txn l m
    [.tx 0xd8, .tx ((offset >>> 16) % 256), .tx ((offset >>> 8) % 256), .tx (offset % 256),
      .txEnded]
    [0xd8, (offset >>> 16) % 256, (offset >>> 8) % 256, offset % 256] 0
    (by
      intro e he c k
      simp only [List.mem_cons, List.not_mem_nil, or_false] at he
      rcases he with rfl | rfl | rfl | rfl | rfl <;> simp)
    (true, y)
  rw [wipRun_append, wipRun_append, wipRun_append, wipRun_pollTrace]
  simp only [Option.some_bind, Option.bind_eq_bind, hy, wipRun_wren]
  unfold eraseTxn
  rw [hz]
  simp [wipStep, SPI_FLASH_INS_RDSR, SPI_FLASH_INS_PP, SPI_FLASH_INS_SE, SPI_FLASH_INS_READ]

/-! ## Runs with and without diagnostics -/

theorem silent_append (A B : List Step) : silent (A ++ B) = silent A ++ silent B := by
  simp [silent]

theorem silent_reportSteps (l : Nat) (cs : Bool) (R : List Report) :
    silent (reportSteps l cs R) = [] := by
  simp [silent, reportSteps, List.filter_eq_nil_iff]

theorem silent_txn (l m : Nat) (body : List Event) (cmd : List Nat) (n : Nat)
    (h : ∀ e ∈ body, ∀ r, e ≠ Event.printf r) : silent (txn l m body cmd n) = txn l m body cmd n := by
  unfold silent
  rw [List.filter_eq_self]
  intro st hst
  simp only [txn, List.mem_append, List.mem_cons, List.mem_map, List.not_mem_nil,
    or_false] at hst
  rcases hst with ((rfl | rfl) | ⟨e, he, rfl⟩) | rfl | rfl
  · rfl
  · rfl
  · cases e <;> first | rfl | exact absurd rfl (h _ he _)
  · rfl
  · rfl

theorem silent_pollTrace (l m : Nat) (wel : Bool) (sr : Nat) : ∀ k,
    silent (pollTrace l m wel sr k) = pollTrace l m wel sr k := by
  intro k
  induction k with
  | zero => simp [pollTrace, silent, txn]
  | succ k ih =>
    rw [pollTrace, silent_append, ih]
    simp [silent, txn]

theorem silent_programPageTrace (a b : State) (h : Twin a b) (offset : Nat) (buf : List Nat)
    (p : Nat) (nbytes : Int) :
    silent (programPageTrace a offset buf p nbytes) = programPageTrace b offset buf p nbytes := by
  obtain ⟨hchip, hipl, hmax, -, -, hcan⟩ := h
  obtain ⟨R, hR⟩ := writeCanarySteps_eq (buf.drop p) nbytes offset
  have hc : silent (if a.canary = true then writeCanarySteps a (buf.drop p) nbytes offset
      else []) = [] := by
    split
    · rw [hR, silent_reportSteps]
    · rfl
  unfold programPageTrace
  rw [silent_append, silent_append, silent_append, silent_pollTrace, hc, silent_txn,
    silent_txn, hcan, ← hchip, ← hipl, ← hmax]
  · simp
  · intro e he r
    simp only [List.mem_append, List.mem_cons, List.mem_map, List.mem_singleton,
      List.not_mem_nil, or_false] at he
    rcases he with ((rfl | rfl | rfl | rfl) | ⟨d, _, rfl⟩) | rfl <;> simp
  · intro e he r
    simp only [List.mem_singleton] at he
    subst he
    simp

theorem program_page_none (fuel : Nat) (offset : Nat) (buf : List Nat) (p : Nat) (nbytes : Int)
    (s : State) (hcs : s.cs = false) (hb : fuel ≤ s.chip.busy) :
    program_page fuel offset buf p nbytes s = none := by
  unfold program_page
  rw [wait_ready_none fuel s hcs hb]
  rfl

theorem twin_after (a b : State) (h : Twin a b) (c : Chip) (T U : List Step) :
    Twin (a.after c T) (b.after c U) :=
  ⟨rfl, h.2.1, h.2.2.1, rfl, rfl, h.2.2.2.2.2⟩

theorem xmem_pwrite_loop_twin (fuel : Nat) (buf : List Nat) (e : Nat) :
    ∀ (n i p : Nat) (a b : State), Twin a b →
      (xmem_pwrite_loop fuel buf e n i p a = none ∧
        xmem_pwrite_loop fuel buf e n i p b = none) ∨
      ∃ r c T, xmem_pwrite_loop fuel buf e n i p a = some (r, a.after c T) ∧
        xmem_pwrite_loop fuel buf e n i p b = some (r, b.after c (silent T)) := by
  intro n
  induction n with
  | zero =>
    intro i p a b h
    by_cases hi : i < e
    · exact Or.inl ⟨by simp [xmem_pwrite_loop, hi], by simp [xmem_pwrite_loop, hi]⟩
    · refine Or.inr ⟨p, a.chip, [], ?_, ?_⟩
      · simp [xmem_pwrite_loop, hi, after_self a h.2.2.2.1]
      · have : b.after a.chip (silent []) = b := by
          rw [h.1]
          exact after_self b h.2.2.2.2.1
        simp [xmem_pwrite_loop, hi, this]
  | succ n ih =>
    intro i p a b h
    by_cases hi : i < e
    · by_cases hb : a.chip.busy < fuel
      · have hb2 : b.chip.busy < fuel := by rw [← h.1]; exact hb
        have ha := program_page_eq fuel i buf p
          (toCInt (toULong ((next_page i e : Int) - i))) a h.2.2.2.1 hb
        have hbb := program_page_eq fuel i buf p
          (toCInt (toULong ((next_page i e : Int) - i))) b h.2.2.2.2.1 hb2
        rw [← silent_programPageTrace a b h, ← h.1] at hbb
        rcases ih (next_page i e) (p + (toCInt (toULong ((next_page i e : Int) - i))).toNat)
          _ _ (twin_after a b h (programPageChip a.chip (i % 2 ^ 24)
            (pageData buf p (toCInt (toULong ((next_page i e : Int) - i))).toNat))
            (programPageTrace a i buf p (toCInt (toULong ((next_page i e : Int) - i))))
            (silent (programPageTrace a i buf p
              (toCInt (toULong ((next_page i e : Int) - i)))))) with ⟨h1, h2⟩ | ⟨r, c, T, h1, h2⟩
        · left
          constructor
          · rw [xmem_pwrite_loop, if_pos hi]
            simp only [Option.bind_eq_bind, ha, Option.some_bind, h1]
          · rw [xmem_pwrite_loop, if_pos hi]
            simp only [Option.bind_eq_bind, hbb, Option.some_bind, h2]
        · right
          refine ⟨r, c, programPageTrace a i buf p
            (toCInt (toULong ((next_page i e : Int) - i))) ++ T, ?_, ?_⟩
          · rw [xmem_pwrite_loop, if_pos hi]
            simp only [Option.bind_eq_bind, ha, Option.some_bind, h1, after_after]
          · rw [xmem_pwrite_loop, if_pos hi]
            simp only [Option.bind_eq_bind, hbb, Option.some_bind, h2, after_after,
              silent_append]
      · left
        have hb2 : fuel ≤ b.chip.busy := by rw [← h.1]; omega
        constructor
        · rw [xmem_pwrite_loop, if_pos hi]
          simp only [Option.bind_eq_bind,
            program_page_none fuel i buf p _ a h.2.2.2.1 (by omega), Option.none_bind]
        · rw [xmem_pwrite_loop, if_pos hi]
          simp only [Option.bind_eq_bind,
            program_page_none fuel i buf p _ b h.2.2.2.2.1 hb2, Option.none_bind]
    · refine Or.inr ⟨p, a.chip, [], ?_, ?_⟩
      · simp [xmem_pwrite_loop, hi, after_self a h.2.2.2.1]
      · have : b.after a.chip (silent []) = b := by
          rw [h.1]
          exact after_self b h.2.2.2.2.1
        simp [xmem_pwrite_loop, hi, this]

theorem xmem_pwrite_twin (fuel : Nat) (buf : List Nat) (size : Int) (addr : Nat) (a b : State)
    (h : Twin a b) :
    (xmem_pwrite fuel buf size addr a = none ∧ xmem_pwrite fuel buf size addr b = none) ∨
    ∃ c T, xmem_pwrite fuel buf size addr a = some (size, a.after c T) ∧
      xmem_pwrite fuel buf size addr b = some (size, b.after c (silent T)) := by
  rcases xmem_pwrite_loop_twin fuel buf (toULong ((addr : Int) + size)) fuel addr 0 a b h with
    ⟨h1, h2⟩ | ⟨r, c, T, h1, h2⟩
  · left
    simp [xmem_pwrite, h1, h2]
  · right
    exact ⟨c, T, by simp [xmem_pwrite, h1], by simp [xmem_pwrite, h2]⟩
theorem mutating_append (A B : List Step) : mutating (A ++ B) = mutating A ++ mutating B := by
  simp [mutating, commands_append]

theorem mutating_readOnly (T : List Step) (h : ReadOnly T) : mutating T = [] := by
  simp only [mutating, List.filter_eq_nil_iff, decide_eq_true_eq, not_and_or, not_not]
  exact fun c hc => h c hc

theorem mutating_eraseSector (l m : Nat) (wel : Bool) (sr k offset : Nat) (Tc : List Step)
    (hro : ReadOnly Tc) :
    mutating (pollTrace l m wel sr k ++ Tc ++ txn l m [.tx 6] [6] 0 ++ eraseTxn l m offset) =
      [([6], 0), ([0xd8, (offset >>> 16) % 256, (offset >>> 8) % 256, offset % 256], 0)] := by
  rw [mutating_append, mutating_append, mutating_append,
    mutating_readOnly _ (readOnly_pollTrace l m wel sr k), mutating_readOnly Tc hro]
  simp only [mutating, commands_wren, commands_eraseTxn]
  simp [SPI_FLASH_INS_RDSR, SPI_FLASH_INS_READ]

theorem check_erase_canary_loop_done (fuel offset e : Nat) (n p : Nat) (b : List Nat)
    (s : State) (h : ¬ p < e) : check_erase_canary_loop fuel offset e n p b s = some s := by
  cases n <;> simp [check_erase_canary_loop, h]

theorem erase_sector_off_eq (fuel offset : Nat) (s : State) (hcs : s.cs = false)
    (hb : s.chip.busy < fuel) (hc : s.canary = false) :
    erase_sector fuel offset s =
      some (s.after (eraseSectorChip s.chip (offset % 2 ^ 24))
        (pollTrace s.ipl s.splmax s.chip.wel s.chip.sr s.chip.busy ++ [] ++
          txn s.ipl s.splmax [.tx 6] [6] 0 ++ eraseTxn s.ipl s.splmax offset)) := by
  have h24 := shift_bytes offset
  simp only [Nat.shiftRight_zero] at h24
  unfold erase_sector
  rw [wait_ready_eq fuel s hcs hb]
  simp only [Option.bind_eq_bind, Option.some_bind, after_canary, hc, if_false,
    Option.pure_def, Bool.false_eq_true]
  rw [write_enable_eq _ (by rfl)]
  simp [splhigh, SPI_FLASH_ENABLE, SPI_WRITE_FAST, SPI_WRITE, State.emit, Chip.select, Chip.tx,
    SPI_FLASH_DISABLE, splx, Chip.deselect, State.after, Chip.idle, txn, eraseTxn,
    eraseSectorChip, h24, SPI_FLASH_INS_WREN, SPI_FLASH_INS_PP, SPI_FLASH_INS_SE,
    SPI_WAITFORTx_ENDED]

theorem erase_sector_total (fuel offset : Nat) (s : State) (hcs : s.cs = false)
    (hb : s.chip.busy < fuel) (h256 : 256 ≤ fuel) (hoff : offset < 2 ^ 32) :
    ∃ Tc, ReadOnly Tc ∧
      erase_sector fuel offset s =
        some (s.after (eraseSectorChip s.chip (offset % 2 ^ 24))
          (pollTrace s.ipl s.splmax s.chip.wel s.chip.sr s.chip.busy ++ Tc ++
            txn s.ipl s.splmax [.tx 6] [6] 0 ++ eraseTxn s.ipl s.splmax offset)) := by
  by_cases hw : offset + 65536 < 2 ^ 32
  · obtain ⟨Tc, hro, -, hrun⟩ := erase_sector_spec fuel offset s hcs hb h256 hw
    exact ⟨Tc, hro, hrun⟩
  · refine ⟨[], readOnly_nil, ?_⟩
    by_cases hc : s.canary = true
    · have h24 := shift_bytes offset
      simp only [Nat.shiftRight_zero] at h24
      have he : ¬ offset < (offset + SECTOR_SIZE) % 2 ^ LONG_BITS := by
        simp only [SECTOR_SIZE, LONG_BITS]
        omega
      unfold erase_sector
      rw [wait_ready_eq fuel s hcs hb]
      simp only [Option.bind_eq_bind, Option.some_bind, after_canary, hc, if_true]
      rw [check_erase_canary, check_erase_canary_loop_done _ _ _ _ _ _ _ he]
      simp only [Option.some_bind, Option.pure_def]
      rw [write_enable_eq _ (by rfl)]
      simp [splhigh, SPI_FLASH_ENABLE, SPI_WRITE_FAST, SPI_WRITE, State.emit, Chip.select,
        Chip.tx, SPI_FLASH_DISABLE, splx, Chip.deselect, State.after, Chip.idle, txn, eraseTxn,
        eraseSectorChip, h24, SPI_FLASH_INS_WREN, SPI_FLASH_INS_PP, SPI_FLASH_INS_SE,
        SPI_WAITFORTx_ENDED]
    · exact erase_sector_off_eq fuel offset s hcs hb (by simpa using hc)

theorem xmem_erase_loop_twin (fuel e : Nat) :
    ∀ (n addr : Nat) (a b : State) (a2 : State), Twin a b →
      xmem_erase_loop fuel e n addr a = some a2 →
      ∃ c T U, a2 = a.after c T ∧ xmem_erase_loop fuel e n addr b = some (b.after c U) ∧
        mutating T = mutating U := by
  intro n
  induction n with
  | zero =>
    intro addr a b a2 h hrun
    rw [xmem_erase_loop] at hrun
    split at hrun
    · exact Option.noConfusion hrun
    · rename_i hi
      refine ⟨a.chip, [], [], ?_, ?_, rfl⟩
      · rw [after_self a h.2.2.2.1, ← Option.some.inj hrun]
      · rw [h.1, after_self b h.2.2.2.2.1]
        simp [xmem_erase_loop, hi]
  | succ n ih =>
    intro addr a b a2 h hrun
    rw [xmem_erase_loop] at hrun
    split at hrun
    · rename_i hi
      cases he : erase_sector fuel addr a with
      | none =>
        simp only [Option.bind_eq_bind, he] at hrun
        exact Option.noConfusion hrun
      | some a1 =>
        have hb := erase_sector_some_busy fuel addr a a1 h.2.2.2.1 he
        obtain ⟨Tc, hTc, -, ha1⟩ := erase_sector_some fuel addr a a1 h.2.2.2.1 he
        have hbb := erase_sector_off_eq fuel addr b h.2.2.2.2.1 (by rw [← h.1]; exact hb)
          h.2.2.2.2.2
        simp only [Option.bind_eq_bind, he, Option.some_bind] at hrun
        rw [ha1] at hrun
        rw [← h.1, ← h.2.1, ← h.2.2.1] at hbb
        obtain ⟨c, T, U, ha2, hb2, hm⟩ := ih _ _ _ a2
          (twin_after a b h (eraseSectorChip a.chip (addr % 2 ^ 24))
            (pollTrace a.ipl a.splmax a.chip.wel a.chip.sr a.chip.busy ++ Tc ++
              txn a.ipl a.splmax [.tx 6] [6] 0 ++ eraseTxn a.ipl a.splmax addr)
            (pollTrace a.ipl a.splmax a.chip.wel a.chip.sr a.chip.busy ++ [] ++
              txn a.ipl a.splmax [.tx 6] [6] 0 ++ eraseTxn a.ipl a.splmax addr)) hrun
        refine ⟨c, (pollTrace a.ipl a.splmax a.chip.wel a.chip.sr a.chip.busy ++ Tc ++
            txn a.ipl a.splmax [.tx 6] [6] 0 ++ eraseTxn a.ipl a.splmax addr) ++ T,
          (pollTrace a.ipl a.splmax a.chip.wel a.chip.sr a.chip.busy ++ [] ++
            txn a.ipl a.splmax [.tx 6] [6] 0 ++ eraseTxn a.ipl a.splmax addr) ++ U, ?_, ?_, ?_⟩
        · rw [ha2, after_after]
        · rw [xmem_erase_loop, if_pos hi]
          simp only [Option.bind_eq_bind, hbb, Option.some_bind, hb2, after_after]
        · rw [mutating_append _ T, mutating_append _ U, hm,
            mutating_eraseSector _ _ _ _ _ _ Tc (canaryReads_readOnly Tc hTc),
            mutating_eraseSector _ _ _ _ _ _ [] readOnly_nil]
    · rename_i hi
      refine ⟨a.chip, [], [], ?_, ?_, rfl⟩
      · rw [after_self a h.2.2.2.1, ← Option.some.inj hrun]
      · rw [h.1, after_self b h.2.2.2.2.1]
        simp [xmem_erase_loop, hi]

theorem xmem_erase_loop_twin_on (fuel e : Nat) (h256 : 256 ≤ fuel) (he32 : e ≤ 2 ^ 32) :
    ∀ (n addr : Nat) (a b : State) (b2 : State), Twin a b →
      xmem_erase_loop fuel e n addr b = some b2 →
      ∃ c T U, b2 = b.after c U ∧ xmem_erase_loop fuel e n addr a = some (a.after c T) ∧
        mutating T = mutating U := by
  intro n
  induction n with
  | zero =>
    intro addr a b b2 h hrun
    rw [xmem_erase_loop] at hrun
    split at hrun
    · exact Option.noConfusion hrun
    · rename_i hi
      refine ⟨a.chip, [], [], ?_, ?_, rfl⟩
      · rw [h.1, after_self b h.2.2.2.2.1, ← Option.some.inj hrun]
      · rw [after_self a h.2.2.2.1]
        simp [xmem_erase_loop, hi]
  | succ n ih =>
    intro addr a b b2 h hrun
    rw [xmem_erase_loop] at hrun
    split at hrun
    · rename_i hi
      cases he : erase_sector fuel addr b with
      | none =>
        simp only [Option.bind_eq_bind, he] at hrun
        exact Option.noConfusion hrun
      | some b1 =>
        have hb := erase_sector_some_busy fuel addr b b1 h.2.2.2.2.1 he
        have hbb := erase_sector_off_eq fuel addr b h.2.2.2.2.1 hb h.2.2.2.2.2
        obtain ⟨Tc, hTc, haa⟩ := erase_sector_total fuel addr a h.2.2.2.1
          (by rw [h.1]; exact hb) h256 (by omega)
        rw [hbb] at he
        simp only [Option.bind_eq_bind, hbb, Option.some_bind] at hrun
        rw [← h.1, ← h.2.1, ← h.2.2.1] at hrun
        obtain ⟨c, T, U, hb2, ha2, hm⟩ := ih _ _ _ b2
          (twin_after a b h (eraseSectorChip a.chip (addr % 2 ^ 24))
            (pollTrace a.ipl a.splmax a.chip.wel a.chip.sr a.chip.busy ++ Tc ++
              txn a.ipl a.splmax [.tx 6] [6] 0 ++ eraseTxn a.ipl a.splmax addr)
            (pollTrace a.ipl a.splmax a.chip.wel a.chip.sr a.chip.busy ++ [] ++
              txn a.ipl a.splmax [.tx 6] [6] 0 ++ eraseTxn a.ipl a.splmax addr)) hrun
        refine ⟨c, (pollTrace a.ipl a.splmax a.chip.wel a.chip.sr a.chip.busy ++ Tc ++
            txn a.ipl a.splmax [.tx 6] [6] 0 ++ eraseTxn a.ipl a.splmax addr) ++ T,
          (pollTrace a.ipl a.splmax a.chip.wel a.chip.sr a.chip.busy ++ [] ++
            txn a.ipl a.splmax [.tx 6] [6] 0 ++ eraseTxn a.ipl a.splmax addr) ++ U, ?_, ?_, ?_⟩
        · rw [hb2, after_after]
        · rw [xmem_erase_loop, if_pos hi]
          simp only [Option.bind_eq_bind, haa, Option.some_bind, ha2, after_after]
        · rw [mutating_append _ T, mutating_append _ U, hm,
            mutating_eraseSector _ _ _ _ _ _ Tc hTc,
            mutating_eraseSector _ _ _ _ _ _ [] readOnly_nil]
    · rename_i hi
      refine ⟨a.chip, [], [], ?_, ?_, rfl⟩
      · rw [h.1, after_self b h.2.2.2.2.1, ← Option.some.inj hrun]
      · rw [after_self a h.2.2.2.1]
        simp [xmem_erase_loop, hi]

theorem commands_silent (T : List Step) : commands (silent T) = commands T := by
  induction T with
  | nil => rfl
  | cons x T ih =>
    obtain ⟨ev, l, cs⟩ := x
    cases ev <;> simp_all [silent, commands, List.filter_cons]

theorem newSteps_self (s : State) : newSteps s s = [] := by
  simp [newSteps]

theorem xmem_erase_twin (fuel : Nat) (size : Int) (addr : Nat) (a b : State) (h : Twin a b)
    (r : Int) (a2 : State) (hrun : xmem_erase fuel size addr a = some (r, a2)) :
    ∃ b2, xmem_erase fuel size addr b = some (r, b2) ∧ b2.chip = a2.chip ∧
      mutating (newSteps a a2) = mutating (newSteps b b2) := by
  unfold xmem_erase at hrun ⊢
  simp only at hrun ⊢
  split at hrun
  · rename_i h1
    obtain ⟨rfl, rfl⟩ := Prod.mk.inj (Option.some.inj hrun)
    exact ⟨b, by rw [if_pos h1], h.1.symm, by rw [newSteps_self, newSteps_self]⟩
  · rename_i h1
    split at hrun
    · rename_i h2
      obtain ⟨rfl, rfl⟩ := Prod.mk.inj (Option.some.inj hrun)
      exact ⟨b, by rw [if_neg h1, if_pos h2], h.1.symm, by rw [newSteps_self, newSteps_self]⟩
    · rename_i h2
      cases hl : xmem_erase_loop fuel (toULong ((addr : Int) + size)) fuel addr a with
      | none =>
        simp only [Option.bind_eq_bind, hl] at hrun
        exact Option.noConfusion hrun
      | some a1 =>
        simp only [Option.bind_eq_bind, hl, Option.some_bind, Option.pure_def,
          Option.some.injEq, Prod.mk.injEq] at hrun
        obtain ⟨c, T, U, ha1, hb1, hm⟩ := xmem_erase_loop_twin fuel _ _ _ a b a1 h hl
        refine ⟨b.after c U, ?_, ?_, ?_⟩
        · rw [if_neg h1, if_neg h2]
          simp only [Option.bind_eq_bind, hb1, Option.some_bind, Option.pure_def, hrun.1]
        · rw [← hrun.2, ha1]
          rfl
        · rw [← hrun.2, ha1, newSteps_after, newSteps_after, hm]

theorem toULong_lt (x : Int) : toULong x < 2 ^ 32 := by
  unfold toULong
  simp only [LONG_BITS]
  omega

theorem xmem_erase_twin_on (fuel : Nat) (h256 : 256 ≤ fuel) (size : Int) (addr : Nat)
    (a b : State) (h : Twin a b)
    (r : Int) (b2 : State) (hrun : xmem_erase fuel size addr b = some (r, b2)) :
    ∃ a2, xmem_erase fuel size addr a = some (r, a2) ∧ b2.chip = a2.chip ∧
      mutating (newSteps a a2) = mutating (newSteps b b2) := by
  unfold xmem_erase at hrun ⊢
  simp only at hrun ⊢
  split at hrun
  · rename_i h1
    obtain ⟨rfl, rfl⟩ := Prod.mk.inj (Option.some.inj hrun)
    exact ⟨a, by rw [if_pos h1], h.1.symm, by rw [newSteps_self, newSteps_self]⟩
  · rename_i h1
    split at hrun
    · rename_i h2
      obtain ⟨rfl, rfl⟩ := Prod.mk.inj (Option.some.inj hrun)
      exact ⟨a, by rw [if_neg h1, if_pos h2], h.1.symm, by rw [newSteps_self, newSteps_self]⟩
    · rename_i h2
      cases hl : xmem_erase_loop fuel (toULong ((addr : Int) + size)) fuel addr b with
      | none =>
        simp only [Option.bind_eq_bind, hl] at hrun
        exact Option.noConfusion hrun
      | some b1 =>
        simp only [Option.bind_eq_bind, hl, Option.some_bind, Option.pure_def,
          Option.some.injEq, Prod.mk.injEq] at hrun
        obtain ⟨c, T, U, hb1, ha1, hm⟩ := xmem_erase_loop_twin_on fuel _ h256
          (Nat.le_of_lt (toULong_lt _)) _ _ a b b1 h hl
        refine ⟨a.after c T, ?_, ?_, ?_⟩
        · rw [if_neg h1, if_neg h2]
          simp only [Option.bind_eq_bind, ha1, Option.some_bind, Option.pure_def, hrun.1]
        · rw [← hrun.2, hb1]
          rfl
        · rw [← hrun.2, hb1, newSteps_after, newSteps_after, hm]

theorem twin_on_off (s : State) (hcs : s.cs = false) :
    Twin { s with canary := true } { s with canary := false } :=
  ⟨rfl, rfl, rfl, hcs, hcs, rfl⟩

/-! ## The read-back before a sector erase -/

theorem check_erase_canary_scan_eq (b : List Nat) (p offset : Nat) : ∀ (n i : Nat) (s : State),
    check_erase_canary_scan b p offset n i s =
      { s with trace := s.trace ++ reportSteps s.ipl s.cs (scanReports b p offset n i) } := by
  intro n
  induction n with
  | zero => intro i s; simp [check_erase_canary_scan, scanReports, reportSteps]
  | succ n ih =>
    intro i s
    by_cases h1 : memcmp4 b i CANARY1 = true
    · simp [check_erase_canary_scan, scanReports, h1, ih, printf, State.emit, reportSteps]
    by_cases h2 : memcmp4 b i CANARY2 = true
    · simp [check_erase_canary_scan, scanReports, h1, h2, ih, printf, State.emit, reportSteps]
    by_cases h3 : memcmp4 b i CANARY3 = true
    · simp [check_erase_canary_scan, scanReports, h1, h2, h3, ih, printf, State.emit,
        reportSteps]
    · simp [check_erase_canary_scan, scanReports, h1, h2, h3, ih, printf, State.emit,
        reportSteps]

theorem memcmp4_window (b : List Nat) (i : Nat) (c : List Nat) :
    memcmp4 b i c = true ↔
      [b.getD i 0, b.getD (i + 1) 0, b.getD (i + 2) 0, b.getD (i + 3) 0] = c := by
  simp [memcmp4, List.range_succ_eq_map]

/-- A marker found at index `k` of the scanned range is reported. -/
theorem scanReports_complete (b : List Nat) (p offset : Nat) (m : Nat) (c : List Nat)
    (hm : (m, c) ∈ [(1, CANARY1), (2, CANARY2), (3, CANARY3)]) :
    ∀ (n i k : Nat), i ≤ k → k < i + n → memcmp4 b k c = true →
      Report.canaryE m p offset ∈ scanReports b p offset n i := by
  intro n
  induction n with
  | zero => intro i k h1 h2; omega
  | succ n ih =>
    intro i k h1 h2 hw
    rw [scanReports, List.mem_append]
    by_cases hik : i = k
    · subst hik
      left
      rw [memcmp4_window] at hw
      simp only [List.mem_cons, Prod.mk.injEq, List.mem_singleton, List.not_mem_nil,
        or_false] at hm
      rcases hm with ⟨rfl, rfl⟩ | ⟨rfl, rfl⟩ | ⟨rfl, rfl⟩
      · have h1 : memcmp4 b i CANARY1 = true := (memcmp4_window b i _).2 hw
        simp [h1]
      · have h1 : ¬ memcmp4 b i CANARY1 = true := by
          rw [memcmp4_window, hw]; decide
        have h2 : memcmp4 b i CANARY2 = true := (memcmp4_window b i _).2 hw
        simp [h1, h2]
      · have h1 : ¬ memcmp4 b i CANARY1 = true := by
          rw [memcmp4_window, hw]; decide
        have h2 : ¬ memcmp4 b i CANARY2 = true := by
          rw [memcmp4_window, hw]; decide
        have h3 : memcmp4 b i CANARY3 = true := (memcmp4_window b i _).2 hw
        simp [h1, h2, h3]
    · right
      exact ih (i + 1) k (by omega) (by omega) hw

/-- A line of the scan comes from an index of the scanned range whose byte is
the first byte of a marker. -/
theorem scanReports_sound (b : List Nat) (p offset : Nat) :
    ∀ (n i : Nat) (r : Report), r ∈ scanReports b p offset n i →
      ∃ k, i ≤ k ∧ k < i + n ∧
        (b.getD k 0 = 0xe7 ∨ b.getD k 0 = 0xca ∨ b.getD k 0 = 0xde) := by
  intro n
  induction n with
  | zero => intro i r h; simp [scanReports] at h
  | succ n ih =>
    intro i r h
    rw [scanReports, List.mem_append] at h
    rcases h with h | h
    · refine ⟨i, le_refl _, by omega, ?_⟩
      by_cases h1 : memcmp4 b i CANARY1 = true
      · rw [memcmp4_window] at h1
        left
        exact (List.cons.inj h1).1
      by_cases h2 : memcmp4 b i CANARY2 = true
      · rw [memcmp4_window] at h2
        right; left
        exact (List.cons.inj h2).1
      by_cases h3 : memcmp4 b i CANARY3 = true
      · rw [memcmp4_window] at h3
        right; right
        exact (List.cons.inj h3).1
      · simp [h1, h2, h3] at h
    · obtain ⟨k, hk1, hk2, hk3⟩ := ih (i + 1) r h
      exact ⟨k, by omega, by omega, hk3⟩
theorem storeFrom_length : ∀ (vals b : List Nat) (p : Nat),
    (storeFrom b p vals).length = b.length := by
  intro vals
  induction vals with
  | nil => intro b p; rfl
  | cons v vs ih => intro b p; rw [storeFrom, ih, List.length_set]

theorem pageBuf_length (mem : Nat → Nat) (p : Nat) (b : List Nat) :
    (pageBuf mem p b).length = b.length :=
  storeFrom_length _ _ _

theorem pageBuf_getD (mem : Nat → Nat) (p : Nat) (b : List Nat) (hb : b.length = 256)
    (i : Nat) (hi : i < 256) : (pageBuf mem p b).getD i 0 = logical mem (p + i) := by
  rw [List.getD_eq_getElem?_getD, pageBuf, storeFrom_getElem?,
    if_pos ⟨Nat.zero_le _, by simp [readData_length]; omega, by omega⟩]
  simp only [Nat.sub_zero, readData, List.map_map, List.getElem?_map,
    List.getElem?_range hi, Option.map_some', Option.getD_some, Function.comp_apply, logical,
    Nat.mod_add_mod]

theorem eraseCanaryTrace_after (s : State) (U : List Step) (offset : Nat) :
    ∀ (k p : Nat) (b : List Nat),
      eraseCanaryTrace (s.after s.chip U) offset k p b = eraseCanaryTrace s offset k p b := by
  intro k
  induction k with
  | zero => intro p b; rfl
  | succ k ih =>
    intro p b
    rw [eraseCanaryTrace, eraseCanaryTrace, ih]
    rfl

theorem check_erase_canary_loop_eq (fuel offset e : Nat) (hfuel : 0 < fuel)
    (he : e < 2 ^ 32) : ∀ (k n p : Nat) (b : List Nat) (s : State),
      s.cs = false → s.chip.busy = 0 → s.chip.cmd = [] → s.chip.nout = 0 →
      e = p + 256 * k → k ≤ n →
      check_erase_canary_loop fuel offset e n p b s =
        some (s.after s.chip (eraseCanaryTrace s offset k p b)) := by
  intro k
  induction k with
  | zero =>
    intro n p b s hcs _ _ _ hpe _
    rw [check_erase_canary_loop_done _ _ _ _ _ _ _ (by omega)]
    simp [eraseCanaryTrace, after_self s hcs]
  | succ k ih =>
    intro n p b s hcs hb hc hn hpe hkn
    obtain ⟨n, rfl⟩ : ∃ n2, n = n2 + 1 := ⟨n - 1, by omega⟩
    have hlt : p < e := by omega
    have hp : (p + PAGE_SIZE) % 2 ^ LONG_BITS = p + 256 := by
      simp only [PAGE_SIZE, LONG_BITS]
      omega
    have h256 : ((PAGE_SIZE : Int)).toNat = 256 := rfl
    have hrec := ih n (p + 256) (pageBuf s.chip.mem p b)
      (s.after s.chip (preadTrace s p 256 ++
        reportSteps s.ipl false (scanReports (pageBuf s.chip.mem p b) p offset 252 0)))
      rfl hb hc hn (by omega) (by omega)
    rw [eraseCanaryTrace_after, after_after, after_chip] at hrec
    rw [check_erase_canary_loop, if_pos hlt]
    simp only [Option.bind_eq_bind]
    rw [xmem_pread_eq fuel b PAGE_SIZE p s hcs (by omega), chip_ready_eq s.chip hb hc hn]
    simp only [Option.some_bind, ne_eq, not_true_eq_false, if_false, hp,
      check_erase_canary_scan_eq, h256]
    have hst : ∀ (U : List Step) (R : List Report), ({ (s.after s.chip U) with
        trace := (s.after s.chip U).trace ++
          reportSteps (s.after s.chip U).ipl (s.after s.chip U).cs R } : State) =
        s.after s.chip (U ++ reportSteps s.ipl false R) := by
      intro U R
      simp [State.after]
    have h252 : PAGE_SIZE - 4 = 252 := rfl
    rw [hst, h252]
    rw [eraseCanaryTrace, List.append_assoc] at *
    exact hrec

theorem erase_sector_canary_eq (fuel offset : Nat) (s : State) (hcs : s.cs = false)
    (hb : s.chip.busy < fuel) (h256 : 256 ≤ fuel) (hoff : offset + 65536 < 2 ^ 32)
    (hc : s.canary = true) :
    erase_sector fuel offset s =
      some (s.after (eraseSectorChip s.chip (offset % 2 ^ 24))
        (pollTrace s.ipl s.splmax s.chip.wel s.chip.sr s.chip.busy ++
          eraseCanaryTrace (s.after { s.chip.idle with busy := 0 } []) offset 256 offset
            (List.replicate PAGE_SIZE 0) ++
          txn s.ipl s.splmax [.tx 6] [6] 0 ++ eraseTxn s.ipl s.splmax offset)) := by
  have h24 := shift_bytes offset
  simp only [Nat.shiftRight_zero] at h24
  have he : (offset + SECTOR_SIZE) % 2 ^ LONG_BITS = offset + 65536 := by
    simp only [SECTOR_SIZE, LONG_BITS]
    omega
  have hT := check_erase_canary_loop_eq fuel offset (offset + 65536) (by omega) hoff 256 fuel
    offset (List.replicate PAGE_SIZE 0)
    (s.after { s.chip.idle with busy := 0 }
      (pollTrace s.ipl s.splmax s.chip.wel s.chip.sr s.chip.busy))
    rfl rfl rfl rfl (by omega) h256
  have hcongr : eraseCanaryTrace (s.after { s.chip.idle with busy := 0 }
      (pollTrace s.ipl s.splmax s.chip.wel s.chip.sr s.chip.busy)) offset 256 offset
        (List.replicate PAGE_SIZE 0) =
      eraseCanaryTrace (s.after { s.chip.idle with busy := 0 } []) offset 256 offset
        (List.replicate PAGE_SIZE 0) := by
    have := eraseCanaryTrace_after (s.after { s.chip.idle with busy := 0 } [])
      (pollTrace s.ipl s.splmax s.chip.wel s.chip.sr s.chip.busy) offset 256 offset
      (List.replicate PAGE_SIZE 0)
    rw [← this]
    simp [State.after]
  rw [hcongr] at hT
  unfold erase_sector
  rw [wait_ready_eq fuel s hcs hb]
  simp only [Option.bind_eq_bind, Option.some_bind, after_canary, hc, if_true]
  rw [check_erase_canary, he, hT, after_after, after_chip]
  simp only [Option.some_bind, Option.pure_def]
  rw [write_enable_eq _ (by rfl)]
  simp [splhigh, SPI_FLASH_ENABLE, SPI_WRITE_FAST, SPI_WRITE, State.emit, Chip.select, Chip.tx,
    SPI_FLASH_DISABLE, splx, Chip.deselect, State.after, Chip.idle, txn, eraseTxn,
    eraseSectorChip, h24, SPI_FLASH_INS_WREN, SPI_FLASH_INS_PP, SPI_FLASH_INS_SE,
    SPI_WAITFORTx_ENDED]

theorem reports_append (A B : List Step) : reports (A ++ B) = reports A ++ reports B := by
  simp [reports]

theorem reports_reportSteps (l : Nat) (cs : Bool) (R : List Report) :
    reports (reportSteps l cs R) = R := by
  induction R with
  | nil => rfl
  | cons r R ih =>
    simp only [reportSteps, List.map_cons] at ih ⊢
    simp only [reports, List.filterMap_cons] at ih ⊢
    rw [ih]

theorem reports_silent (T : List Step) (h : silent T = T) : reports T = [] := by
  rw [← h]
  simp only [reports, silent, List.filterMap_eq_nil_iff, List.mem_filter]
  intro st hst
  obtain ⟨ev, l, cs⟩ := st
  cases ev <;> simp_all

theorem silent_preadTrace (s : State) (offset n : Nat) :
    silent (preadTrace s offset n) = preadTrace s offset n := by
  unfold preadTrace
  rw [silent_append, silent_pollTrace, silent_txn]
  intro e he r
  simp only [List.mem_append, List.mem_cons, List.mem_map, List.not_mem_nil, or_false] at he
  rcases he with (rfl | rfl | rfl | rfl | rfl | rfl) | ⟨d, _, rfl⟩ <;> simp

theorem silent_eraseTxn (l m offset : Nat) : silent (eraseTxn l m offset) = eraseTxn l m offset := by
  unfold eraseTxn
  rw [silent_txn]
  intro e he r
  simp only [List.mem_cons, List.not_mem_nil, or_false] at he
  rcases he with rfl | rfl | rfl | rfl | rfl <;> simp

theorem silent_wren (l m : Nat) :
    silent (txn l m [.tx 6] [6] 0) = txn l m [.tx 6] [6] 0 := by
  rw [silent_txn]
  intro e he r
  simp only [List.mem_singleton] at he
  subst he
  simp

theorem reports_eraseSector (l m : Nat) (wel : Bool) (sr k offset : Nat) (Tc : List Step) :
    reports (pollTrace l m wel sr k ++ Tc ++ txn l m [.tx 6] [6] 0 ++ eraseTxn l m offset) =
      reports Tc := by
  rw [reports_append, reports_append, reports_append,
    reports_silent _ (silent_pollTrace l m wel sr k), reports_silent _ (silent_wren l m),
    reports_silent _ (silent_eraseTxn l m offset)]
  simp

theorem reports_eraseCanaryTrace_succ (s : State) (offset k p : Nat) (b : List Nat) :
    reports (eraseCanaryTrace s offset (k + 1) p b) =
      scanReports (pageBuf s.chip.mem p b) p offset 252 0 ++
        reports (eraseCanaryTrace s offset k (p + 256) (pageBuf s.chip.mem p b)) := by
  rw [eraseCanaryTrace, reports_append, reports_append,
    reports_silent _ (silent_preadTrace s p 256), reports_reportSteps, List.nil_append]

theorem reports_eraseCanaryTrace_sound (s : State) (offset : Nat) :
    ∀ (k p : Nat) (b : List Nat) (r : Report), b.length = 256 →
      r ∈ reports (eraseCanaryTrace s offset k p b) →
      ∃ j i, j < k ∧ i < 252 ∧
        (logical s.chip.mem (p + 256 * j + i) = 0xe7 ∨
          logical s.chip.mem (p + 256 * j + i) = 0xca ∨
          logical s.chip.mem (p + 256 * j + i) = 0xde) := by
  intro k
  induction k with
  | zero => intro p b r _ h; simp [eraseCanaryTrace, reports] at h
  | succ k ih =>
    intro p b r hb h
    rw [reports_eraseCanaryTrace_succ, List.mem_append] at h
    rcases h with h | h
    · obtain ⟨i, -, hi, hbyte⟩ := scanReports_sound _ _ _ _ _ r h
      rw [pageBuf_getD _ _ _ hb i (by omega)] at hbyte
      exact ⟨0, i, by omega, by omega, hbyte⟩
    · obtain ⟨j, i, hj, hi, hbyte⟩ := ih (p + 256) _ r
        (by rw [pageBuf_length]; exact hb) h
      have hidx : p + 256 + 256 * j + i = p + 256 * (j + 1) + i := by omega
      rw [hidx] at hbyte
      exact ⟨j + 1, i, by omega, hi, hbyte⟩

theorem reports_eraseCanaryTrace_complete (s : State) (offset : Nat) (m : Nat) (c : List Nat)
    (hm : (m, c) ∈ [(1, CANARY1), (2, CANARY2), (3, CANARY3)]) :
    ∀ (k p : Nat) (b : List Nat) (j i : Nat), b.length = 256 → j < k → i < 252 →
      [logical s.chip.mem (p + 256 * j + i), logical s.chip.mem (p + 256 * j + i + 1),
        logical s.chip.mem (p + 256 * j + i + 2), logical s.chip.mem (p + 256 * j + i + 3)]
        = c →
      Report.canaryE m (p + 256 * j) offset ∈ reports (eraseCanaryTrace s offset k p b) := by
  intro k
  induction k with
  | zero => intro p b j i _ hj; omega
  | succ k ih =>
    intro p b j i hb hj hi hw
    rw [reports_eraseCanaryTrace_succ, List.mem_append]
    cases j with
    | zero =>
      left
      apply scanReports_complete _ _ _ m c hm 252 0 i (by omega) (by omega)
      rw [memcmp4_window, pageBuf_getD _ _ _ hb i (by omega),
        pageBuf_getD _ _ _ hb (i + 1) (by omega), pageBuf_getD _ _ _ hb (i + 2) (by omega),
        pageBuf_getD _ _ _ hb (i + 3) (by omega)]
      simpa [Nat.add_assoc] using hw
    | succ j =>
      right
      have h0 : p + 256 * (j + 1) = p + 256 + 256 * j := by omega
      rw [h0] at hw ⊢
      exact ih (p + 256) _ j i (by rw [pageBuf_length]; exact hb) (by omega) hi hw

theorem withOpcode_reportSteps (op l : Nat) (cs : Bool) (R : List Report) :
    withOpcode op (reportSteps l cs R) = [] := by
  simp [withOpcode, commands_reportSteps]

theorem withOpcode_eraseCanaryTrace (s : State) (offset : Nat) : ∀ (k p : Nat) (b : List Nat),
    withOpcode SPI_FLASH_INS_READ (eraseCanaryTrace s offset k p b) =
      (List.range k).map (fun j => ([3, ((p + 256 * j) >>> 16) % 256,
        ((p + 256 * j) >>> 8) % 256, (p + 256 * j) % 256], 256)) := by
  intro k
  induction k with
  | zero => intro p b; rfl
  | succ k ih =>
    intro p b
    rw [eraseCanaryTrace, withOpcode_append, withOpcode_append, withOpcode_preadTrace,
      withOpcode_reportSteps, ih, List.range_succ_eq_map, List.map_cons, List.map_map]
    simp only [List.append_nil, List.singleton_append, Nat.mul_zero, Nat.add_zero]
    congr 1
    apply List.map_congr_left
    intro j _
    have hidx : p + 256 + 256 * j = p + 256 * (j + 1) := by omega
    simp only [Function.comp_apply, hidx, Nat.succ_eq_add_one]

theorem canaryReads_eraseCanaryTrace (s : State) (offset : Nat) : ∀ (k p : Nat) (b : List Nat),
    CanaryReads (eraseCanaryTrace s offset k p b) := by
  intro k
  induction k with
  | zero => intro p b; exact CanaryReads.nil
  | succ k ih =>
    intro p b
    rw [eraseCanaryTrace]
    exact CanaryReads.page s p 256 s.ipl _ _ (ih _ _)

theorem straddleState_first_bytes (x : Nat) (hx : x < 2 ^ 24) :
    (logical straddleState.chip.mem x = 0xe7 → x = 254) ∧
      logical straddleState.chip.mem x ≠ 0xca ∧ logical straddleState.chip.mem x ≠ 0xde := by
  unfold logical
  rw [Nat.mod_eq_of_lt hx]
  simp only [straddleState, exampleState, toU8_bnot]
  split_ifs <;> refine ⟨fun h => ?_, by omega, by omega⟩ <;>
    first | assumption | exact h.elim | omega

/-! ## Claims -/


/-- C1: `xmem_erase(size, addr)` returns the error indicator `-1` exactly when
`size` or `addr` is not a multiple of 65536, and then it leaves the machine as
it was: no bus command is issued, nothing is added to the trace and the chip is
untouched. -/
theorem C1_erase_rejects_misaligned (fuel : Nat) (size : Int) (addr : Nat) (s : State) :
    ((size % 65536 ≠ 0 ∨ addr % 65536 ≠ 0) → xmem_erase fuel size addr s = some (-1, s)) ∧
      ((size % 65536 = 0 ∧ addr % 65536 = 0) →
        ∀ r s2, xmem_erase fuel size addr s = some (r, s2) → r ≠ -1) := by
  constructor
  · intro h
    unfold xmem_erase
    by_cases hs : size % 65536 = 0
    · have ha : addr % XMEM_ERASE_UNIT_SIZE ≠ 0 := by
        rcases h with h | h
        · exact absurd hs h
        · exact h
      simp only [(tmod_unit_eq_zero_iff size).2 hs, ne_eq, not_true_eq_false, if_false, ha,
        not_false_eq_true, if_true]
    · have hs2 : size.tmod (XMEM_ERASE_UNIT_SIZE : Nat) ≠ 0 :=
        fun h0 => hs ((tmod_unit_eq_zero_iff size).1 h0)
      simp only [ne_eq, hs2, not_false_eq_true, if_true]
  · rintro ⟨hs, ha⟩ r s2 hrun
    have ha2 : addr % XMEM_ERASE_UNIT_SIZE = 0 := ha
    unfold xmem_erase at hrun
    simp only [(tmod_unit_eq_zero_iff size).2 hs, ne_eq, not_true_eq_false, if_false, ha2,
      Option.bind_eq_bind, Option.pure_def] at hrun
    cases hloop : xmem_erase_loop fuel (toULong ((addr : Int) + size)) fuel addr s with
    | none => rw [hloop] at hrun; exact Option.noConfusion hrun
    | some s3 =>
      rw [hloop] at hrun
      simp only [Option.some_bind, Option.some.injEq, Prod.mk.injEq] at hrun
      rw [← hrun.1, toCInt_of_aligned size hs]
      decide

/-- C1, instances: `erase(size=100, addr=0)` and `erase(size=65536, addr=10)`
fail without touching the machine; `erase(size=65536, addr=65536)` returns, and
not with `-1`. -/
theorem C1_erase_rejects_misaligned_witness :
    xmem_erase 300 100 0 exampleState = some (-1, exampleState) ∧
      xmem_erase 300 65536 10 exampleState = some (-1, exampleState) ∧
      ∃ r s2, xmem_erase 300 65536 65536 exampleState = some (r, s2) ∧ r ≠ -1 := by
  refine ⟨(C1_erase_rejects_misaligned 300 100 0 exampleState).1 (Or.inl (by decide)),
    (C1_erase_rejects_misaligned 300 65536 10 exampleState).1 (Or.inr (by decide)), ?_⟩
  obtain ⟨c, T, hrun, -⟩ := xmem_erase_spec 300 65536 65536 exampleState rfl (by decide)
    (by decide) (by decide) (by decide) (by decide) (by decide) (by decide)
  exact ⟨_, _, hrun,
    (C1_erase_rejects_misaligned 300 65536 65536 exampleState).2 ⟨by decide, by decide⟩ _ _ hrun⟩

/-- C2: for `addr + size <= 2^24` and `size > 0`, the page-program commands of
`xmem_pwrite(buf, size, addr)`, as (address, length) pairs in issue order, are
consecutive chunks partitioning `[addr, addr+size)`: the first starts at
`addr`, each next one starts where the previous ended, the last ends at
`addr+size`, each has 1 to 256 bytes inside one 256-byte page, and each but the
last ends on a multiple of 256.  The call returns once the bound on the busy
loops exceeds the chip's busy times. -/
theorem C2_pwrite_chunks_partition (fuel : Nat) (buf : List Nat) (size addr : Nat) (s : State)
    (hcs : s.cs = false) (hb : s.chip.busy < fuel) (ht : s.chip.tpp < fuel) (hf : size ≤ fuel)
    (hpos : 0 < size) (hsz : addr + size ≤ 2 ^ 24) :
    ∃ s2, xmem_pwrite fuel buf size addr s = some ((size : Int), s2) ∧
      ppCmds (newSteps s s2) ≠ [] ∧
      PagePartition addr (addr + size)
        ((ppCmds (newSteps s s2)).map (fun c => (c.1, c.2.length))) := by
  obtain ⟨c, T, hrun, hch, -⟩ := xmem_pwrite_spec fuel buf size addr s hcs hb ht (by omega) hf
  refine ⟨_, hrun, ?_, ?_⟩
  · rw [newSteps_after]
    intro hnil
    rw [hnil] at hch
    simp only [Chunks] at hch
    omega
  · rw [newSteps_after]
    exact chunks_partition buf _ hsz _ _ _ (by omega) hch

set_option maxRecDepth 100000 in
/-- C2, instance: a write of 32 bytes at `0xF0` is realised as exactly two
page-program commands, 16 bytes at `0xF0` and 16 bytes at `0x100`. -/
theorem C2_pwrite_chunks_partition_witness :
    (∃ s2, xmem_pwrite 40 (List.replicate 32 0) (32 : Nat) 0xF0 exampleState =
        some (((32 : Nat) : Int), s2) ∧
      ppCmds (newSteps exampleState s2) ≠ [] ∧
      PagePartition 0xF0 (0xF0 + 32)
        ((ppCmds (newSteps exampleState s2)).map (fun c => (c.1, c.2.length)))) ∧
    (xmem_pwrite 40 (List.replicate 32 0) 32 0xF0 exampleState).map
      (fun r => (ppCmds (newSteps exampleState r.2)).map (fun c => (c.1, c.2.length))) =
        some [(0xF0, 16), (0x100, 16)] :=
  ⟨C2_pwrite_chunks_partition 40 (List.replicate 32 0) 32 0xF0 exampleState rfl (by decide)
    (by decide) (by decide) (by decide) (by decide), by decide⟩

/-- C3: round trip.  On the chip model, where a page-program command stores
its bytes at consecutive addresses from the command address on and a read
command returns the stored bytes, for every buffer `B` of bytes and every
offset `O` with `O + len(B)` inside the 24-bit address space and the region
erased beforehand, `xmem_pwrite(B, len(B), O)` followed by
`xmem_pread(B2, len(B), O)` leaves `B2` equal to `B`. -/
theorem C3_write_read_round_trip (fuel : Nat) (B B2 : List Nat) (O : Nat) (s : State)
    (hcs : s.cs = false) (hb : s.chip.busy < fuel) (ht : s.chip.tpp < fuel)
    (hf : B.length ≤ fuel) (hbytes : ∀ b ∈ B, b < 256) (hsz : O + B.length ≤ 2 ^ 24)
    (herased : ∀ x, O ≤ x → x < O + B.length → s.chip.mem x = 0xFF)
    (hlen : B2.length = B.length) :
    ∃ s1 s2, xmem_pwrite fuel B B.length O s = some ((B.length : Int), s1) ∧
      xmem_pread fuel B2 B.length O s1 = some ((B, (B.length : Int)), s2) := by
  obtain ⟨c, T, hrun, -, hcb, -, -, hmem⟩ :=
    xmem_pwrite_spec fuel B B.length O s hcs hb ht (by omega) hf
  have hread := xmem_pread_eq fuel B2 B.length O (s.after c T) rfl (by simpa using hcb)
  rw [Int.toNat_ofNat] at hread
  have hdata : (readData (s.after c T).chip.mem (O % 2 ^ 24) B.length).map
      (fun u : Nat => toU8 (bnot (u : Int))) = B := by
    apply List.ext_getElem
    · simp [readData_length]
    · intro k h1 h2
      have hO : (O % 2 ^ 24 + k) % 2 ^ 24 = O + k := by omega
      simp only [readData, List.getElem_map, List.getElem_range, after_chip, hO]
      rw [hmem hsz (O + k), if_pos (by omega), herased _ (by omega) (by omega), ff_and,
        Nat.zero_add, Nat.add_sub_cancel_left, List.getD_eq_getElem?_getD,
        List.getElem?_eq_getElem h2, Option.getD_some, toU8_bnot B[k], Nat.mod_mod,
        toU8_bnot]
      have := hbytes _ (List.getElem_mem h2)
      omega
  rw [hdata, storeFrom_zero _ _ (by omega), List.drop_of_length_le (by omega),
    List.append_nil] at hread
  exact ⟨_, _, hrun, hread⟩

/-- C3, instance: four bytes written across a page boundary and read back. -/
theorem C3_write_read_round_trip_witness :
    ∃ s1 s2,
      xmem_pwrite 5 [0x12, 0x00, 0xFF, 0xA5] ([0x12, 0x00, 0xFF, 0xA5].length : Nat) 0xFE
          exampleState = some ((([0x12, 0x00, 0xFF, 0xA5].length : Nat) : Int), s1) ∧
      xmem_pread 5 [0, 0, 0, 0] ([0x12, 0x00, 0xFF, 0xA5].length : Nat) 0xFE s1 =
        some (([0x12, 0x00, 0xFF, 0xA5], (([0x12, 0x00, 0xFF, 0xA5].length : Nat) : Int)), s2) :=
  C3_write_read_round_trip 5 [0x12, 0x00, 0xFF, 0xA5] [0, 0, 0, 0] 0xFE exampleState rfl
    (by decide) (by decide) (by decide) (by decide) (by decide) (fun _ _ _ => rfl) rfl

/-- C4: erase then read.  On the chip model, where a sector-erase command sets
every byte of the addressed 65536-byte sector to `0xFF`, after a successful
`xmem_erase(65536, S)` every `xmem_pread` of a byte range inside
`[S, S+65536)` fills the first `n` bytes of the caller's buffer with `0x00`. -/
theorem C4_erase_then_read_zero (fuel : Nat) (S : Nat) (s : State) (hcs : s.cs = false)
    (hb : s.chip.busy < fuel) (ht : s.chip.tse < fuel) (h256 : 256 ≤ fuel)
    (ha : S % 65536 = 0) (hsz : S + 65536 ≤ 2 ^ 24) :
    ∃ r s1, xmem_erase fuel 65536 S s = some (r, s1) ∧ r ≠ -1 ∧
      ∀ (buf : List Nat) (n off : Nat), S ≤ off → off + n ≤ S + 65536 → n ≤ buf.length →
        ∃ s2, xmem_pread fuel buf n off s1 =
          some ((List.replicate n 0 ++ buf.drop n, (n : Int)), s2) := by
  obtain ⟨c, T, hrun, -, hcb, -, -, hmem⟩ := xmem_erase_spec fuel 65536 S s hcs hb ht h256
    (by decide) ha hsz (by omega)
  refine ⟨_, _, hrun, by decide, ?_⟩
  intro buf n off h1 h2 h3
  have hread := xmem_pread_eq fuel buf n off (s.after c T) rfl (by simpa using hcb)
  rw [Int.toNat_ofNat] at hread
  have hdata : (readData (s.after c T).chip.mem (off % 2 ^ 24) n).map
      (fun u : Nat => toU8 (bnot (u : Int))) = List.replicate n 0 := by
    apply List.ext_getElem
    · simp [readData_length]
    · intro k hk1 hk2
      simp only [List.length_replicate] at hk2
      have hO : (off % 2 ^ 24 + k) % 2 ^ 24 = off + k := by omega
      simp only [readData, List.getElem_map, List.getElem_range, after_chip, hO,
        List.getElem_replicate]
      rw [hmem (off + k), if_pos (by omega)]
      decide
  rw [hdata, storeFrom_zero _ _ (by simpa using h3), List.length_replicate] at hread
  exact ⟨_, hread⟩

/-- C4, instance: the sector at `0x30000`. -/
theorem C4_erase_then_read_zero_witness :
    ∃ r s1, xmem_erase 300 65536 0x30000 exampleState = some (r, s1) ∧ r ≠ -1 ∧
      ∀ (buf : List Nat) (n off : Nat), 0x30000 ≤ off → off + n ≤ 0x30000 + 65536 →
        n ≤ buf.length →
        ∃ s2, xmem_pread 300 buf n off s1 =
          some ((List.replicate n 0 ++ buf.drop n, (n : Int)), s2) :=
  C4_erase_then_read_zero 300 0x30000 exampleState rfl (by decide) (by decide) (by decide)
    (by decide) (by decide)

/-- C5: for `size >= 0` and `addr` both multiples of 65536 with
`addr + size <= 2^24`, `xmem_erase(size, addr)` issues exactly `size/65536`
commands with the sector-erase opcode `0xD8`, each made of the opcode and three
address bytes, and their addresses in issue order are `addr`, `addr+65536`, ...,
`addr+size-65536`; on the chip model the bytes of `[addr, addr+size)` end up
erased and no byte outside that range changes. -/
theorem C5_erase_every_sector_once (fuel : Nat) (size addr : Nat) (s : State)
    (hcs : s.cs = false) (hb : s.chip.busy < fuel) (ht : s.chip.tse < fuel) (h256 : 256 ≤ fuel)
    (hs : size % 65536 = 0) (ha : addr % 65536 = 0) (hsz : addr + size ≤ 2 ^ 24)
    (hf : size / 65536 ≤ fuel) :
    ∃ r s2, xmem_erase fuel size addr s = some (r, s2) ∧
      (withOpcode 0xd8 (newSteps s s2)).length = size / 65536 ∧
      (∀ c ∈ withOpcode 0xd8 (newSteps s s2), c.1.length = 4 ∧ c.2 = 0) ∧
      seCmds (newSteps s s2) = (List.range (size / 65536)).map (fun j => addr + 65536 * j) ∧
      ∀ x, s2.chip.mem x = if addr ≤ x ∧ x < addr + size then 0xFF else s.chip.mem x := by
  obtain ⟨c, T, hrun, hse, -, -, -, hmem⟩ :=
    xmem_erase_spec fuel size addr s hcs hb ht h256 hs ha hsz hf
  have hse2 : withOpcode 0xd8 T = _ := hse
  refine ⟨_, _, hrun, ?_, ?_, ?_, hmem⟩
  · rw [newSteps_after, hse2, List.length_map, List.length_range]
  · rw [newSteps_after, hse2]
    intro c hc
    obtain ⟨j, -, rfl⟩ := List.mem_map.1 hc
    exact ⟨rfl, rfl⟩
  · rw [newSteps_after, seCmds, hse, List.map_map]
    apply List.map_congr_left
    intro j hj
    have hj2 : j < size / 65536 := List.mem_range.1 hj
    have h24 := shift_bytes (addr + 65536 * j)
    simp only [Nat.shiftRight_zero] at h24
    simp only [Function.comp_apply, cmdAddr, h24]
    omega

/-- C5, instance: erasing three sectors from `0x20000` on. -/
theorem C5_erase_every_sector_once_witness :
    ∃ r s2, xmem_erase 300 ((196608 : Nat) : Int) 0x20000 exampleState = some (r, s2) ∧
      (withOpcode 0xd8 (newSteps exampleState s2)).length = 196608 / 65536 ∧
      (∀ c ∈ withOpcode 0xd8 (newSteps exampleState s2), c.1.length = 4 ∧ c.2 = 0) ∧
      seCmds (newSteps exampleState s2) =
        (List.range (196608 / 65536)).map (fun j => 0x20000 + 65536 * j) ∧
      ∀ x, s2.chip.mem x =
        if 0x20000 ≤ x ∧ x < 0x20000 + 196608 then 0xFF else exampleState.chip.mem x :=
  C5_erase_every_sector_once 300 196608 0x20000 exampleState rfl (by decide) (by decide)
    (by decide) (by decide) (by decide) (by decide) (by decide)

/-- C6: for `addr + size <= 2^24`, the data bytes of the page-program commands
of `xmem_pwrite(buf, size, addr)`, concatenated in issue order, are the 8-bit
complements of `buf[0], ..., buf[size-1]` in that order; and the byte a command
sends for flash address `addr+k` is `buf[k] XOR 0xFF`. -/
theorem C6_pwrite_streams_complement (fuel : Nat) (buf : List Nat) (size addr : Nat)
    (s : State) (hcs : s.cs = false) (hb : s.chip.busy < fuel) (ht : s.chip.tpp < fuel)
    (hf : size ≤ fuel) (hsz : addr + size ≤ 2 ^ 24) (hlen : size ≤ buf.length)
    (hbytes : ∀ b ∈ buf, b < 256) :
    ∃ s2, xmem_pwrite fuel buf size addr s = some ((size : Int), s2) ∧
      ((ppCmds (newSteps s s2)).map (fun c => c.2)).flatten =
        (buf.take size).map (fun b => b ^^^ 0xFF) ∧
      ∀ c ∈ ppCmds (newSteps s s2), ∀ j, j < c.2.length →
        addr ≤ c.1 + j ∧ c.1 + j < addr + size ∧
          c.2.getD j 0 = buf.getD (c.1 + j - addr) 0 ^^^ 0xFF := by
  obtain ⟨c, T, hrun, hch, -⟩ := xmem_pwrite_spec fuel buf size addr s hcs hb ht (by omega) hf
  refine ⟨_, hrun, ?_, ?_⟩
  · rw [newSteps_after, chunks_data buf _ (by omega) _ _ _ (by omega) hch, Nat.add_sub_cancel_left,
      pageData_eq_take buf size hlen hbytes]
  · rw [newSteps_after]
    intro c hc j hj
    obtain ⟨g1, g2, g3⟩ := chunks_bytes buf _ hsz _ _ _ (by omega) hch c hc j hj
    refine ⟨g1, g2, ?_⟩
    have hk : c.1 + j - addr < buf.length := by omega
    have hlt : buf.getD (c.1 + j - addr) 0 < 256 := by
      rw [List.getD_eq_getElem?_getD, List.getElem?_eq_getElem hk]
      exact hbytes _ (List.getElem_mem hk)
    rw [← toU8_bnot_lt _ hlt, ← Nat.zero_add (c.1 + j - addr), ← g3,
      List.getD_eq_getElem?_getD, List.getD_eq_getElem?_getD, List.getElem?_eq_getElem hj]
    rfl

/-- C6, instance: writing the bytes `1, 2, 3` at address `0xFE`. -/
theorem C6_pwrite_streams_complement_witness :
    ∃ s2, xmem_pwrite 5 [1, 2, 3] (3 : Nat) 0xFE exampleState = some (((3 : Nat) : Int), s2) ∧
      ((ppCmds (newSteps exampleState s2)).map (fun c => c.2)).flatten =
        ([1, 2, 3].take 3).map (fun b => b ^^^ 0xFF) ∧
      ∀ c ∈ ppCmds (newSteps exampleState s2), ∀ j, j < c.2.length →
        0xFE ≤ c.1 + j ∧ c.1 + j < 0xFE + 3 ∧
          c.2.getD j 0 = [1, 2, 3].getD (c.1 + j - 0xFE) 0 ^^^ 0xFF :=
  C6_pwrite_streams_complement 5 [1, 2, 3] 3 0xFE exampleState rfl (by decide) (by decide)
    (by decide) (by decide) (by decide) (by decide)

/-- C7: for every `size >= 0` and every offset, `xmem_pread(buffer, size,
offset)` returns `size`; after the status poll it issues exactly one bus
transaction, made of the read opcode `0x03`, the three address bytes and exactly
`size` byte reads; on return `buffer[k]` is the 8-bit complement of the `k`-th
byte received for `k < size`, and the bytes at index `>= size` are unchanged. -/
theorem C7_pread_one_transaction (fuel : Nat) (buf : List Nat) (size offset : Nat) (s : State)
    (hcs : s.cs = false) (hb : s.chip.busy < fuel) (hlen : size ≤ buf.length) :
    ∃ (data : List Nat) (s2 : State),
      data.length = size ∧ (∀ d ∈ data, d < 256) ∧
      xmem_pread fuel buf size offset s =
        some ((data.map (fun d => d ^^^ 0xFF) ++ buf.drop size, (size : Int)), s2) ∧
      (newSteps s s2).map Step.ev =
        (pollTrace s.ipl s.splmax s.chip.wel s.chip.sr s.chip.busy).map Step.ev ++
          [.splhigh, .enable, .tx 0x03, .tx ((offset >>> 16) % 256), .tx ((offset >>> 8) % 256),
            .tx (offset % 256), .txEnded, .flush] ++ data.map Event.rx ++
          [.disable [0x03, (offset >>> 16) % 256, (offset >>> 8) % 256, offset % 256] size,
            .splx s.ipl] ∧
      commands (newSteps s s2) = List.replicate (s.chip.busy + 1) ([0x05], 1) ++
        [([0x03, (offset >>> 16) % 256, (offset >>> 8) % 256, offset % 256], size)] := by
  refine ⟨readData s.chip.mem (offset % 2 ^ 24) size,
    s.after { s.chip.idle with busy := 0 } (preadTrace s offset size),
    readData_length _ _ _, readData_lt _ _ _, ?_, ?_, ?_⟩
  · rw [xmem_pread_eq fuel buf size offset s hcs hb, Int.toNat_ofNat,
      map_toU8_bnot _ (readData_lt _ _ _), storeFrom_zero _ _ (by simpa [readData_length]),
      List.length_map, readData_length]
  · simp [preadTrace, txn, Function.comp_def]
  · rw [newSteps_after, preadTrace, commands_append, commands_pollTrace, commands_txn]
    · simp
    · intro e he c k
      simp only [List.mem_append, List.mem_cons, List.mem_map, List.not_mem_nil, or_false] at he
      rcases he with (rfl | rfl | rfl | rfl | rfl | rfl) | ⟨d, _, rfl⟩ <;> simp

/-- C7, instance: reading three bytes at offset `0x012345` into a buffer of
five bytes. -/
theorem C7_pread_one_transaction_witness :
    ∃ (data : List Nat) (s2 : State),
      data.length = 3 ∧ (∀ d ∈ data, d < 256) ∧
      xmem_pread 3 [9, 9, 9, 9, 9] (3 : Nat) 0x012345 exampleState =
        some ((data.map (fun d => d ^^^ 0xFF) ++ [9, 9, 9, 9, 9].drop 3, ((3 : Nat) : Int)), s2) ∧
      (newSteps exampleState s2).map Step.ev =
        (pollTrace exampleState.ipl exampleState.splmax exampleState.chip.wel
            exampleState.chip.sr exampleState.chip.busy).map Step.ev ++
          [.splhigh, .enable, .tx 0x03, .tx ((0x012345 >>> 16) % 256),
            .tx ((0x012345 >>> 8) % 256), .tx (0x012345 % 256), .txEnded, .flush] ++
          data.map Event.rx ++
          [.disable [0x03, (0x012345 >>> 16) % 256, (0x012345 >>> 8) % 256, 0x012345 % 256] 3,
            .splx exampleState.ipl] ∧
      commands (newSteps exampleState s2) =
        List.replicate (exampleState.chip.busy + 1) ([0x05], 1) ++
          [([0x03, (0x012345 >>> 16) % 256, (0x012345 >>> 8) % 256, 0x012345 % 256], 3)] :=
  C7_pread_one_transaction 3 [9, 9, 9, 9, 9] 3 0x012345 exampleState rfl (by decide) (by decide)

/-- C8, the code at the failing input: `xmem_erase(size=65536, addr=65536)`
erases the sector and returns `0`, not `65536`: the `long` value `size` does
not fit the 16-bit `int` return type, and every multiple of 65536 is cut down
to `0`. -/
theorem C8_erase_return_value_truncated :
    (∃ s2, xmem_erase 300 65536 65536 exampleState = some (0, s2)) ∧
      (0 : Int) ≠ 65536 ∧ ∀ size : Int, size % 65536 = 0 → toCInt size = 0 := by
  obtain ⟨c, T, hrun, -⟩ := xmem_erase_spec 300 65536 65536 exampleState rfl (by decide)
    (by decide) (by decide) (by decide) (by decide) (by decide) (by decide)
  exact ⟨⟨_, hrun⟩, by decide, toCInt_of_aligned⟩

/-- C9, as stated, fails: for `addr = 0xFFFFFF00` and `size = 1` the sum
`addr + size` does not overflow, yet the chunk after the one starting at
`0xFFFFFF00` starts at `0`, and the loop of `xmem_pwrite` never ends: no bound
on the number of iterations lets the call return. -/
theorem C9_pwrite_terminates_counterexample :
    (0xFFFFFF00 + 1 < 2 ^ 32 ∧ next_page 0xFFFFFF00 (0xFFFFFF00 + 1) = 0) ∧
      ¬ ∃ fuel r, xmem_pwrite fuel [0] 1 0xFFFFFF00 exampleState = some r := by
  refine ⟨by decide, ?_⟩
  rintro ⟨fuel, r, h⟩
  have hnone : xmem_pwrite fuel [0] 1 0xFFFFFF00 exampleState = none := by
    unfold xmem_pwrite
    have he : toULong (((0xFFFFFF00 : Nat) : Int) + 1) = 0xFFFFFF01 := by decide
    simp only [he, Option.bind_eq_bind]
    rw [xmem_pwrite_loop_cycle fuel [0] fuel 0xFFFFFF00 0 exampleState (by decide) (by decide)]
    rfl
  rw [hnone] at h
  exact Option.noConfusion h

/-- C9, amended: for every `addr` and `size >= 0` with
`addr + size <= 2^32 - 256`, whatever their alignment, the chunk start strictly
increases at every iteration of the loop of `xmem_pwrite` and never passes
`addr + size`, the loop ends within `size` iterations, and the call returns
`size` (once the bound on the busy loops exceeds the chip's busy times). -/
theorem C9_pwrite_terminates (fuel : Nat) (buf : List Nat) (size addr : Nat) (s : State)
    (hcs : s.cs = false) (hb : s.chip.busy < fuel) (ht : s.chip.tpp < fuel) (hf : size ≤ fuel)
    (hsz : addr + size ≤ 2 ^ 32 - 256) :
    (∃ s2, xmem_pwrite fuel buf size addr s = some ((size : Int), s2)) ∧
      ∀ i, addr ≤ i → i < addr + size →
        i < next_page i (addr + size) ∧ next_page i (addr + size) ≤ addr + size := by
  obtain ⟨c, T, hrun, -⟩ := xmem_pwrite_spec fuel buf size addr s hcs hb ht hsz hf
  refine ⟨⟨_, hrun⟩, ?_⟩
  intro i _ hi
  obtain ⟨h1, h2, -⟩ := next_page_spec i (addr + size) hi hsz
  exact ⟨h1, h2⟩

/-- C9, instance: an unaligned write of 600 bytes at address 100. -/
theorem C9_pwrite_terminates_witness :
    (∃ s2, xmem_pwrite 600 [] (600 : Nat) 100 exampleState = some (((600 : Nat) : Int), s2)) ∧
      ∀ i, 100 ≤ i → i < 100 + 600 →
        i < next_page i (100 + 600) ∧ next_page i (100 + 600) ≤ 100 + 600 :=
  C9_pwrite_terminates 600 [] 600 100 exampleState rfl (by decide) (by decide) (by decide)
    (by decide)

/-- C10: on the explicit state holding the interrupt-mask level and the
chip-select line, for every mask level before the call (the highest one
included), after each of `write_enable`, `read_status_register`, `wait_ready`,
`erase_sector`, `program_page`, `xmem_init`, `xmem_pread`, `xmem_pwrite` and
`xmem_erase` returns, the mask level is the one before the call and chip-select
is deasserted, and every step the call made left chip-select asserted only with
the mask at the highest level (`Restores`). -/
theorem C10_mask_restored_chip_select_guarded (fuel : Nat) (s : State) (hcs : s.cs = false) :
    Restores s (write_enable s) ∧
    Restores s (read_status_register s).2 ∧
    (∀ u s2, wait_ready fuel s = some (u, s2) → Restores s s2) ∧
    (∀ offset s2, erase_sector fuel offset s = some s2 → Restores s s2) ∧
    (∀ offset buf p nbytes r s2,
      program_page fuel offset buf p nbytes s = some (r, s2) → Restores s s2) ∧
    Restores s (xmem_init s) ∧
    (∀ buf size offset r s2, xmem_pread fuel buf size offset s = some (r, s2) →
      Restores s s2) ∧
    (∀ buf size addr r s2, xmem_pwrite fuel buf size addr s = some (r, s2) →
      Restores s s2) ∧
    (∀ size addr r s2, xmem_erase fuel size addr s = some (r, s2) → Restores s s2) :=
  ⟨restores_write_enable s, restores_read_status_register s,
    fun u s2 h => restores_wait_ready fuel s u s2 hcs h,
    fun offset s2 h => restores_erase_sector fuel offset s s2 hcs h,
    fun offset buf p nbytes r s2 h => restores_program_page fuel offset buf p nbytes s r s2 hcs h,
    restores_xmem_init s hcs,
    fun buf size offset r s2 h => restores_xmem_pread fuel buf size offset s r s2 hcs h,
    fun buf size addr r s2 h => restores_xmem_pwrite fuel buf size addr s r s2 hcs h,
    fun size addr r s2 h => restores_xmem_erase fuel size addr s r s2 hcs h⟩

/-- C10, instance: a call of `xmem_pread` at mask level 0 and a nested call of
`xmem_pwrite` with the mask already at the highest level 7 both return, with the
mask back at its level. -/
theorem C10_mask_restored_chip_select_guarded_witness :
    (∃ r s2, xmem_pread 3 [0] 1 0 exampleState = some (r, s2) ∧ Restores exampleState s2 ∧
      s2.ipl = 0) ∧
    (∃ r s2, xmem_pwrite 3 [5] 1 0 { exampleState with ipl := 7 } = some (r, s2) ∧
      Restores { exampleState with ipl := 7 } s2 ∧ s2.ipl = 7) := by
  have h1 := xmem_pread_eq 3 [0] 1 0 exampleState rfl (by decide)
  obtain ⟨c, T, h2, -⟩ := xmem_pwrite_spec 3 [5] 1 0 { exampleState with ipl := 7 } rfl
    (by decide) (by decide) (by decide) (by decide)
  have r1 := (C10_mask_restored_chip_select_guarded 3 exampleState rfl).2.2.2.2.2.2.1
    _ _ _ _ _ h1
  have r2 := (C10_mask_restored_chip_select_guarded 3 { exampleState with ipl := 7 }
    rfl).2.2.2.2.2.2.2.1 _ _ _ _ _ h2
  exact ⟨⟨_, _, h1, r1, r1.1⟩, ⟨_, _, h2, r2, r2.1⟩⟩

/-- C11: in the commands of every call of `xmem_pwrite` and of `xmem_erase`
that returns, every page-program command (opcode `0x02`) and every sector-erase
command (opcode `0xD8`) comes right after a write-enable command (`0x06`), the
command at the index just before it, and the number of write-enable commands
is the number of page-program plus sector-erase commands. -/
theorem C11_write_enable_before_program_and_erase (fuel : Nat) (s : State)
    (hcs : s.cs = false) :
    (∀ buf size addr r s2, xmem_pwrite fuel buf size addr s = some (r, s2) →
      WrenBefore (newSteps s s2)) ∧
    (∀ size addr r s2, xmem_erase fuel size addr s = some (r, s2) →
      WrenBefore (newSteps s s2)) := by
  constructor
  · intro buf size addr r s2 h
    obtain ⟨-, c, T, hs2, hT⟩ := xmem_pwrite_steps fuel buf size addr
      (fun T => WrenPaired (commands T)) WrenPaired.nil
      (fun A B hA hB => wrenPaired_commands_append A B hA hB)
      (fun s off p nb _ => wrenPaired_programPageTrace s off buf p nb) s r s2 hcs h
    rw [hs2, newSteps_after]
    exact wrenBefore_of_paired T hT
  · intro size addr r s2 h
    obtain ⟨c, T, hs2, hT⟩ := xmem_erase_steps fuel size addr
      (fun T => WrenPaired (commands T)) WrenPaired.nil
      (fun A B hA hB => wrenPaired_commands_append A B hA hB)
      (fun s offset Tc _ hTc _ => wrenPaired_eraseSector _ _ _ _ _ offset Tc hTc) s r s2 hcs h
    rw [hs2, newSteps_after]
    exact wrenBefore_of_paired T hT

set_option maxRecDepth 100000 in
/-- C11, instance: a write of 32 bytes at `0xF0` and an erase of two sectors
both return; the write issues two write-enable and two page-program commands,
the erase two sector-erase commands. -/
theorem C11_write_enable_before_program_and_erase_witness :
    (∃ r s2, xmem_pwrite 40 (List.replicate 32 0) 32 0xF0 exampleState = some (r, s2) ∧
      WrenBefore (newSteps exampleState s2)) ∧
    (xmem_pwrite 40 (List.replicate 32 0) 32 0xF0 exampleState).map
      (fun r => ((withOpcode SPI_FLASH_INS_WREN (newSteps exampleState r.2)).length,
        (withOpcode SPI_FLASH_INS_PP (newSteps exampleState r.2)).length)) = some (2, 2) ∧
    (∃ r s2, xmem_erase 300 131072 0 exampleState = some (r, s2) ∧
      WrenBefore (newSteps exampleState s2) ∧
      (withOpcode SPI_FLASH_INS_SE (newSteps exampleState s2)).length = 2) := by
  obtain ⟨c, T, h1, -⟩ := xmem_pwrite_spec 40 (List.replicate 32 0) 32 0xF0 exampleState
    rfl (by decide) (by decide) (by decide) (by decide)
  obtain ⟨c2, T2, h2, hse, -⟩ := xmem_erase_spec 300 131072 0 exampleState rfl (by decide)
    (by decide) (by decide) (by decide) (by decide) (by decide) (by decide)
  have w1 := (C11_write_enable_before_program_and_erase 40 exampleState rfl).1 _ _ _ _ _ h1
  have w2 := (C11_write_enable_before_program_and_erase 300 exampleState rfl).2 _ _ _ _ h2
  have hse2 : withOpcode 0xd8 T2 = _ := hse
  refine ⟨⟨_, _, h1, w1⟩, by decide, ⟨_, _, h2, w2, ?_⟩⟩
  rw [newSteps_after]
  show (withOpcode 0xd8 T2).length = 2
  rw [hse2]; rfl

set_option maxRecDepth 100000 in
/-- C12: the scan of `check_write_canary` stops one window short.  A chunk
that is exactly the four bytes of the first marker is written by
`xmem_pwrite(buf, 4, 0)` without any report, and so is a five-byte chunk with
the marker in its last four bytes, while the marker in the first four bytes of
a five-byte chunk is reported at index 0. -/
theorem C12_write_canary_misses_last_window :
    reports (check_write_canary [0xe7, 0x1d, 0xe5, 0xce] 4 0 exampleState).trace = [] ∧
    (xmem_pwrite 3 [0xe7, 0x1d, 0xe5, 0xce] 4 0 exampleState).map
      (fun r => (r.1, reports (newSteps exampleState r.2))) = some (4, []) ∧
    (xmem_pwrite 3 [0, 0xe7, 0x1d, 0xe5, 0xce] 5 0 exampleState).map
      (fun r => (r.1, reports (newSteps exampleState r.2))) = some (5, []) ∧
    (xmem_pwrite 3 [0xe7, 0x1d, 0xe5, 0xce, 0] 5 0 exampleState).map
      (fun r => (r.1, reports (newSteps exampleState r.2))) =
        some (5, [Report.canaryW 1 0 0]) := by
  refine ⟨by decide, by decide, by decide, by decide⟩

/-- C13, as stated, fails on a marker that straddles two pages: with the first
marker at the flash addresses 254 to 257 of sector 0 and diagnostics on,
`erase_sector(0)` returns without printing any line. -/
theorem C13_erase_canary_scans_each_page_counterexample :
    ∃ s2, erase_sector 300 0 straddleState = some s2 ∧
      [logical straddleState.chip.mem 254, logical straddleState.chip.mem 255,
        logical straddleState.chip.mem 256, logical straddleState.chip.mem 257] = CANARY1 ∧
      reports (newSteps straddleState s2) = [] := by
  have h := erase_sector_canary_eq 300 0 straddleState rfl (by decide) (by decide) (by decide)
    rfl
  refine ⟨_, h, by decide, ?_⟩
  rw [newSteps_after, reports_eraseSector, List.eq_nil_iff_forall_not_mem]
  intro r hr
  obtain ⟨j, i, hj, hi, hbyte⟩ := reports_eraseCanaryTrace_sound _ _ _ _ _ r
    (by rw [List.length_replicate]; rfl) hr
  have hmem : (straddleState.after { straddleState.chip.idle with busy := 0 } []).chip.mem =
      straddleState.chip.mem := rfl
  rw [hmem] at hbyte
  obtain ⟨k1, k2, k3⟩ := straddleState_first_bytes (0 + 256 * j + i) (by omega)
  rcases hbyte with hb | hb | hb
  · have := k1 hb
    omega
  · exact k2 hb
  · exact k3 hb

/-- C13, amended: with diagnostics on, `erase_sector(S)` returns after reading
back the 256 pages at `S`, `S+256`, ..., `S+65280`, 256 bytes each, in that
order; all its commands before the final write-enable and sector-erase are
status polls and reads; and for every page `j` and every offset `i <= 251` in
that page at which the logical contents hold one of the three markers, a line
naming that marker with the page address `S+256*j` and the sector address `S`
is printed. -/
theorem C13_erase_canary_scans_each_page (fuel S : Nat) (s : State) (hcs : s.cs = false)
    (hcan : s.canary = true) (hb : s.chip.busy < fuel) (h256 : 256 ≤ fuel)
    (hS : S + 65536 < 2 ^ 32) :
    ∃ s2, erase_sector fuel S s = some s2 ∧
      withOpcode 0x03 (newSteps s s2) =
        (List.range 256).map (fun j => ([0x03, ((S + 256 * j) >>> 16) % 256,
          ((S + 256 * j) >>> 8) % 256, (S + 256 * j) % 256], 256)) ∧
      (∃ C, commands (newSteps s s2) =
          C ++ [([0x06], 0), ([0xd8, (S >>> 16) % 256, (S >>> 8) % 256, S % 256], 0)] ∧
        ∀ c ∈ C, c.1.head? = some SPI_FLASH_INS_RDSR ∨ c.1.head? = some SPI_FLASH_INS_READ) ∧
      ∀ (j i m : Nat) (c : List Nat), j < 256 → i + 4 < 256 →
        (m, c) ∈ [(1, CANARY1), (2, CANARY2), (3, CANARY3)] →
        [logical s.chip.mem (S + 256 * j + i), logical s.chip.mem (S + 256 * j + i + 1),
          logical s.chip.mem (S + 256 * j + i + 2), logical s.chip.mem (S + 256 * j + i + 3)]
          = c →
        Report.canaryE m (S + 256 * j) S ∈ reports (newSteps s s2) := by
  have hlen : (List.replicate PAGE_SIZE 0).length = 256 := by
    rw [List.length_replicate]; rfl
  have hro : ReadOnly (pollTrace s.ipl s.splmax s.chip.wel s.chip.sr s.chip.busy ++
      eraseCanaryTrace (s.after { s.chip.idle with busy := 0 } []) S 256 S
        (List.replicate PAGE_SIZE 0)) :=
    readOnly_append _ _ (readOnly_pollTrace _ _ _ _ _)
      (canaryReads_readOnly _ (canaryReads_eraseCanaryTrace _ _ _ _ _))
  refine ⟨_, erase_sector_canary_eq fuel S s hcs hb h256 hS hcan, ?_, ?_, ?_⟩
  · rw [newSteps_after, withOpcode_append, withOpcode_append, withOpcode_append,
      withOpcode_pollTrace _ (by decide)]
    have h1 : withOpcode 0x03 (txn s.ipl s.splmax [.tx 6] [6] 0) = [] := by
      simp [withOpcode, commands_wren]
    have h2 : withOpcode 0x03 (eraseTxn s.ipl s.splmax S) = [] := by
      simp [withOpcode, commands_eraseTxn]
    rw [h1, h2]
    simp only [List.nil_append, List.append_nil]
    exact withOpcode_eraseCanaryTrace _ _ _ _ _
  · refine ⟨_, ?_, hro⟩
    rw [newSteps_after, commands_append, commands_append, commands_wren, commands_eraseTxn,
      List.append_assoc]
    rfl
  · intro j i m c hj hi hm hw
    rw [newSteps_after, reports_eraseSector]
    exact reports_eraseCanaryTrace_complete _ S m c hm 256 S _ j i hlen hj (by omega) hw

/-- C13, instance: with the second marker at the flash addresses 784 to 787,
inside the page at 768, `erase_sector(0)` prints the line for that marker with
page address 768 and sector address 0. -/
theorem C13_erase_canary_scans_each_page_witness :
    ∃ s2, erase_sector 300 0 markedState = some s2 ∧
      (withOpcode 0x03 (newSteps markedState s2)).length = 256 ∧
      Report.canaryE 2 768 0 ∈ reports (newSteps markedState s2) := by
  obtain ⟨s2, h1, h2, -, h4⟩ := C13_erase_canary_scans_each_page 300 0 markedState rfl rfl
    (by decide) (by decide) (by decide)
  refine ⟨s2, h1, by rw [h2, List.length_map, List.length_range], ?_⟩
  exact h4 3 16 2 CANARY2 (by decide) (by decide) (by decide) (by decide)

set_option maxRecDepth 100000 in
/-- C14: the offset field of a write-canary report is the index of the marker
in the chunk handed to `program_page`, not its offset in the flash page.  For
`xmem_pwrite(buf, 8, 0x10)` with the first marker at buffer index 0, that is at
flash address `0x10`, the report carries page `0` and offset `0`, which add up
to `0` and not to `0x10`; the same write at the page boundary `0x100` reports
page `0x100` and offset `0`. -/
theorem C14_write_canary_report_offset_in_chunk :
    (xmem_pwrite 3 [0xe7, 0x1d, 0xe5, 0xce, 0, 0, 0, 0] 8 0x10 exampleState).map
      (fun r => (r.1, reports (newSteps exampleState r.2))) =
        some (8, [Report.canaryW 1 0 0]) ∧
    (0 : Nat) + 0 ≠ 0x10 + 0 ∧
    (xmem_pwrite 3 [0xe7, 0x1d, 0xe5, 0xce, 0, 0, 0, 0] 8 0x100 exampleState).map
      (fun r => (r.1, reports (newSteps exampleState r.2))) =
        some (8, [Report.canaryW 1 0x100 0]) := by
  refine ⟨by decide, by decide, by decide⟩

/-- C15: on a chip that reports write-in-progress for its next `k` status
reads and then reports ready, `wait_ready` returns after exactly `k+1`
read-status commands (opcode `0x05`, one status byte read in each, each in its
own chip-select cycle) and after servicing the watchdog exactly `k+1` times;
the status bytes received at the indices below `k` have bit 0 set, the one at
index `k` has bit 0 clear and is the value returned, and at least one command
is issued even when the chip is idle from the start. -/
theorem C15_wait_ready_polls_until_idle (fuel : Nat) (s : State) (hcs : s.cs = false)
    (hb : s.chip.busy < fuel) :
    ∃ u s2, wait_ready fuel s = some (u, s2) ∧
      commands (newSteps s s2) = List.replicate (s.chip.busy + 1) ([0x05], 1) ∧
      watchdogs (newSteps s s2) = s.chip.busy + 1 ∧
      (rxBytes (newSteps s s2)).length = s.chip.busy + 1 ∧
      (∀ j, j < s.chip.busy → (rxBytes (newSteps s s2)).getD j 0 &&& 0x01 = 1) ∧
      (rxBytes (newSteps s s2)).getD s.chip.busy 0 = u ∧
      u &&& 0x01 = 0 ∧
      1 ≤ (commands (newSteps s s2)).length := by
  refine ⟨_, _, wait_ready_eq fuel s hcs hb, ?_⟩
  rw [newSteps_after, commands_pollTrace, watchdogs_pollTrace]
  obtain ⟨h1, h2, h3⟩ := rxBytes_pollTrace s.ipl s.splmax s.chip.wel s.chip.sr s.chip.busy
  refine ⟨rfl, rfl, h1, h2, h3, ?_, by simp⟩
  have := statusByte_wip 0 s.chip.wel s.chip.sr
  simpa using this

/-- C15, instance: a chip that is busy for two more status reads is polled
three times, and an idle chip once. -/
theorem C15_wait_ready_polls_until_idle_witness :
    (∃ u s2, wait_ready 3 exampleState = some (u, s2) ∧
      commands (newSteps exampleState s2) = List.replicate (exampleState.chip.busy + 1) ([0x05], 1) ∧
      watchdogs (newSteps exampleState s2) = exampleState.chip.busy + 1 ∧
      (rxBytes (newSteps exampleState s2)).length = exampleState.chip.busy + 1 ∧
      (∀ j, j < exampleState.chip.busy →
        (rxBytes (newSteps exampleState s2)).getD j 0 &&& 0x01 = 1) ∧
      (rxBytes (newSteps exampleState s2)).getD exampleState.chip.busy 0 = u ∧
      u &&& 0x01 = 0 ∧
      1 ≤ (commands (newSteps exampleState s2)).length) ∧
    (wait_ready 3 exampleState).map
      (fun r => (r.1, commands (newSteps exampleState r.2), rxBytes (newSteps exampleState r.2)))
      = some (0, [([5], 1), ([5], 1), ([5], 1)], [1, 1, 0]) :=
  ⟨C15_wait_ready_polls_until_idle 3 exampleState rfl (by decide), by decide⟩

/-- C16: for every offset, the read command of `xmem_pread`, the page-program
command of `program_page` and the sector-erase command of `erase_sector` are
the opcode (`0x03`, `0x02`, `0xD8`) followed by the three bytes
`(offset >> 16) mod 256`, `(offset >> 8) mod 256`, `offset mod 256` in that
order, then the data bytes for page-program and nothing else for the other
two; the three bytes, most significant first, make up `offset mod 2^24`, which
is `offset` when `offset < 2^24`. -/
theorem C16_three_address_bytes_msb_first (fuel : Nat) (offset : Nat) (s : State)
    (hcs : s.cs = false) (hb : s.chip.busy < fuel) :
    (∀ buf size, ∃ r s2, xmem_pread fuel buf size offset s = some (r, s2) ∧
      withOpcode 0x03 (newSteps s s2) =
        [([0x03, (offset >>> 16) % 256, (offset >>> 8) % 256, offset % 256], size.toNat)]) ∧
    (∀ buf p nbytes, ∃ r s2, program_page fuel offset buf p nbytes s = some (r, s2) ∧
      withOpcode 0x02 (newSteps s s2) =
        [(0x02 :: (offset >>> 16) % 256 :: (offset >>> 8) % 256 :: offset % 256 ::
          pageData buf p nbytes.toNat, 0)]) ∧
    (256 ≤ fuel → offset + 65536 < 2 ^ 32 → ∃ s2, erase_sector fuel offset s = some s2 ∧
      withOpcode 0xd8 (newSteps s s2) =
        [([0xd8, (offset >>> 16) % 256, (offset >>> 8) % 256, offset % 256], 0)]) ∧
    addr24 ((offset >>> 16) % 256) ((offset >>> 8) % 256) (offset % 256) = offset % 2 ^ 24 ∧
    (offset < 2 ^ 24 →
      addr24 ((offset >>> 16) % 256) ((offset >>> 8) % 256) (offset % 256) = offset) := by
  have h24 := shift_bytes offset
  simp only [Nat.shiftRight_zero] at h24
  refine ⟨?_, ?_, ?_, h24, fun h => by rw [h24, Nat.mod_eq_of_lt h]⟩
  · intro buf size
    refine ⟨_, _, xmem_pread_eq fuel buf size offset s hcs hb, ?_⟩
    rw [newSteps_after]
    exact withOpcode_preadTrace s offset size.toNat
  · intro buf p nbytes
    refine ⟨_, _, program_page_eq fuel offset buf p nbytes s hcs hb, ?_⟩
    rw [newSteps_after]
    exact withOpcode_programPageTrace s offset buf p nbytes
  · intro h256 hoff
    obtain ⟨Tc, hro, -, hrun⟩ := erase_sector_spec fuel offset s hcs hb h256 hoff
    refine ⟨_, hrun, ?_⟩
    rw [newSteps_after]
    exact withOpcode_eraseSector _ _ _ _ _ offset Tc hro

set_option maxRecDepth 100000 in
/-- C16, instance: at offset `0x123456` the three commands carry the address
bytes `0x12`, `0x34`, `0x56`; at offset `0x1abcdef` the top byte is dropped. -/
theorem C16_three_address_bytes_msb_first_witness :
    (∃ r s2, xmem_pread 3 [0] 1 0x123456 exampleState = some (r, s2) ∧
      withOpcode 0x03 (newSteps exampleState s2) = [([0x03, 0x12, 0x34, 0x56], 1)]) ∧
    (∃ r s2, program_page 3 0x123456 [7] 0 1 exampleState = some (r, s2) ∧
      withOpcode 0x02 (newSteps exampleState s2) = [([0x02, 0x12, 0x34, 0x56, 0xf8], 0)]) ∧
    (∃ s2, erase_sector 300 0x123456 exampleState = some s2 ∧
      withOpcode 0xd8 (newSteps exampleState s2) = [([0xd8, 0x12, 0x34, 0x56], 0)]) ∧
    addr24 0x12 0x34 0x56 = 0x123456 ∧
    addr24 ((0x1abcdef >>> 16) % 256) ((0x1abcdef >>> 8) % 256) (0x1abcdef % 256) =
      0xabcdef := by
  have h := C16_three_address_bytes_msb_first 300 0x123456 exampleState rfl (by decide)
  have h3 := C16_three_address_bytes_msb_first 3 0x123456 exampleState rfl (by decide)
  have h2 := C16_three_address_bytes_msb_first 3 0x1abcdef exampleState rfl (by decide)
  exact ⟨h3.1 [0] 1, h3.2.1 [7] 0 1, h.2.2.1 (by decide) (by decide), h.2.2.2.2 (by decide),
    h2.2.2.2.1⟩

/-- C17: in every call of `xmem_pread`, `xmem_pwrite` and `xmem_erase` that
returns, each read, write-enable, page-program and sector-erase command is
issued after a read-status command that received a status byte with the
write-in-progress bit clear, with no page-program or sector-erase command
between that poll and the command (`PolledIdle`); by `Chip.deselect` only those
two commands start an internal cycle of the chip model. -/
theorem C17_commands_only_after_idle_poll (fuel : Nat) (s : State) (hcs : s.cs = false) :
    (∀ buf size offset r s2, xmem_pread fuel buf size offset s = some (r, s2) →
      PolledIdle (newSteps s s2)) ∧
    (∀ buf size addr r s2, xmem_pwrite fuel buf size addr s = some (r, s2) →
      PolledIdle (newSteps s s2)) ∧
    (∀ size addr r s2, xmem_erase fuel size addr s = some (r, s2) →
      PolledIdle (newSteps s s2)) := by
  refine ⟨?_, ?_, ?_⟩
  · intro buf size offset r s2 h
    have hb := xmem_pread_some fuel buf size offset s (r, s2) hcs h
    rw [xmem_pread_eq fuel buf size offset s hcs hb] at h
    rw [← (Prod.mk.inj (Option.some.inj h)).2, newSteps_after]
    exact polledIdle_preadTrace s offset size.toNat
  · intro buf size addr r s2 h
    obtain ⟨-, c, T, hs2, hT⟩ := xmem_pwrite_steps fuel buf size addr PolledIdle
      polledIdle_nil polledIdle_append
      (fun s off p nb _ => polledIdle_programPageTrace s off buf p nb) s r s2 hcs h
    rw [hs2, newSteps_after]
    exact hT
  · intro size addr r s2 h
    obtain ⟨c, T, hs2, hT⟩ := xmem_erase_steps fuel size addr PolledIdle
      polledIdle_nil polledIdle_append
      (fun s offset Tc _ hTc _ => polledIdle_eraseSector _ _ _ _ _ offset Tc hTc) s r s2 hcs h
    rw [hs2, newSteps_after]
    exact hT

/-- C17, instance: a read, a write and an erase on a chip that is busy at the
start all return with their commands issued after an idle poll; a
write-enable command alone, with no poll before it, does not pass the check. -/
theorem C17_commands_only_after_idle_poll_witness :
    (∃ r s2, xmem_pread 3 [0] 1 0 exampleState = some (r, s2) ∧
      PolledIdle (newSteps exampleState s2)) ∧
    (∃ r s2, xmem_pwrite 40 (List.replicate 32 0) 32 0xF0 exampleState = some (r, s2) ∧
      PolledIdle (newSteps exampleState s2)) ∧
    (∃ r s2, xmem_erase 300 131072 0 exampleState = some (r, s2) ∧
      PolledIdle (newSteps exampleState s2)) ∧
    ¬ PolledIdle (txn 0 7 [.tx 6] [6] 0) := by
  have h0 := xmem_pread_eq 3 [0] 1 0 exampleState rfl (by decide)
  obtain ⟨c, T, h1, -⟩ := xmem_pwrite_spec 40 (List.replicate 32 0) 32 0xF0 exampleState
    rfl (by decide) (by decide) (by decide) (by decide)
  obtain ⟨c2, T2, h2, -⟩ := xmem_erase_spec 300 131072 0 exampleState rfl (by decide)
    (by decide) (by decide) (by decide) (by decide) (by decide) (by decide)
  have w := C17_commands_only_after_idle_poll 3 exampleState rfl
  have w1 := C17_commands_only_after_idle_poll 40 exampleState rfl
  have w2 := C17_commands_only_after_idle_poll 300 exampleState rfl
  refine ⟨⟨_, _, h0, w.1 _ _ _ _ _ h0⟩, ⟨_, _, h1, w1.2.1 _ _ _ _ _ h1⟩,
    ⟨_, _, h2, w2.2.2 _ _ _ _ h2⟩, ?_⟩
  intro h
  exact absurd (h (false, 0)) (by decide)

/-- C18: the diagnostics only observe.  From the same state, `xmem_pwrite`
built with the canary checks returns exactly when it does without them, with
the same value and the same chip state, and its steps without the printed
lines are the steps of the run without checks, so the commands are the same.
`xmem_erase` with the checks returns the same value as without, leaves the chip
in the same state, and issues the same commands other than status polls and
reads (write-enable and sector-erase with the same addresses); the run without
checks returns whenever the run with checks does, and the converse holds once
the bound on the loops admits the 256 page reads of a sector. -/
theorem C18_diagnostics_only_observe (fuel : Nat) (s : State) (hcs : s.cs = false) :
    (∀ buf size addr r s2,
      xmem_pwrite fuel buf size addr { s with canary := true } = some (r, s2) →
      ∃ t2, xmem_pwrite fuel buf size addr { s with canary := false } = some (r, t2) ∧
        t2.chip = s2.chip ∧
        silent (newSteps { s with canary := true } s2) =
          newSteps { s with canary := false } t2 ∧
        commands (newSteps { s with canary := true } s2) =
          commands (newSteps { s with canary := false } t2)) ∧
    (∀ buf size addr r t2,
      xmem_pwrite fuel buf size addr { s with canary := false } = some (r, t2) →
      ∃ s2, xmem_pwrite fuel buf size addr { s with canary := true } = some (r, s2)) ∧
    (∀ size addr r s2, xmem_erase fuel size addr { s with canary := true } = some (r, s2) →
      ∃ t2, xmem_erase fuel size addr { s with canary := false } = some (r, t2) ∧
        t2.chip = s2.chip ∧
        mutating (newSteps { s with canary := true } s2) =
          mutating (newSteps { s with canary := false } t2)) ∧
    (256 ≤ fuel → ∀ size addr r t2,
      xmem_erase fuel size addr { s with canary := false } = some (r, t2) →
      ∃ s2, xmem_erase fuel size addr { s with canary := true } = some (r, s2)) := by
  have htw := twin_on_off s hcs
  refine ⟨?_, ?_, ?_, ?_⟩
  · intro buf size addr r s2 h
    rcases xmem_pwrite_twin fuel buf size addr _ _ htw with ⟨h1, -⟩ | ⟨c, T, h1, h2⟩
    · rw [h1] at h
      exact Option.noConfusion h
    · rw [h1] at h
      obtain ⟨rfl, rfl⟩ := Prod.mk.inj (Option.some.inj h)
      refine ⟨_, h2, rfl, ?_, ?_⟩
      · rw [newSteps_after, newSteps_after]
      · rw [newSteps_after, newSteps_after, commands_silent]
  · intro buf size addr r t2 h
    rcases xmem_pwrite_twin fuel buf size addr _ _ htw with ⟨-, h2⟩ | ⟨c, T, h1, h2⟩
    · rw [h2] at h
      exact Option.noConfusion h
    · rw [h2] at h
      obtain ⟨rfl, rfl⟩ := Prod.mk.inj (Option.some.inj h)
      exact ⟨_, h1⟩
  · intro size addr r s2 h
    exact xmem_erase_twin fuel size addr _ _ htw r s2 h
  · intro h256 size addr r t2 h
    obtain ⟨a2, ha2, -⟩ := xmem_erase_twin_on fuel h256 size addr _ _ htw r t2 h
    exact ⟨a2, ha2⟩

set_option maxRecDepth 100000 in
/-- C18, instance: a write of the first marker and an erase of one sector,
with and without the checks; the write with the checks prints one line, the
write without prints none. -/
theorem C18_diagnostics_only_observe_witness :
    (∃ r s2 t2,
      xmem_pwrite 8 [0xe7, 0x1d, 0xe5, 0xce, 0] 5 0 { exampleState with canary := true } =
        some (r, s2) ∧
      xmem_pwrite 8 [0xe7, 0x1d, 0xe5, 0xce, 0] 5 0 { exampleState with canary := false } =
        some (r, t2) ∧
      t2.chip = s2.chip ∧
      commands (newSteps { exampleState with canary := true } s2) =
        commands (newSteps { exampleState with canary := false } t2)) ∧
    ((xmem_pwrite 8 [0xe7, 0x1d, 0xe5, 0xce, 0] 5 0 { exampleState with canary := true }).map
        (fun r => reports (newSteps exampleState r.2)),
      (xmem_pwrite 8 [0xe7, 0x1d, 0xe5, 0xce, 0] 5 0 { exampleState with canary := false }).map
        (fun r => reports (newSteps exampleState r.2))) =
      (some [Report.canaryW 1 0 0], some []) ∧
    (∃ r s2 t2,
      xmem_erase 300 65536 0 { exampleState with canary := true } = some (r, s2) ∧
      xmem_erase 300 65536 0 { exampleState with canary := false } = some (r, t2) ∧
      t2.chip = s2.chip ∧
      mutating (newSteps { exampleState with canary := true } s2) =
        mutating (newSteps { exampleState with canary := false } t2)) := by
  obtain ⟨c, T, h1, -⟩ := xmem_pwrite_spec 8 [0xe7, 0x1d, 0xe5, 0xce, 0] 5 0
    { exampleState with canary := true } rfl (by decide) (by decide) (by decide) (by decide)
  obtain ⟨c2, T2, h2, -⟩ := xmem_erase_spec 300 65536 0 { exampleState with canary := true }
    rfl (by decide) (by decide) (by decide) (by decide) (by decide) (by decide) (by decide)
  obtain ⟨t2, w1, w2, -, w3⟩ := (C18_diagnostics_only_observe 8 exampleState rfl).1 _ _ _ _ _ h1
  obtain ⟨u2, v1, v2, v3⟩ := (C18_diagnostics_only_observe 300 exampleState rfl).2.2.1 _ _ _ _ h2
  exact ⟨⟨_, _, _, h1, w1, w2, w3⟩, by decide, ⟨_, _, _, h2, v1, v2, v3⟩⟩

/-- C19: `check_write_canary(b, size, offset)` looks only at the bytes of `b`
at the indices in `[0, size)`: two buffers that agree there give the same
result, whatever lies beyond; for `size < 4` it does nothing at all, so it
prints no line; and the scan of `check_erase_canary` over its page buffer looks
only at the indices below 256. -/
theorem C19_canary_scans_stay_in_bounds :
    (∀ (b b2 : List Nat) (size : Int) (offset : Nat) (s : State),
      (∀ j : Nat, (j : Int) < size → b.getD j 0 = b2.getD j 0) →
      check_write_canary b size offset s = check_write_canary b2 size offset s) ∧
    (∀ (b : List Nat) (size : Int) (offset : Nat) (s : State), size < 4 →
      check_write_canary b size offset s = s) ∧
    (∀ (b b2 : List Nat) (p offset : Nat) (s : State),
      (∀ j : Nat, j < PAGE_SIZE → b.getD j 0 = b2.getD j 0) →
      check_erase_canary_scan b p offset (PAGE_SIZE - 4) 0 s =
        check_erase_canary_scan b2 p offset (PAGE_SIZE - 4) 0 s) := by
  refine ⟨?_, ?_, ?_⟩
  · intro b b2 size offset s h
    unfold check_write_canary
    by_cases h4 : size ≥ 4
    · rw [if_pos h4]
      apply check_write_canary_loop_congr
      intro j _ hj
      apply h
      omega
    · rw [if_neg h4]
      rfl
  · intro b size offset s h
    unfold check_write_canary
    rw [if_neg (by omega)]
    rfl
  · intro b b2 p offset s h
    apply check_erase_canary_scan_congr
    intro j _ hj
    apply h
    simp only [PAGE_SIZE] at hj ⊢
    omega

/-- C19, instance: a marker lying right behind a five-byte chunk, or right
behind the 256 bytes of the page buffer, makes no difference, and a chunk of
three bytes is not scanned. -/
theorem C19_canary_scans_stay_in_bounds_witness :
    check_write_canary [1, 2, 3, 4, 5] 5 0 exampleState =
      check_write_canary [1, 2, 3, 4, 5, 0xe7, 0x1d, 0xe5, 0xce] 5 0 exampleState ∧
    check_write_canary [0xe7, 0x1d, 0xe5, 0xce] 3 0 exampleState = exampleState ∧
    check_erase_canary_scan (List.replicate 256 0) 0 0 (PAGE_SIZE - 4) 0 exampleState =
      check_erase_canary_scan (List.replicate 256 0 ++ [0xe7, 0x1d, 0xe5, 0xce]) 0 0
        (PAGE_SIZE - 4) 0 exampleState := by
  refine ⟨C19_canary_scans_stay_in_bounds.1 _ _ 5 0 exampleState ?_,
    C19_canary_scans_stay_in_bounds.2.1 _ 3 0 exampleState (by decide),
    C19_canary_scans_stay_in_bounds.2.2 _ _ 0 0 exampleState ?_⟩
  · intro j hj
    have hj5 : j < 5 := by omega
    interval_cases j <;> rfl
  · intro j hj
    have hj2 : j < (List.replicate 256 0).length := by
      rw [List.length_replicate]
      exact hj
    rw [List.getD_eq_getElem?_getD, List.getD_eq_getElem?_getD,
      List.getElem?_append_left hj2]

end Xmem
